import Mathlib

/-!
Verification of the graph-partitioning and compilation-caching core of
functorch's AOT autograd module (`functorch/_src/aot_autograd.py`).

The graph model is a shallow embedding of the `torch.fx` graphs the source
file manipulates: a graph is a topologically ordered list of named nodes
(placeholders, `call_function` nodes, `get_attr` nodes and a final output
node); arguments are references to earlier nodes (by name, names being
unique within a graph) or literals.  Operator semantics are kept abstract
as an interpretation function `interp : String → List V → V`.

Python `set` iteration order is unspecified, so functions of the source
that enumerate a set (`saved_nodes` in `default_partition`, `cut_nodes` in
`partition_with_recompute_fwd_in_bwd`) take the enumeration order as an
explicit parameter, constrained in the theorems to be a permutation of the
collected elements.  Failure (Python exceptions: `KeyError`,
`AssertionError`, `AttributeError`) is modelled with `Option`/`Except`.
-/

namespace Aot

/-- fx node kinds occurring in `aot_autograd.py`. -/
inductive NOp where
  | placeholder
  | callFunction
  | getAttr
  | output
deriving DecidableEq, Repr

/-- A flattened fx argument: a reference to a node (by name) or a literal.
The source walks `node.args`/`node.kwargs` with `map_arg` /
`pytree.tree_flatten`, which visit exactly the `fx.Node` leaves, so a
flat list of node references and literals is the faithful view. -/
inductive Arg (V : Type) where
  | node (name : String)
  | lit (v : V)
deriving DecidableEq, Repr

/-- An fx node.  `target` is the placeholder's target string, the called
operator's name (for `call_function`), or the attribute name (for
`get_attr`); `meta` is the `tensor_meta` shape when present.  For the
output node, `args` is the flattened list of graph outputs
(`output_node.args[0]` in the source). -/
structure Node (V : Type) where
  name : String
  op : NOp
  target : String
  args : List (Arg V)
  kwargs : List (Arg V)
  meta : Option (List Nat)
deriving DecidableEq, Repr

abbrev Graph (V : Type) := List (Node V)

/-- `pat` is an initial segment of `l`. -/
def startsWithL : List Char → List Char → Bool
  | [], _ => true
  | _ :: _, [] => false
  | c :: cs, d :: ds => c == d && startsWithL cs ds

def substrAux (pat : List Char) : List Char → Bool
  | [] => startsWithL pat []
  | c :: t => startsWithL pat (c :: t) || substrAux pat t

/-- Python's `pat in s` substring test on strings. -/
def containsStr (s pat : String) : Bool := substrAux pat.toList s.toList

section Model
variable {V : Type}

/-- `_is_tangent` (line 168): a placeholder whose target mentions `"tangents"`. -/
def isTangentPH (n : Node V) : Bool :=
  n.op == .placeholder && containsStr n.target "tangents"

/-- `_is_primal` (line 165): a placeholder whose target does not mention
`"tangents"`. -/
def isPrimalPH (n : Node V) : Bool :=
  n.op == .placeholder && !containsStr n.target "tangents"

/-- The `"primals" in node.target` test of line 267. -/
def isPrimalsNamedPH (n : Node V) : Bool :=
  n.op == .placeholder && containsStr n.target "primals"

/-- The node names referenced by a node's (positional and keyword)
arguments, in visit order. -/
def argNames (n : Node V) : List String :=
  (n.args ++ n.kwargs).filterMap fun a =>
    match a with
    | .node s => some s
    | .lit _ => none

/-- `node.users` of fx: the graph nodes whose arguments reference `n`. -/
def usersOf (g : Graph V) (n : Node V) : List (Node V) :=
  g.filter (fun m => (argNames m).contains n.name)

/-! ### Evaluation semantics -/

def resolveArg (env : String → Option V) : Arg V → Option V
  | .node s => env s
  | .lit v => some v

/-- Effectful map over a list in the `Option` monad (any element failing
fails the whole list, like a Python comprehension raising). -/
def mapMOpt {α β : Type} (f : α → Option β) : List α → Option (List β)
  | [] => some []
  | a :: t =>
    match f a, mapMOpt f t with
    | some b, some bs => some (b :: bs)
    | _, _ => none

def evalArgs (env : String → Option V) (l : List (Arg V)) : Option (List V) :=
  mapMOpt (resolveArg env) l

def update (env : String → Option V) (s : String) (v : V) : String → Option V :=
  fun x => if x = s then some v else env x

variable (interp : String → List V → V) (attrs : String → Option V)

/-- Run the nodes of a graph in order: placeholders consume the input queue
positionally, `call_function` nodes apply `interp` to their resolved
arguments, `get_attr` nodes read from the module attribute environment,
the output node binds nothing.  Returns the final environment and the
unconsumed input queue; `none` models a runtime failure (unbound
reference, missing input). -/
def runNodes : List (Node V) → (String → Option V) → List V →
    Option ((String → Option V) × List V)
  | [], env, q => some (env, q)
  | n :: rest, env, q =>
    match n.op with
    | .placeholder =>
      match q with
      | [] => none
      | v :: q' => runNodes rest (update env n.name v) q'
    | .callFunction =>
      match evalArgs env (n.args ++ n.kwargs) with
      | none => none
      | some vs => runNodes rest (update env n.name (interp n.target vs)) q
    | .getAttr =>
      match attrs n.target with
      | none => none
      | some v => runNodes rest (update env n.name v) q
    | .output => runNodes rest env q

/-- The flattened output list of a graph (`_extract_fwd_bwd_outputs`
flattens the args of every output node; a well-formed graph has exactly
one). -/
def outputArgs (g : Graph V) : List (Arg V) :=
  (g.filter (fun n => n.op == .output)).flatMap Node.args

/-- Execute a graph as a module on a flat list of inputs and return its
flat list of outputs (`normalize_as_list` semantics: a single output and a
tuple of outputs both read back as a list). -/
def evalModule (g : Graph V) (inputs : List V) : Option (List V) :=
  match runNodes interp attrs g (fun _ => none) inputs with
  | none => none
  | some (env, q) => if q.isEmpty then evalArgs env (outputArgs g) else none

end Model

/-! ### Well-formedness of fx graphs

These record the structural invariants `torch.fx` guarantees for a traced
graph: unique node names, arguments referencing earlier nodes only,
exactly one output node placed last, placeholders first and argument-free. -/

section WF
variable {V : Type}

def nodupB : List String → Bool
  | [] => true
  | s :: rest => !rest.contains s && nodupB rest

def bindsName (n : Node V) : Bool := n.op != .output

/-- Every argument of every node refers to an earlier non-output node. -/
def argsClosedAux : List String → List (Node V) → Bool
  | _, [] => true
  | dom, n :: rest =>
    (argNames n).all (fun a => dom.contains a) &&
    argsClosedAux (if bindsName n then dom ++ [n.name] else dom) rest

def oneOutputLastB (g : Graph V) : Bool :=
  match g.getLast? with
  | none => false
  | some n => n.op == .output && (g.filter (fun m => m.op == .output)).length == 1

def phArgsEmptyB (g : Graph V) : Bool :=
  g.all (fun n => n.op != .placeholder || (n.args.isEmpty && n.kwargs.isEmpty))

def placeholdersFirstB (g : Graph V) : Bool :=
  (g.dropWhile (fun n => n.op == .placeholder)).all (fun n => n.op != .placeholder)

def noReservedNameB (g : Graph V) : Bool :=
  g.all (fun n => n.op == .output || n.name != "output")

def wfB (g : Graph V) : Bool :=
  nodupB (g.map Node.name) && argsClosedAux [] g && oneOutputLastB g &&
  phArgsEmptyB g && placeholdersFirstB g && noReservedNameB g

end WF

/-! ### Evaluation bookkeeping for the partition-correctness proofs -/

section EvalBookkeeping
variable {V : Type}

/-- The names bound while running a graph (placeholders, `call_function`
and `get_attr` nodes — everything except the output node). -/
def bindingNames (l : List (Node V)) : List String :=
  (l.filter bindsName).map Node.name

/-- The defining equation a node imposes on an environment: the
environment's value at the node's name is what re-running the node on the
environment itself produces.  A topologically ordered successful run
satisfies these equations with respect to its final environment, and they
in turn pin down the result of running any re-arrangement of the nodes. -/
def nodeEquations (interp : String → List V → V) (attrs : String → Option V)
    (envT : String → Option V) (n : Node V) : Prop :=
  match n.op with
  | .callFunction => ∃ vs, evalArgs envT (n.args ++ n.kwargs) = some vs ∧
      envT n.name = some (interp n.target vs)
  | .getAttr => ∃ v, attrs n.target = some v ∧ envT n.name = some v
  | .placeholder => True
  | .output => True

/-- The input queue feeds the placeholders of the node list, in order,
with exactly the values the target environment assigns to them, and is
fully consumed. -/
def phValuesMatch (envT : String → Option V) : List (Node V) → List V → Prop
  | [], q => q = []
  | n :: rest, q =>
    if n.op = .placeholder then
      ∃ v q', q = v :: q' ∧ envT n.name = some v ∧ phValuesMatch envT rest q'
    else phValuesMatch envT rest q

/-- The placeholder names of a node list, in order (the positional input
signature of the graph as a module). -/
def phNames (l : List (Node V)) : List String :=
  (l.filter (fun n => n.op == .placeholder)).map Node.name

end EvalBookkeeping

/-! ### `default_partition` (lines 41-102) -/

section DefaultPartition
variable {V : Type}

/-- A traced joint module: the graph plus the output split counts read from
`_out_spec.children_specs[i].num_leaves` (lines 68-69, 172). -/
structure JointModule (V : Type) where
  graph : Graph V
  numFwd : Nat
  numBwd : Nat

/-- One step of the coloring loop of `default_partition` (lines 45-66):
tangent placeholders are colored backward; any other non-output node whose
arguments touch the backward or saved set is colored backward, and its
arguments not in the backward set are added (set-insert) to the saved set.
State: (backward names in coloring order, saved names in discovery order). -/
def savedAdd (bw' : List String) (saved : List String) (l : List String) : List String :=
  l.foldl (fun acc a => if !bw'.contains a && !acc.contains a then acc ++ [a] else acc)
    saved

def colorStep (st : List String × List String) (n : Node V) :
    List String × List String :=
  let (bw, saved) := st
  if isTangentPH n then (bw ++ [n.name], saved)
  else if n.op != .output then
    if (argNames n).any (fun a => bw.contains a || saved.contains a) then
      (bw ++ [n.name], savedAdd (bw ++ [n.name]) saved (argNames n))
    else (bw, saved)
  else (bw, saved)

def colorFold (g : Graph V) : List String × List String :=
  g.foldl colorStep ([], [])

/-- The `output_node` variable of lines 44, 65-66: the last output node of
the walk, if any. -/
def lastOutput? (g : Graph V) : Option (Node V) :=
  g.foldl (fun acc n => if n.op == .output then some n else acc) none

def mkPlaceholder (s : String) : Node V := ⟨s, .placeholder, s, [], [], none⟩

def mkOutput (outs : List (Arg V)) : Node V := ⟨"output", .output, "output", outs, [], none⟩

/-- `fx.Graph.node_copy` over a graph restricted to `cond`, with a
name-keyed `value_remap` initialised to `dom0`.  Since names are unique
and copies keep them, a copied node is the node itself; `none` models the
`KeyError` raised when an argument is missing from the remap. -/
def copyNodesAux (cond : Node V → Bool) :
    List (Node V) → List (Node V) × List String →
      Option (List (Node V) × List String)
  | [], st => some st
  | n :: rest, st =>
    if cond n then
      if (argNames n).all st.2.contains then
        copyNodesAux cond rest (st.1 ++ [n], st.2 ++ [n.name])
      else none
    else copyNodesAux cond rest st

def copyNodes (g : Graph V) (cond : Node V → Bool) (dom0 : List String) :
    Option (List (Node V) × List String) :=
  copyNodesAux cond g ([], dom0)

def argMatchesName (a : Arg V) (s : String) : Bool :=
  match a with
  | .node x => x == s
  | .lit _ => false

/-- Shallow embedding of `default_partition` (lines 41-102).  `savedOrder`
is the iteration order of the Python set `saved_nodes`, used both for the
backward graph's saved placeholders (line 74) and for the forward graph's
extra outputs (line 95); within one call the same set is enumerated twice
unmutated, hence one shared order.  The single-element output unwrapping
(lines 83-84, 96-97) does not change the flat output list `evalModule`
produces and is not modelled. -/
def defaultPartition (m : JointModule V) (savedOrder : List String) :
    Option (Graph V × Graph V) := do
  let bw := (colorFold m.graph).1
  let outNode ← lastOutput? m.graph
  let outs := outNode.args
  let bwOutArgs := outs.drop m.numFwd
  -- backward graph (lines 72-86)
  let bwPhs : List (Node V) := savedOrder.map mkPlaceholder
  let copied ← copyNodes m.graph
    (fun n => bw.contains n.name || bwOutArgs.any (fun a => argMatchesName a n.name))
    savedOrder
  if m.numFwd + m.numBwd != outs.length then none else do
  let bwdOutNames ← mapMOpt (fun a =>
    match a with
    | .node x => if copied.2.contains x then some x else none
    | .lit _ => none) bwOutArgs
  let bwGraph := bwPhs ++ copied.1 ++ [mkOutput (bwdOutNames.map Arg.node)]
  -- forward graph (lines 88-99)
  let fwCopied ← copyNodes m.graph
    (fun n => !bw.contains n.name && n.op != .output) []
  let fwdOutNames ← mapMOpt (fun a =>
    match a with
    | .node x => if fwCopied.2.contains x then some x else none
    | .lit _ => none) (outs.take m.numFwd)
  let savedOutNames ← mapMOpt (fun s =>
    if fwCopied.2.contains s then some s else none) savedOrder
  let fwGraph := fwCopied.1 ++ [mkOutput ((fwdOutNames ++ savedOutNames).map Arg.node)]
  return (fwGraph, bwGraph)

/-- The condition under which the walk of lines 45-64 colors node `n`
backward, given the walk state `st` when `n` is reached. -/
def coloredCond (st : List String × List String) (n : Node V) : Bool :=
  isTangentPH n ||
    (n.op != .output && (argNames n).any (fun a => st.1.contains a || st.2.contains a))

/-- `x` is inserted into the saved set at node `m`'s coloring step, the walk
state being `st` when `m` is reached. -/
def savedAddedAt (st : List String × List String) (m : Node V) (x : String) : Prop :=
  isTangentPH m = false ∧ m.op ≠ .output ∧
    (∃ a ∈ argNames m, a ∈ st.1 ∨ a ∈ st.2) ∧
    x ∈ argNames m ∧ x ∉ st.1 ++ [m.name]

end DefaultPartition

/-! ### `_extract_graph_with_inputs_outputs` (lines 113-163) and
`_extract_fwd_bwd_modules` (lines 178-201) -/

section Extraction
variable {V : Type}

/-- One step of the environment walk of
`_extract_graph_with_inputs_outputs` (lines 133-158), name-keyed.  A node
in `inputs` maps to its new placeholder; any other placeholder maps to
`InvalidNode`; a `call_function` node with an invalid argument maps to
`InvalidNode`, otherwise it is re-traced (same target, same arguments,
hence — names being preserved — the node itself); `get_attr` nodes are
copied unconditionally. -/
def extractStep (inputNames : List String)
    (st : List String × List (Node V)) (n : Node V) :
    List String × List (Node V) :=
  if inputNames.contains n.name then (st.1 ++ [n.name], st.2)
  else
    match n.op with
    | .placeholder => st
    | .callFunction =>
      if (argNames n).all st.1.contains then (st.1 ++ [n.name], st.2 ++ [n])
      else st
    | .getAttr => (st.1 ++ [n.name], st.2 ++ [n])
    | .output => st

/-- The whole environment walk: the names of the nodes whose `env` entry
is a live proxy (not `InvalidNode`), in walk order, together with the
`call_function`/`get_attr` nodes re-emitted into the new graph. -/
def extractWalk (inputNames : List String) (g : Graph V) :
    List String × List (Node V) :=
  g.foldl (extractStep inputNames) ([], [])

/-- Resolution of the requested outputs (line 159): a literal output or an
output whose `env` entry is invalid raises (`env[x]` / `.node` on
`InvalidNode`). -/
def resolveOuts (valid : List String) (outs : List (Arg V)) : Option (List String) :=
  mapMOpt
    (fun a =>
      match a with
      | .node x => if valid.contains x then some x else none
      | .lit _ => none)
    outs

/-- Names reachable from `seeds` walking the (topologically ordered) node
list backwards: the live set of `eliminate_dead_code` (line 161). -/
def reachFold (nodes : List (Node V)) (seeds : List String) : List String :=
  nodes.foldr (fun n acc => if acc.contains n.name then acc ++ argNames n else acc)
    seeds

/-- `_extract_graph_with_inputs_outputs`: placeholders for the inputs in
order, the re-emitted valid nodes, dead code eliminated (placeholders are
impure and always survive), and the output node. -/
def extractGraph (g : Graph V) (inputNames : List String) (outs : List (Arg V)) :
    Option (Graph V) :=
  let walk := extractWalk inputNames g
  match resolveOuts walk.1 outs with
  | none => none
  | some outNames =>
    let pre := inputNames.map mkPlaceholder ++ walk.2
    let reach := reachFold pre outNames
    some (pre.filter (fun n => n.op == .placeholder || reach.contains n.name) ++
      [mkOutput (outNames.map Arg.node)])

/-- `node.users` is nonempty: some node of the graph (including the output
node) references `s`. -/
def hasUsers (g : Graph V) (s : String) : Bool :=
  g.any (fun n => (argNames n).contains s)

/-- Python `list.remove`: drop the first occurrence. -/
def removeFirst : List String → String → List String
  | [], _ => []
  | a :: t, s => if a == s then t else a :: removeFirst t s

/-- The refinement loop of lines 187-192: walk the backward graph; every
placeholder with no users removes the first saved value of the same name. -/
def refineSaved (bg : Graph V) (saved : List String) : List String :=
  bg.foldl
    (fun acc n =>
      if n.op == .placeholder && !hasUsers bg n.name then removeFirst acc n.name
      else acc)
    saved

def primalInputNames (g : Graph V) : List String :=
  (g.filter (fun n => isPrimalPH n)).map Node.name

def tangentInputNames (g : Graph V) : List String :=
  (g.filter (fun n => isTangentPH n)).map Node.name

/-- `_extract_fwd_bwd_modules` (lines 178-201): build both subgraphs, drop
saved values whose backward placeholder has no users, rebuild both
subgraphs once with the reduced saved list. -/
def extractFwdBwdModules (m : JointModule V) (saved : List String) :
    Option (Graph V × Graph V) := do
  let fwdOuts := (outputArgs m.graph).take m.numFwd
  let bwdOuts := (outputArgs m.graph).drop m.numFwd
  let primals := primalInputNames m.graph
  let tangents := tangentInputNames m.graph
  let _fwd1 ← extractGraph m.graph primals (fwdOuts ++ saved.map Arg.node)
  let bwd1 ← extractGraph m.graph (saved ++ tangents) bwdOuts
  let saved2 := refineSaved bwd1 saved
  let fwd2 ← extractGraph m.graph primals (fwdOuts ++ saved2.map Arg.node)
  let bwd2 ← extractGraph m.graph (saved2 ++ tangents) bwdOuts
  return (fwd2, bwd2)

end Extraction

/-! ### `partition_with_recompute_fwd_in_bwd` (lines 218-305)

The flow network of lines 236-287.  The source builds networkx node names
by string surgery (`node.name + "_in"`, `node.name + "_out"`, `"source"`,
`"sink"`); since node names are unique the encoding is injective, and the
network vertices are modelled as an inductive type, with the assert of
line 296 (`node_in[:-3] == node_out[:-4]`) modelled as equality of the
decoded names. -/

inductive NVert where
  | source
  | sink
  | nin (s : String)
  | nout (s : String)
deriving DecidableEq, Repr

section Network
variable {V : Type}

/-- `prod` (lines 211-215). -/
def prodNat (l : List Nat) : Nat := l.foldl (fun s i => s * i) 1

/-- The tangent-closure loop of lines 237-245: tangent placeholders seed
the set, and each node already in the set adds its users (the walk being
topological, this computes everything downstream of a tangent input). -/
def tangentClosure (g : Graph V) : List String :=
  g.foldl
    (fun acc n =>
      let acc' := if n.op == .placeholder && containsStr n.target "tangents"
        then acc ++ [n.name] else acc
      if acc'.contains n.name then acc' ++ (usersOf g n).map Node.name else acc')
    []

/-- `pointwise_ops` (line 247), by aten operator name. -/
def pointwiseOps : List String :=
  ["add", "sub", "div", "atan2", "mul", "max", "min", "pow", "remainder",
   "fmod", "__and__", "__or__", "__xor__", "__lshift__", "__rshift__",
   "eq", "ne", "ge", "gt", "le", "lt", "abs", "bitwise_not", "ceil",
   "floor", "frac", "neg", "relu", "round", "silu", "trunc", "log",
   "log10", "log1p", "log2", "lgamma", "exp", "expm1", "erf", "erfc",
   "cos", "acos", "cosh", "sin", "asin", "sinh", "tan", "atan", "tanh",
   "atanh", "sqrt", "rsqrt", "reciprocal", "sigmoid", "softplus",
   "threshold", "threshold_backward", "clamp", "where", "lerp", "addcmul",
   "gelu", "gelu_backward"]

/-- `reduction_ops` (line 248). -/
def reductionOps : List String :=
  ["softmax", "_softmax", "_softmax_backward_data", "sum", "mean",
   "_grad_sum_to_size", "sum_to_size", "amax"]

/-- `norm_ops` (line 249). -/
def normOps : List String :=
  ["instance_norm", "_batch_norm_impl_index", "native_batch_norm",
   "batch_norm", "_batch_norm_impl_index_backward", "native_layer_norm",
   "layer_norm", "native_layer_norm_backward"]

/-- `misc_ops` (line 250). -/
def miscOps : List String := ["to", "type_as"]

/-- `view_ops` (line 252) — defined in the source but *not* included in
`recomputable_ops`. -/
def viewOps : List String :=
  ["expand", "clone", "transpose", "t", "view", "_unsafe_view", "permute",
   "transpose", "t", "_reshape_alias", "squeeze", "unsqueeze", "reshape"]

/-- `recomputable_ops` (lines 254-259): pointwise + reduction + norm +
misc; `view_ops` is absent. -/
def recomputableOps : List String :=
  pointwiseOps ++ reductionOps ++ normOps ++ miscOps

/-- The `node.target not in recomputable_ops` test (line 271), negated:
`recomputable_ops` holds aten overload packets, which only a
`call_function` target can equal — placeholder / `get_attr` / output
targets are strings and never members. -/
def isRecomputableNode (n : Node V) : Bool :=
  n.op == .callFunction && recomputableOps.contains n.target

/-- The capacity of the in→out edge (lines 274-281): infinite without
`tensor_meta`; the element count for a primal-input placeholder
(`is_input`); twice the element count otherwise. -/
def nodeWeight (n : Node V) : WithTop Nat :=
  match n.meta with
  | none => ⊤
  | some shape =>
    if isPrimalsNamedPH n then ((prodNat shape : Nat) : WithTop Nat)
    else ((2 * prodNat shape : Nat) : WithTop Nat)

/-- The edges contributed by one node (lines 262-286), in insertion order:
a node in the tangent closure only gets `in → sink` (the loop `continue`s);
otherwise a primal-named placeholder gets `source → in`, a
non-recomputable target gets `source → in`, every node gets
`in → out` with `nodeWeight`, and a wiring edge `out → user.in` per user. -/
def nodeNetEdges (g : Graph V) (cl : List String) (n : Node V) :
    List (NVert × NVert × WithTop Nat) :=
  if cl.contains n.name then [(.nin n.name, .sink, ⊤)]
  else
    (if isPrimalsNamedPH n then [(.source, .nin n.name, ⊤)] else []) ++
    (if !isRecomputableNode n then [(.source, .nin n.name, ⊤)] else []) ++
    [(.nin n.name, .nout n.name, nodeWeight n)] ++
    (usersOf g n).map (fun u => (.nout n.name, .nin u.name, ⊤))

def netEdges (g : Graph V) : List (NVert × NVert × WithTop Nat) :=
  g.flatMap (nodeNetEdges g (tangentClosure g))

/-- The resolved capacity of edge `(u, v)` — `nx.DiGraph.add_edge`
overwrites, so the last insertion wins; `none` when the edge is absent. -/
def capOf (es : List (NVert × NVert × WithTop Nat)) (u v : NVert) :
    Option (WithTop Nat) :=
  ((es.filter (fun e => e.1 == u && e.2.1 == v)).getLast?).map (fun e => e.2.2)

/-- The cutset computation of lines 290-292: edges from the reachable side
(`inS`) to the non-reachable side of the partition `nx.minimum_cut`
returned. -/
def cutEdges (es : List (NVert × NVert × WithTop Nat)) (inS : NVert → Bool) :
    List (NVert × NVert × WithTop Nat) :=
  es.filter (fun e => inS e.1 && !inS e.2.1)

/-- Lines 294-298: assert that each cutset edge joins `name_in` to
`name_out` for one node name and collect the names; `none` models the
`AssertionError`. -/
def cutNodeNames (es : List (NVert × NVert × WithTop Nat)) :
    Option (List String) :=
  mapMOpt
    (fun e =>
      match e.1, e.2.1 with
      | .nin a, .nout b => if a == b then some a else none
      | _, _ => none)
    es

/-- `partition_with_recompute_fwd_in_bwd` (lines 218-305).  The external
library calls are parameters: `nxAvailable` is whether `import networkx`
succeeds (line 227-230); `inS` is the source side of the partition
returned by `nx.minimum_cut` (line 288); `savedList` is the iteration
order of the Python set `cut_nodes` (line 302), constrained in the
theorems to enumerate exactly the asserted cut node names. -/
def partitionRecompute (m : JointModule V) (nxAvailable : Bool)
    (inS : NVert → Bool) (savedList : List String) :
    Option (Graph V × Graph V) :=
  if !nxAvailable then none
  else
    match cutNodeNames (cutEdges (netEdges m.graph) inS) with
    | none => none
    | some _ => extractFwdBwdModules m savedList

end Network

/-! ### Concrete example graphs (used by the witnesses)

`exJoint`: joint graph of `f(a) = a*a` with one tangent: `s = a*a` is the
forward output, `c = a+a` a forward-region value consumed by the backward
region, `g = t*c` the gradient output.
`exJoint2`: two primals, two saved values (`f1`, `f2`). -/

def exA : Node Int := ⟨"a", .placeholder, "primals_1", [], [], some [2]⟩
def exB : Node Int := ⟨"b", .placeholder, "primals_2", [], [], some [2]⟩
def exT : Node Int := ⟨"t", .placeholder, "tangents_1", [], [], some [2]⟩
def exS : Node Int := ⟨"s", .callFunction, "mul", [.node "a", .node "a"], [], some [2]⟩
def exC : Node Int := ⟨"c", .callFunction, "add", [.node "a", .node "a"], [], some [2]⟩
def exG : Node Int := ⟨"g", .callFunction, "mul", [.node "t", .node "c"], [], some [2]⟩
def exOut : Node Int := ⟨"output", .output, "output", [.node "s", .node "g"], [], none⟩

def exJoint : Graph Int := [exA, exT, exS, exC, exG, exOut]

def exF1 : Node Int := ⟨"f1", .callFunction, "mul", [.node "a", .node "a"], [], some [2]⟩
def exF2 : Node Int := ⟨"f2", .callFunction, "mul", [.node "b", .node "b"], [], some [2]⟩
def exF3 : Node Int := ⟨"f3", .callFunction, "add", [.node "a", .node "b"], [], some [2]⟩
def exG1 : Node Int := ⟨"g1", .callFunction, "mul", [.node "t", .node "f1"], [], some [2]⟩
def exG2 : Node Int := ⟨"g2", .callFunction, "mul", [.node "g1", .node "f2"], [], some [2]⟩
def exOut2 : Node Int := ⟨"output", .output, "output", [.node "f3", .node "g2"], [], none⟩

def exJoint2 : Graph Int := [exA, exB, exT, exF1, exF2, exF3, exG1, exG2, exOut2]

/-- A small graph with a non-recomputable op (`mm`) and a view op
(`view`), both with `tensor_meta` shape `[2, 3]`. -/
def exP : Node Int := ⟨"p", .placeholder, "primals_1", [], [], some [2]⟩
def exM : Node Int := ⟨"m", .callFunction, "mm", [.node "p", .node "p"], [], some [2, 3]⟩
def exV : Node Int := ⟨"v", .callFunction, "view", [.node "m"], [], some [2, 3]⟩
def exOutN : Node Int := ⟨"output", .output, "output", [.node "v"], [], none⟩
def exNet : Graph Int := [exP, exM, exV, exOutN]

/-- A concrete operator interpretation for the examples. -/
def exInterp : String → List Int → Int
  | "mul", [x, y] => x * y
  | "add", [x, y] => x + y
  | _, _ => 0

def exAttrs : String → Option Int := fun _ => none

/-! ### Gradient routing (`create_joint_forward_backward`, lines 307-315,
and `CompiledFunction.backward`, lines 391-399) -/

section Routing
variable {V : Type}

/-- The `wrt` list of the joint backward (line 310): the flattened primal
leaves that require grad, in original order.  A leaf is a (value,
requires_grad) pair. -/
def filterRequiresGrad (ps : List (V × Bool)) : List V :=
  (ps.filter (fun p => p.2)).map (fun p => p.1)

/-- Number of `true` flags (`|S|`). -/
def countTrue : List Bool → Nat
  | [] => 0
  | true :: t => countTrue t + 1
  | false :: t => countTrue t

/-- Lines 396-399: `out_iter = iter(out); grad_out = [next(out_iter) if p
else None for p in ctx.needs_input_grad]`.  `none` models `StopIteration`
when the compiled backward returned fewer results than there are
grad-requiring inputs. -/
def routeGrads : List Bool → List V → Option (List (Option V))
  | [], _ => some []
  | true :: _, [] => none
  | true :: rest, v :: outs => (routeGrads rest outs).map (fun l => some v :: l)
  | false :: rest, outs => (routeGrads rest outs).map (fun l => none :: l)

end Routing

/-! ### Compilation caching (`compiled_function` / `returned_function`,
lines 440-503, and the lazy compile of `CompiledFunction.forward`,
lines 349-389) -/

inductive CompileEv where
  | fwCompile
  | bwCompile
deriving DecidableEq, Repr

/-- The `compiled_fw` / `compiled_bw` closure slots of one wrapped unit
(`nonlocal` state of `create_compiled_function`, lines 349-351): whether
each compiler has successfully run. -/
structure LazyUnit where
  fwCompiled : Bool
  bwCompiled : Bool
deriving DecidableEq, Repr

/-- Modelled from the spec: the compilation cache's own lookup/insert map
contract (§4.4 / §2 "Compilation Cache") — the cache body
(`functorch._C.CompileCache`) is C++ code outside `src/`.  Keys stand for
the full (fn id, arg count, hasher, signature) tuple. -/
abbrev CCache := List (Nat × LazyUnit)

def cacheAt (c : CCache) (k : Nat) : Option LazyUnit :=
  (c.find? (fun p => p.1 == k)).map Prod.snd

def cacheInsert (c : CCache) (k : Nat) (u : LazyUnit) : CCache :=
  c ++ [(k, u)]

def cacheUpdate (c : CCache) (k : Nat) (u : LazyUnit) : CCache :=
  c.map (fun p => if p.1 == k then (k, u) else p)

/-- One run of `CompiledFunction.forward` (lines 355-389) on a unit in
state `u`: when `compiled_fw` is unset it calls the forward compiler
(`fwOk` = the call returns instead of raising; on a raise `compiled_fw`
stays `None`), then the backward compiler (line 385); when `compiled_fw`
is already set it reuses it and attempts no compilation at all.  Returns
(new unit state, returned-normally, compiler invocations). -/
def unitForward (u : LazyUnit) (fwOk bwOk : Bool) :
    LazyUnit × Bool × List CompileEv :=
  if u.fwCompiled = false then
    if fwOk = false then (u, false, [.fwCompile])
    else if bwOk = false then
      ({ fwCompiled := true, bwCompiled := false }, false, [.fwCompile, .bwCompile])
    else ({ fwCompiled := true, bwCompiled := true }, true, [.fwCompile, .bwCompile])
  else (u, true, [])

/-- One call of `returned_function` (lines 450-487): cache lookup; on a
miss the wrapped unit is inserted into the cache *before* its first
execution (insert at line 479, execution at line 486); the unit's closure
state after the execution is what the cache entry refers to. -/
def returnedFunctionCall (c : CCache) (k : Nat) (fwOk bwOk : Bool) :
    CCache × Bool × List CompileEv :=
  match cacheAt c k with
  | some u =>
    let r := unitForward u fwOk bwOk
    (cacheUpdate c k r.1, r.2.1, r.2.2)
  | none =>
    let c1 := cacheInsert c k ⟨false, false⟩
    let r := unitForward ⟨false, false⟩ fwOk bwOk
    (cacheUpdate c1 k r.1, r.2.1, r.2.2)

/-! ### Partitioner selection failure (lines 227-230, 356-371) -/

inductive TraceEv where
  | traceJoint
  | partitionInvoked
  | fwCompiled
  | bwCompiled
deriving DecidableEq, Repr

/-- The first cache-miss execution of `CompiledFunction.forward` with the
recompute partitioner selected: trace the joint graph with `make_fx`
(lines 365-370), invoke the partitioner (line 371) — whose first statement
raises `RuntimeError` when `import networkx` fails (lines 227-230) — then
run the two compilers.  Returns the outcome and the events that occurred,
in order. -/
def forwardFirstCall (nxAvailable : Bool) : Except String Unit × List TraceEv :=
  if nxAvailable then
    (.ok (), [.traceJoint, .partitionInvoked, .fwCompiled, .bwCompiled])
  else
    (.error "Need networkx installed to perform smart recomputation heuristics",
     [.traceJoint, .partitionInvoked])

/-! ### Global cache lifecycle (lines 404-503) -/

/-- Modelled from the spec: the cache object's size/clear contract (§4.4);
the object itself (`functorch._C.CompileCache`) is outside `src/`.  The
global `compile_cache` reference (line 413) is `Option GCache`. -/
abbrev GCache := List Nat

def gcacheSize (c : GCache) : Nat := c.length

/-- `clear_compile_cache` (lines 499-503): clear the object, then reset
the global reference to `None`. -/
def clearCompileCache : Option GCache → Option GCache
  | none => none
  | some _ => none

/-- `num_of_recompilations` (lines 492-496). -/
def numOfRecompilations : Option GCache → Nat
  | none => 0
  | some c => gcacheSize c

/-- The cache initialisation of `compiled_function` (lines 443-445): a
*wrapping* call constructs a fresh cache when the global is absent. -/
def compiledFunctionInit : Option GCache → Option GCache
  | none => some []
  | some c => some c

/-- An invocation of an already-wrapped callable (lines 450-459)
dereferences the global cache (`compile_cache.at(...)`) without
re-initialising it: with the global absent this is an `AttributeError` on
`None`. -/
def wrappedCallTouchCache : Option GCache → Except String GCache
  | none => .error "AttributeError: NoneType object has no attribute at"
  | some c => .ok c

/-! ### Running graphs: frame, characterization and reconstruction -/

section RunLemmas
variable {V : Type}
variable (interp : String → List V → V) (attrs : String → Option V)

lemma mapMOpt_congr {α β : Type} {f g : α → Option β} {l : List α}
    (h : ∀ a ∈ l, f a = g a) : mapMOpt f l = mapMOpt g l := by
  induction l with
  | nil => rfl
  | cons a t ih =>
    rw [mapMOpt, mapMOpt, h a (List.mem_cons_self _ _),
      ih (fun x hx => h x (List.mem_cons_of_mem _ hx))]

lemma evalArgs_congr {env env' : String → Option V} {l : List (Arg V)}
    (h : ∀ s, (Arg.node s : Arg V) ∈ l → env s = env' s) :
    evalArgs env l = evalArgs env' l := by
  refine mapMOpt_congr (fun a ha => ?_)
  match a with
  | .lit v => rfl
  | .node s => exact h s ha

/-- Names referenced by a node appear among the `Arg.node` entries. -/
lemma argNames_mem {n : Node V} {s : String} (h : s ∈ argNames n) :
    (Arg.node s : Arg V) ∈ n.args ++ n.kwargs := by
  rw [argNames] at h
  obtain ⟨a, ha, hs⟩ := List.mem_filterMap.mp h
  match a with
  | .node x =>
    simp only [Option.some.injEq] at hs
    exact hs ▸ ha
  | .lit v => simp at hs

lemma mem_argNames_of_node {n : Node V} {s : String}
    (h : (Arg.node s : Arg V) ∈ n.args ++ n.kwargs) : s ∈ argNames n := by
  rw [argNames]
  exact List.mem_filterMap.mpr ⟨Arg.node s, h, rfl⟩

lemma bindingNames_cons (n : Node V) (rest : List (Node V)) :
    bindingNames (n :: rest) =
      if bindsName n then n.name :: bindingNames rest else bindingNames rest := by
  rw [bindingNames, List.filter_cons]
  by_cases hb : bindsName n <;> simp [hb, bindingNames]

lemma bindsName_of_op {n : Node V} (h : n.op ≠ .output) : bindsName n = true := by
  rw [bindsName, bne_iff_ne]
  exact h

/-- Frame: a successful run changes the environment only at binding
names. -/
lemma runNodes_frame :
    ∀ (nodes : List (Node V)) (env0 : String → Option V) (q : List V)
      (envFin : String → Option V) (qFin : List V),
      runNodes interp attrs nodes env0 q = some (envFin, qFin) →
      ∀ s, s ∉ bindingNames nodes → envFin s = env0 s := by
  intro nodes
  induction nodes with
  | nil =>
    intro env0 q envFin qFin h s _
    rw [runNodes] at h
    simp only [Option.some.injEq, Prod.mk.injEq] at h
    rw [← h.1]
  | cons n rest ih =>
    intro env0 q envFin qFin h s hs
    have hs' : s ∉ bindingNames rest := by
      intro hmem
      refine hs ?_
      rw [bindingNames_cons]
      by_cases hb : bindsName n
      · rw [if_pos hb]; exact List.mem_cons_of_mem _ hmem
      · rw [if_neg hb]; exact hmem
    have hsname : bindsName n = true → s ≠ n.name := by
      intro hb heq
      refine hs ?_
      rw [bindingNames_cons, if_pos hb, heq]
      exact List.mem_cons_self _ _
    cases hop : n.op with
    | placeholder =>
      simp only [runNodes, hop] at h
      cases q with
      | nil => exact absurd h (by simp)
      | cons v q' =>
        rw [ih _ _ _ _ h s hs', update,
          if_neg (hsname (by rw [bindsName, hop]; rfl))]
    | callFunction =>
      simp only [runNodes, hop] at h
      cases hargs : evalArgs env0 (n.args ++ n.kwargs) with
      | none => rw [hargs] at h; exact absurd h (by simp)
      | some vs =>
        rw [hargs] at h
        rw [ih _ _ _ _ h s hs', update,
          if_neg (hsname (by rw [bindsName, hop]; rfl))]
    | getAttr =>
      simp only [runNodes, hop] at h
      cases hat : attrs n.target with
      | none => rw [hat] at h; exact absurd h (by simp)
      | some v =>
        rw [hat] at h
        rw [ih _ _ _ _ h s hs', update,
          if_neg (hsname (by rw [bindsName, hop]; rfl))]
    | output =>
      simp only [runNodes, hop] at h
      exact ih _ _ _ _ h s hs'

/-- Characterization: a successful, queue-exhausting run over a
well-scoped node list satisfies every node's defining equation with
respect to the final environment, the queue matches the placeholders'
final values, and every binding name ends up bound. -/
lemma runNodes_char :
    ∀ (nodes : List (Node V)) (env0 : String → Option V) (dom0 : List String)
      (q : List V) (envFin : String → Option V),
      runNodes interp attrs nodes env0 q = some (envFin, []) →
      (dom0 ++ bindingNames nodes).Nodup →
      argsClosedAux dom0 nodes = true →
      (∀ n ∈ nodes, nodeEquations interp attrs envFin n) ∧
      phValuesMatch envFin nodes q ∧
      (∀ s ∈ bindingNames nodes, envFin s ≠ none) := by
  intro nodes
  induction nodes with
  | nil =>
    intro env0 dom0 q envFin h _ _
    rw [runNodes] at h
    simp only [Option.some.injEq, Prod.mk.injEq] at h
    exact ⟨by simp, by rw [phValuesMatch, ← h.2], by simp [bindingNames]⟩
  | cons n rest ih =>
    intro env0 dom0 q envFin h hnd hclosed
    rw [argsClosedAux, Bool.and_eq_true] at hclosed
    -- the case of a binding head, shared by the three binding ops
    have main : ∀ (env1 : String → Option V) (v : V) (q1 : List V),
        runNodes interp attrs rest (update env0 n.name v) q1 = some (envFin, []) →
        bindsName n = true →
        (∀ m ∈ rest, nodeEquations interp attrs envFin m) ∧
        phValuesMatch envFin rest q1 ∧
        (∀ s ∈ bindingNames rest, envFin s ≠ none) ∧
        envFin n.name = some v ∧
        (∀ s ∈ dom0, envFin s = env0 s) := by
      intro env1 v q1 hrun hb
      rw [bindingNames_cons, if_pos hb] at hnd
      have hnds : ((dom0 ++ [n.name]) ++ bindingNames rest).Nodup := by
        simpa using hnd
      have hninrest : n.name ∉ bindingNames rest := by
        rw [List.nodup_append] at hnds
        exact fun hmem => hnds.2.2 (List.mem_append_right _ (by simp)) hmem
      have hdom0rest : ∀ s ∈ dom0, s ∉ bindingNames rest := by
        intro s hs
        rw [List.nodup_append] at hnds
        exact fun hmem => hnds.2.2 (List.mem_append_left _ hs) hmem
      have hdom0name : ∀ s ∈ dom0, s ≠ n.name := by
        intro s hs heq
        have h1 := (List.nodup_append.mp hnds).1
        exact (List.nodup_append.mp h1).2.2 hs (by simp [heq])
      have hcl2 : argsClosedAux (dom0 ++ [n.name]) rest = true := by
        have := hclosed.2
        rw [if_pos hb] at this
        exact this
      obtain ⟨heq, hph, hdef⟩ := ih _ _ _ _ hrun hnds hcl2
      have hself : envFin n.name = some v := by
        rw [runNodes_frame interp attrs rest _ _ _ _ hrun n.name hninrest,
          update, if_pos rfl]
      refine ⟨heq, hph, hdef, hself, fun s hs => ?_⟩
      rw [runNodes_frame interp attrs rest _ _ _ _ hrun s (hdom0rest s hs),
        update, if_neg (hdom0name s hs)]
    cases hop : n.op with
    | placeholder =>
      simp only [runNodes, hop] at h
      cases q with
      | nil => exact absurd h (by simp)
      | cons v q1 =>
        obtain ⟨heq, hph, hdef, hself, -⟩ :=
          main env0 v q1 h (by rw [bindsName, hop]; rfl)
        refine ⟨?_, ?_, ?_⟩
        · intro m hm
          rcases List.mem_cons.mp hm with rfl | hm
          · simp [nodeEquations, hop]
          · exact heq m hm
        · rw [phValuesMatch, if_pos hop]
          exact ⟨v, q1, rfl, hself, hph⟩
        · intro s hsmem
          rw [bindingNames_cons, if_pos (by rw [bindsName, hop]; rfl)] at hsmem
          rcases List.mem_cons.mp hsmem with rfl | hsmem
          · rw [hself]; simp
          · exact hdef s hsmem
    | callFunction =>
      simp only [runNodes, hop] at h
      cases hargs : evalArgs env0 (n.args ++ n.kwargs) with
      | none => rw [hargs] at h; exact absurd h (by simp)
      | some vs =>
        rw [hargs] at h
        obtain ⟨heq, hph, hdef, hself, hdom0⟩ :=
          main env0 (interp n.target vs) q h (by rw [bindsName, hop]; rfl)
        have hargsFin : evalArgs envFin (n.args ++ n.kwargs) = some vs := by
          rw [← hargs]
          refine evalArgs_congr (fun s hmem => ?_)
          have hsdom : s ∈ dom0 := by
            have := hclosed.1
            rw [List.all_eq_true] at this
            have := this s (mem_argNames_of_node hmem)
            simpa using this
          exact hdom0 s hsdom
        refine ⟨?_, ?_, ?_⟩
        · intro m hm
          rcases List.mem_cons.mp hm with rfl | hm
          · rw [nodeEquations, hop]
            exact ⟨vs, hargsFin, hself⟩
          · exact heq m hm
        · rw [phValuesMatch,
            if_neg (by rw [hop]; intro hc; exact NOp.noConfusion hc)]
          exact hph
        · intro s hsmem
          rw [bindingNames_cons, if_pos (by rw [bindsName, hop]; rfl)] at hsmem
          rcases List.mem_cons.mp hsmem with rfl | hsmem
          · rw [hself]; simp
          · exact hdef s hsmem
    | getAttr =>
      simp only [runNodes, hop] at h
      cases hat : attrs n.target with
      | none => rw [hat] at h; exact absurd h (by simp)
      | some v =>
        rw [hat] at h
        obtain ⟨heq, hph, hdef, hself, -⟩ :=
          main env0 v q h (by rw [bindsName, hop]; rfl)
        refine ⟨?_, ?_, ?_⟩
        · intro m hm
          rcases List.mem_cons.mp hm with rfl | hm
          · rw [nodeEquations, hop]
            exact ⟨v, hat, hself⟩
          · exact heq m hm
        · rw [phValuesMatch,
            if_neg (by rw [hop]; intro hc; exact NOp.noConfusion hc)]
          exact hph
        · intro s hsmem
          rw [bindingNames_cons, if_pos (by rw [bindsName, hop]; rfl)] at hsmem
          rcases List.mem_cons.mp hsmem with rfl | hsmem
          · rw [hself]; simp
          · exact hdef s hsmem
    | output =>
      simp only [runNodes, hop] at h
      have hb : bindsName n = false := by rw [bindsName, hop]; rfl
      rw [bindingNames_cons, if_neg (by simp [hb])] at hnd
      have hcl2 : argsClosedAux dom0 rest = true := by
        have := hclosed.2
        rw [if_neg (by simp [hb])] at this
        exact this
      obtain ⟨heq, hph, hdef⟩ := ih _ _ _ _ h hnd hcl2
      refine ⟨?_, ?_, ?_⟩
      · intro m hm
        rcases List.mem_cons.mp hm with rfl | hm
        · simp [nodeEquations, hop]
        · exact heq m hm
      · rw [phValuesMatch,
          if_neg (by rw [hop]; intro hc; exact NOp.noConfusion hc)]
        exact hph
      · intro s hsmem
        rw [bindingNames_cons, if_neg (by simp [hb])] at hsmem
        exact hdef s hsmem

/-- Reconstruction: a node list that is well-scoped over an initial
domain, whose nodes satisfy the target environment's equations, run on a
queue matching its placeholders, runs to completion and agrees with the
target environment on everything it binds. -/
lemma runNodes_build (envT : String → Option V) :
    ∀ (nodes : List (Node V)) (envF : String → Option V) (domF : List String)
      (q : List V),
      (∀ s, (s ∈ domF → envF s = envT s ∧ envF s ≠ none) ∧
            (s ∉ domF → envF s = none)) →
      (domF ++ bindingNames nodes).Nodup →
      argsClosedAux domF nodes = true →
      (∀ n ∈ nodes, nodeEquations interp attrs envT n) →
      phValuesMatch envT nodes q →
      ∃ envF', runNodes interp attrs nodes envF q = some (envF', []) ∧
        ∀ s, (s ∈ domF ++ bindingNames nodes →
                envF' s = envT s ∧ envF' s ≠ none) ∧
             (s ∉ domF ++ bindingNames nodes → envF' s = none) := by
  intro nodes
  induction nodes with
  | nil =>
    intro envF domF q hINV hnd hclosed heqs hph
    rw [phValuesMatch] at hph
    subst hph
    exact ⟨envF, rfl, by simpa [bindingNames] using hINV⟩
  | cons n rest ih =>
    intro envF domF q hINV hnd hclosed heqs hph
    rw [argsClosedAux, Bool.and_eq_true] at hclosed
    have hfreshname : bindsName n = true → n.name ∉ domF := by
      intro hb hmem
      rw [bindingNames_cons, if_pos hb] at hnd
      rw [List.nodup_append] at hnd
      exact hnd.2.2 hmem (List.mem_cons_self _ _)
    have hINVstep : ∀ (v : V), envT n.name = some v →
        ∀ s, (s ∈ domF ++ [n.name] →
                update envF n.name v s = envT s ∧ update envF n.name v s ≠ none) ∧
             (s ∉ domF ++ [n.name] → update envF n.name v s = none) := by
      intro v hv s
      constructor
      · intro hs
        rw [update]
        by_cases hsn : s = n.name
        · rw [if_pos hsn, hsn, hv]
          simp
        · rw [if_neg hsn]
          have : s ∈ domF := by
            rcases List.mem_append.mp hs with h | h
            · exact h
            · exact absurd (List.mem_singleton.mp h) hsn
          exact (hINV s).1 this
      · intro hs
        rw [update, if_neg (fun hc => hs (by simp [hc]))]
        exact (hINV s).2 (fun hc => hs (List.mem_append_left _ hc))
    cases hop : n.op with
    | placeholder =>
      rw [phValuesMatch, if_pos hop] at hph
      obtain ⟨v, q', rfl, hv, hph'⟩ := hph
      have hb : bindsName n = true := by rw [bindsName, hop]; rfl
      rw [bindingNames_cons, if_pos hb] at hnd
      obtain ⟨envF', hrun, hfin⟩ := ih (update envF n.name v) (domF ++ [n.name]) q'
        (hINVstep v hv)
        (by simpa using hnd)
        (by have := hclosed.2; rw [if_pos hb] at this; exact this)
        (fun m hm => heqs m (List.mem_cons_of_mem _ hm)) hph'
      refine ⟨envF', ?_, ?_⟩
      · simp only [runNodes, hop]
        exact hrun
      · intro s
        have := hfin s
        rw [bindingNames_cons, if_pos hb]
        constructor
        · intro hs
          exact this.1 (by
            rcases List.mem_append.mp hs with h | h
            · exact List.mem_append_left _ (List.mem_append_left _ h)
            · rcases List.mem_cons.mp h with rfl | h
              · exact List.mem_append_left _ (List.mem_append_right _ (by simp))
              · exact List.mem_append_right _ h)
        · intro hs
          exact this.2 (by
            intro hc
            refine hs ?_
            rcases List.mem_append.mp hc with h | h
            · rcases List.mem_append.mp h with h | h
              · exact List.mem_append_left _ h
              · exact List.mem_append_right _
                  (by rw [List.mem_singleton.mp h]; exact List.mem_cons_self _ _)
            · exact List.mem_append_right _ (List.mem_cons_of_mem _ h))
    | callFunction =>
      obtain ⟨vs, hvs, hval⟩ : ∃ vs,
          evalArgs envT (n.args ++ n.kwargs) = some vs ∧
            envT n.name = some (interp n.target vs) := by
        have := heqs n (List.mem_cons_self _ _)
        rw [nodeEquations, hop] at this
        exact this
      have hargsF : evalArgs envF (n.args ++ n.kwargs) = some vs := by
        rw [← hvs]
        refine evalArgs_congr (fun s hmem => ?_)
        have hsdom : s ∈ domF := by
          have := hclosed.1
          rw [List.all_eq_true] at this
          have := this s (mem_argNames_of_node hmem)
          simpa using this
        exact ((hINV s).1 hsdom).1
      rw [phValuesMatch, if_neg (by rw [hop]; intro hc; exact NOp.noConfusion hc)]
        at hph
      have hb : bindsName n = true := by rw [bindsName, hop]; rfl
      rw [bindingNames_cons, if_pos hb] at hnd
      obtain ⟨envF', hrun, hfin⟩ := ih (update envF n.name (interp n.target vs))
        (domF ++ [n.name]) q
        (hINVstep _ hval)
        (by simpa using hnd)
        (by have := hclosed.2; rw [if_pos hb] at this; exact this)
        (fun m hm => heqs m (List.mem_cons_of_mem _ hm)) hph
      refine ⟨envF', ?_, ?_⟩
      · simp only [runNodes, hop, hargsF]
        exact hrun
      · intro s
        have := hfin s
        rw [bindingNames_cons, if_pos hb]
        constructor
        · intro hs
          exact this.1 (by
            rcases List.mem_append.mp hs with h | h
            · exact List.mem_append_left _ (List.mem_append_left _ h)
            · rcases List.mem_cons.mp h with rfl | h
              · exact List.mem_append_left _ (List.mem_append_right _ (by simp))
              · exact List.mem_append_right _ h)
        · intro hs
          exact this.2 (by
            intro hc
            refine hs ?_
            rcases List.mem_append.mp hc with h | h
            · rcases List.mem_append.mp h with h | h
              · exact List.mem_append_left _ h
              · exact List.mem_append_right _
                  (by rw [List.mem_singleton.mp h]; exact List.mem_cons_self _ _)
            · exact List.mem_append_right _ (List.mem_cons_of_mem _ h))
    | getAttr =>
      obtain ⟨v, hat, hval⟩ : ∃ v, attrs n.target = some v ∧
          envT n.name = some v := by
        have := heqs n (List.mem_cons_self _ _)
        rw [nodeEquations, hop] at this
        exact this
      rw [phValuesMatch, if_neg (by rw [hop]; intro hc; exact NOp.noConfusion hc)]
        at hph
      have hb : bindsName n = true := by rw [bindsName, hop]; rfl
      rw [bindingNames_cons, if_pos hb] at hnd
      obtain ⟨envF', hrun, hfin⟩ := ih (update envF n.name v) (domF ++ [n.name]) q
        (hINVstep v hval)
        (by simpa using hnd)
        (by have := hclosed.2; rw [if_pos hb] at this; exact this)
        (fun m hm => heqs m (List.mem_cons_of_mem _ hm)) hph
      refine ⟨envF', ?_, ?_⟩
      · simp only [runNodes, hop, hat]
        exact hrun
      · intro s
        have := hfin s
        rw [bindingNames_cons, if_pos hb]
        constructor
        · intro hs
          exact this.1 (by
            rcases List.mem_append.mp hs with h | h
            · exact List.mem_append_left _ (List.mem_append_left _ h)
            · rcases List.mem_cons.mp h with rfl | h
              · exact List.mem_append_left _ (List.mem_append_right _ (by simp))
              · exact List.mem_append_right _ h)
        · intro hs
          exact this.2 (by
            intro hc
            refine hs ?_
            rcases List.mem_append.mp hc with h | h
            · rcases List.mem_append.mp h with h | h
              · exact List.mem_append_left _ h
              · exact List.mem_append_right _
                  (by rw [List.mem_singleton.mp h]; exact List.mem_cons_self _ _)
            · exact List.mem_append_right _ (List.mem_cons_of_mem _ h))
    | output =>
      rw [phValuesMatch, if_neg (by rw [hop]; intro hc; exact NOp.noConfusion hc)]
        at hph
      have hb : bindsName n = false := by rw [bindsName, hop]; rfl
      rw [bindingNames_cons, if_neg (by simp [hb])] at hnd
      obtain ⟨envF', hrun, hfin⟩ := ih envF domF q hINV hnd
        (by have := hclosed.2; rw [if_neg (by simp [hb])] at this; exact this)
        (fun m hm => heqs m (List.mem_cons_of_mem _ hm)) hph
      refine ⟨envF', ?_, ?_⟩
      · simp only [runNodes, hop]
        exact hrun
      · intro s
        rw [bindingNames_cons, if_neg (by simp [hb])]
        exact hfin s

end RunLemmas

/-! ### Lemmas about the coloring walk -/

section ColoringLemmas
variable {V : Type}

lemma savedAdd_mem (bw' : List String) (saved l : List String) (x : String) :
    x ∈ savedAdd bw' saved l ↔ x ∈ saved ∨ (x ∈ l ∧ x ∉ bw') := by
  induction l generalizing saved with
  | nil => simp [savedAdd]
  | cons a t ih =>
    have hstep : savedAdd bw' saved (a :: t) =
        savedAdd bw' (if a ∉ bw' ∧ a ∉ saved then saved ++ [a] else saved) t := by
      simp only [savedAdd, List.foldl_cons]
      by_cases hb : a ∈ bw' <;> by_cases hs : a ∈ saved <;> simp [hb, hs]
    rw [hstep]
    by_cases hb : a ∈ bw' <;> by_cases hs : a ∈ saved <;>
      simp only [hb, hs, ih, not_true, not_false_iff, and_true, and_false, true_and,
        false_and, if_true, if_false, List.mem_append, List.mem_singleton,
        List.mem_cons] <;>
      aesop

lemma colorStep_fst (st : List String × List String) (n : Node V) :
    (colorStep st n).1 = if coloredCond st n then st.1 ++ [n.name] else st.1 := by
  obtain ⟨bw, saved⟩ := st
  by_cases ht : isTangentPH n
  · simp [colorStep, coloredCond, ht]
  · by_cases ho : n.op != .output
    · by_cases hc : ∃ a ∈ argNames n, a ∈ bw ∨ a ∈ saved
      · simp [colorStep, coloredCond, ht, ho, hc]
      · simp [colorStep, coloredCond, ht, ho, hc]
    · simp [colorStep, coloredCond, ht, ho]

lemma colorStep_snd_mem (st : List String × List String) (n : Node V) (x : String) :
    x ∈ (colorStep st n).2 ↔ x ∈ st.2 ∨ savedAddedAt st n x := by
  show _ ↔
      x ∈ st.2 ∨
        (isTangentPH n = false ∧ n.op ≠ .output ∧
          (∃ a ∈ argNames n, a ∈ st.1 ∨ a ∈ st.2) ∧
          x ∈ argNames n ∧ x ∉ st.1 ++ [n.name])
  obtain ⟨bw, saved⟩ := st
  have hop : (n.op != .output) = true ↔ n.op ≠ .output := by
    cases h : n.op <;> simp_all
  by_cases ht : isTangentPH n
  · simp [colorStep, ht]
  · by_cases hc : ∃ a ∈ argNames n, a ∈ bw ∨ a ∈ saved
    · by_cases ho : n.op != .output
      · simp only [colorStep, ht, Bool.false_eq_true, if_false, ho, if_true,
          show ((argNames n).any fun a => bw.contains a || saved.contains a) = true by
            simpa using hc]
        rw [savedAdd_mem]
        simp only [List.mem_append, List.mem_singleton]
        constructor
        · rintro (h | ⟨hx, hnb⟩)
          · exact Or.inl h
          · exact Or.inr ⟨by trivial, hop.mp ho, hc, hx,
              fun hmem => hnb (by simpa using hmem)⟩
        · rintro (h | ⟨-, -, -, hx, hnb⟩)
          · exact Or.inl h
          · exact Or.inr ⟨hx, fun hmem => hnb (by simpa using hmem)⟩
      · have ho' : n.op = .output := by
          cases h : n.op <;> simp_all
        simp [colorStep, ht, ho', hc]
    · by_cases ho : n.op != .output <;>
        simp [colorStep, ht, ho, show ¬((argNames n).any fun a =>
          bw.contains a || saved.contains a) = true by simpa using hc, hc]

lemma fold_fst_mono (l : List (Node V)) (st : List String × List String) (x : String)
    (h : x ∈ st.1) : x ∈ (l.foldl colorStep st).1 := by
  induction l generalizing st with
  | nil => exact h
  | cons n t ih =>
    refine ih _ ?_
    rw [colorStep_fst]
    by_cases hc : coloredCond st n <;> simp [hc, h]

lemma fold_snd_mono (l : List (Node V)) (st : List String × List String) (x : String)
    (h : x ∈ st.2) : x ∈ (l.foldl colorStep st).2 := by
  induction l generalizing st with
  | nil => exact h
  | cons n t ih =>
    exact ih _ ((colorStep_snd_mem st n x).mpr (Or.inl h))

lemma fold_fst_sub (l : List (Node V)) (st : List String × List String) (x : String)
    (h : x ∈ (l.foldl colorStep st).1) : x ∈ st.1 ∨ ∃ m ∈ l, m.name = x := by
  induction l generalizing st with
  | nil => exact Or.inl h
  | cons n t ih =>
    rcases ih _ h with h' | ⟨m, hm, rfl⟩
    · rw [colorStep_fst] at h'
      by_cases hc : coloredCond st n
      · simp only [hc, if_true, List.mem_append, List.mem_singleton] at h'
        rcases h' with h' | rfl
        · exact Or.inl h'
        · exact Or.inr ⟨n, List.mem_cons_self _ _, rfl⟩
      · simp only [hc, if_false] at h'
        exact Or.inl h'
    · exact Or.inr ⟨m, List.mem_cons_of_mem _ hm, rfl⟩

/-- Positional characterization: with unique names, a node is in the final
backward set iff the coloring condition held when the walk reached it. -/
lemma bw_mem_iff_colored (g : Graph V) (n : Node V) (pre post : Graph V)
    (hg : g = pre ++ n :: post) (hnd : (g.map Node.name).Nodup) :
    n.name ∈ (colorFold g).1 ↔ coloredCond (colorFold pre) n = true := by
  have hsplit : colorFold g = post.foldl colorStep (colorStep (colorFold pre) n) := by
    simp [colorFold, hg, List.foldl_append]
  have hnames : n.name ∉ pre.map Node.name ∧ n.name ∉ post.map Node.name := by
    rw [hg, List.map_append, List.map_cons, List.nodup_append] at hnd
    obtain ⟨-, h2, h3⟩ := hnd
    rw [List.nodup_cons] at h2
    exact ⟨fun hmem => h3 hmem (List.mem_cons_self _ _), h2.1⟩
  constructor
  · intro h
    by_contra hc
    rw [hsplit] at h
    rcases fold_fst_sub _ _ _ h with h' | ⟨m, hm, hname⟩
    · rw [colorStep_fst, if_neg hc] at h'
      rcases fold_fst_sub pre ([], []) _ h' with h'' | ⟨m, hm, hname⟩
      · simp at h''
      · exact hnames.1 (by simpa [hname] using List.mem_map_of_mem Node.name hm)
    · exact hnames.2 (by simpa [hname] using List.mem_map_of_mem Node.name hm)
  · intro h
    rw [hsplit]
    refine fold_fst_mono _ _ _ ?_
    rw [colorStep_fst, if_pos h]
    simp

lemma fold_snd_mem (l : List (Node V)) (st : List String × List String) (x : String) :
    x ∈ (l.foldl colorStep st).2 ↔
      x ∈ st.2 ∨ ∃ pre m post, l = pre ++ m :: post ∧
        savedAddedAt (pre.foldl colorStep st) m x := by
  induction l generalizing st with
  | nil =>
    simp only [List.foldl_nil]
    constructor
    · exact fun h => Or.inl h
    · rintro (h | ⟨pre, m, post, heq, -⟩)
      · exact h
      · exact absurd heq (by simp)
  | cons n t ih =>
    rw [List.foldl_cons, ih, colorStep_snd_mem]
    constructor
    · rintro ((h | h) | ⟨pre, m, post, heq, hA⟩)
      · exact Or.inl h
      · exact Or.inr ⟨[], n, t, rfl, h⟩
      · exact Or.inr ⟨n :: pre, m, post, by rw [heq]; rfl, hA⟩
    · rintro (h | ⟨pre, m, post, heq, hA⟩)
      · exact Or.inl (Or.inl h)
      · cases pre with
        | nil =>
          obtain ⟨rfl, rfl⟩ : n = m ∧ t = post := by simpa using heq
          exact Or.inl (Or.inr hA)
        | cons n' pre' =>
          obtain ⟨rfl, rfl⟩ : n = n' ∧ t = pre' ++ m :: post := by simpa using heq
          exact Or.inr ⟨pre', m, post, rfl, hA⟩

lemma nodupB_iff (l : List String) : nodupB l = true ↔ l.Nodup := by
  induction l with
  | nil => simp [nodupB]
  | cons s t ih => simp [nodupB, ih, List.nodup_cons]

lemma wfB_nodup {g : Graph V} (h : wfB g = true) : (g.map Node.name).Nodup := by
  simp only [wfB, Bool.and_eq_true] at h
  exact (nodupB_iff _).mp h.1.1.1.1.1

lemma wfB_ph_argNames {g : Graph V} (h : wfB g = true) {m : Node V} (hm : m ∈ g)
    (hop : m.op = .placeholder) : argNames m = [] := by
  simp only [wfB, Bool.and_eq_true] at h
  have := h.1.1.2
  rw [phArgsEmptyB, List.all_eq_true] at this
  have hme := this m hm
  rw [hop] at hme
  simp only [Bool.or_eq_true, Bool.and_eq_true] at hme
  rcases hme with hme | ⟨h1, h2⟩
  · simp at hme
  · rw [List.isEmpty_iff] at h1 h2
    simp [argNames, h1, h2]

lemma tangent_is_placeholder {n : Node V} (h : isTangentPH n = true) :
    n.op = .placeholder := by
  simp only [isTangentPH, Bool.and_eq_true, beq_iff_eq] at h
  exact h.1

/-- Rewriting the coloring condition into propositional form. -/
lemma coloredCond_iff (st : List String × List String) (n : Node V) :
    coloredCond st n = true ↔
      isTangentPH n = true ∨
        (n.op ≠ .output ∧ ∃ a ∈ argNames n, a ∈ st.1 ∨ a ∈ st.2) := by
  simp [coloredCond, List.any_eq_true, bne_iff_ne]

end ColoringLemmas

/-! ### Claim C3 -/

section C3
variable {V : Type}

/-- **C3.** In `default_partition`, walking the joint graph in order, a node
is colored backward iff it is a tangent placeholder or at least one of its
(positional or keyword) arguments is already in the backward set or the
saved set when the walk reaches it; and a node not itself in the backward
set ends up in the saved set iff it is referenced as an argument by some
backward-set node. -/
theorem default_partition_coloring_policy (g : Graph V) (n : Node V)
    (pre post : Graph V) (hg : g = pre ++ n :: post) (hwf : wfB g = true) :
    (n.name ∈ (colorFold g).1 ↔
      (isTangentPH n = true ∨
        (n.op ≠ .output ∧ ∃ a ∈ argNames n,
          a ∈ (colorFold pre).1 ∨ a ∈ (colorFold pre).2)))
    ∧ (n.name ∉ (colorFold g).1 →
        (n.name ∈ (colorFold g).2 ↔
          ∃ m ∈ g, m.name ∈ (colorFold g).1 ∧ n.name ∈ argNames m)) := by
  have hnd := wfB_nodup hwf
  constructor
  · rw [bw_mem_iff_colored g n pre post hg hnd, coloredCond_iff]
  · intro hnb
    constructor
    · intro hs
      rcases (fold_snd_mem g ([], []) n.name).mp hs with h | ⟨p, m, q, heq, hA⟩
      · simp at h
      · obtain ⟨htan, hout, htouch, hx, hnotin⟩ := hA
        have hcol : coloredCond (p.foldl colorStep ([], [])) m = true :=
          (coloredCond_iff _ _).mpr (Or.inr ⟨hout, htouch⟩)
        have hmbw : m.name ∈ (colorFold g).1 := by
          rw [show colorFold g =
              q.foldl colorStep (colorStep (p.foldl colorStep ([], [])) m) from by
            simp [colorFold, heq, List.foldl_append]]
          refine fold_fst_mono _ _ _ ?_
          rw [colorStep_fst, if_pos hcol]
          simp
        exact ⟨m, by rw [heq]; exact List.mem_append_right _ (List.mem_cons_self _ _),
          hmbw, hx⟩
    · rintro ⟨m, hm, hmbw, href⟩
      obtain ⟨p, q, heq⟩ := List.append_of_mem hm
      have hsplit : colorFold g =
          q.foldl colorStep (colorStep (colorFold p) m) := by
        simp [colorFold, heq, List.foldl_append]
      have hcol : coloredCond (colorFold p) m = true :=
        (bw_mem_iff_colored g m p q heq hnd).mp hmbw
      by_cases htan : isTangentPH m
      · exact absurd href (by
          rw [wfB_ph_argNames hwf hm (tangent_is_placeholder htan)]
          simp)
      · rcases (coloredCond_iff _ _).mp hcol with h | ⟨hout, htouch⟩
        · exact absurd h htan
        · have hnotin : n.name ∉ (colorFold p).1 ++ [m.name] := by
            intro hmem
            rcases List.mem_append.mp hmem with hmem | hmem
            · refine hnb ?_
              rw [hsplit]
              refine fold_fst_mono _ _ _ ?_
              rw [colorStep_fst, if_pos hcol]
              exact List.mem_append_left _ hmem
            · exact hnb (by
                rw [List.mem_singleton] at hmem
                rw [hmem]
                exact hmbw)
          have hA : savedAddedAt (colorFold p) m n.name :=
            ⟨by simpa using htan, hout, htouch, href, hnotin⟩
          rw [hsplit]
          refine fold_snd_mono _ _ _ ?_
          exact (colorStep_snd_mem _ _ _).mpr (Or.inr hA)

/-- Witness for C3: the node `g = t*c` of the concrete joint graph, which
is colored backward because its argument `t` is a tangent input. -/
theorem default_partition_coloring_policy_witness :
    wfB exJoint = true ∧
    ((exG.name ∈ (colorFold exJoint).1 ↔
        (isTangentPH exG = true ∨
          (exG.op ≠ .output ∧ ∃ a ∈ argNames exG,
            a ∈ (colorFold [exA, exT, exS, exC]).1 ∨
            a ∈ (colorFold [exA, exT, exS, exC]).2)))
      ∧ (exG.name ∉ (colorFold exJoint).1 →
          (exG.name ∈ (colorFold exJoint).2 ↔
            ∃ m ∈ exJoint, m.name ∈ (colorFold exJoint).1 ∧ exG.name ∈ argNames m))) :=
  ⟨by decide,
    default_partition_coloring_policy exJoint exG [exA, exT, exS, exC] [exOut] rfl
      (by decide)⟩

end C3

/-! ### Structural lemmas about `default_partition`'s graph building -/

section BuildLemmas
variable {V : Type}

lemma savedAdd_cons (bw' saved : List String) (a : String) (t : List String) :
    savedAdd bw' saved (a :: t) =
      savedAdd bw' (if a ∉ bw' ∧ a ∉ saved then saved ++ [a] else saved) t := by
  simp only [savedAdd, List.foldl_cons]
  by_cases hb : a ∈ bw' <;> by_cases hs : a ∈ saved <;> simp [hb, hs]

lemma savedAdd_nodup (bw' : List String) (saved l : List String)
    (h : saved.Nodup) : (savedAdd bw' saved l).Nodup := by
  induction l generalizing saved with
  | nil => exact h
  | cons a t ih =>
    rw [savedAdd_cons]
    by_cases hc : a ∉ bw' ∧ a ∉ saved
    · rw [if_pos hc]
      exact ih _ (by simp [List.nodup_append, h, hc.2])
    · rw [if_neg hc]
      exact ih _ h

lemma colorStep_snd_nodup (st : List String × List String) (n : Node V)
    (h : st.2.Nodup) : ((colorStep st n).2).Nodup := by
  obtain ⟨bw, saved⟩ := st
  by_cases ht : isTangentPH n
  · simpa [colorStep, ht] using h
  · by_cases ho : n.op != .output
    · by_cases hc : ∃ a ∈ argNames n, a ∈ bw ∨ a ∈ saved
      · simpa [colorStep, ht, ho, hc] using
          savedAdd_nodup (bw ++ [n.name]) saved (argNames n) h
      · simpa [colorStep, ht, ho, hc] using h
    · simpa [colorStep, ht, ho] using h

/-- The discovery-order saved list of the coloring walk has no duplicates
(`saved_nodes` is a Python set). -/
lemma colorFold_snd_nodup (g : Graph V) : ((colorFold g).2).Nodup := by
  suffices h : ∀ (l : List (Node V)) (st : List String × List String),
      st.2.Nodup → ((l.foldl colorStep st).2).Nodup by
    exact h g ([], []) List.nodup_nil
  intro l
  induction l with
  | nil => exact fun st h => h
  | cons n t ih => exact fun st h => ih _ (colorStep_snd_nodup st n h)

lemma copyNodesAux_eq (cond : Node V → Bool) (l : List (Node V))
    (st res : List (Node V) × List String)
    (h : copyNodesAux cond l st = some res) :
    res.1 = st.1 ++ l.filter cond ∧
      res.2 = st.2 ++ (l.filter cond).map Node.name := by
  induction l generalizing st with
  | nil =>
    simp only [copyNodesAux, Option.some.injEq] at h
    simp [← h]
  | cons n t ih =>
    by_cases hc : cond n
    · rw [copyNodesAux, if_pos hc] at h
      by_cases ha : (argNames n).all st.2.contains
      · rw [if_pos ha] at h
        obtain ⟨h1, h2⟩ := ih _ h
        simp [h1, h2, List.filter_cons, hc]
      · rw [if_neg ha] at h
        exact absurd h (by simp)
    · rw [copyNodesAux, if_neg hc] at h
      obtain ⟨h1, h2⟩ := ih _ h
      simp [h1, h2, List.filter_cons, hc]

lemma mapMOpt_cons_some {α β : Type} (f : α → Option β) (a : α) (t : List α)
    (res : List β) (h : mapMOpt f (a :: t) = some res) :
    ∃ b bs, f a = some b ∧ mapMOpt f t = some bs ∧ res = b :: bs := by
  rw [mapMOpt] at h
  cases hfa : f a with
  | none => rw [hfa] at h; simp at h
  | some b =>
    cases hmt : mapMOpt f t with
    | none => rw [hfa, hmt] at h; simp at h
    | some bs =>
      rw [hfa, hmt] at h
      simp only [Option.some.injEq] at h
      exact ⟨b, bs, rfl, rfl, h.symm⟩

/-- Resolving output references through `value_remap` succeeds only on node
references, and returns exactly their names. -/
lemma mapM_outName_eq (dom : List String) (l : List (Arg V)) (names : List String)
    (h : mapMOpt (fun a =>
        match a with
        | .node x => if dom.contains x then some x else none
        | .lit _ => none) l = some names) :
    l = names.map Arg.node := by
  induction l generalizing names with
  | nil =>
    rw [mapMOpt] at h
    simp only [Option.some.injEq] at h
    simp [← h]
  | cons a t ih =>
    obtain ⟨b, bs, hfa, hmt, rfl⟩ := mapMOpt_cons_some _ _ _ _ h
    match a with
    | .lit v => exact Option.noConfusion hfa
    | .node x =>
      have hfa' : (if dom.contains x = true then some x else (none : Option String))
          = some b := hfa
      by_cases hd : dom.contains x
      · rw [if_pos hd] at hfa'
        cases hfa'
        simp [ih _ hmt]
      · rw [if_neg hd] at hfa'
        exact absurd hfa' (by simp)

lemma mapM_guardId_eq (dom l names : List String)
    (h : mapMOpt (fun s => if dom.contains s then some s else none) l = some names) :
    names = l := by
  induction l generalizing names with
  | nil =>
    rw [mapMOpt] at h
    simp only [Option.some.injEq] at h
    simp [← h]
  | cons a t ih =>
    obtain ⟨b, bs, hfa, hmt, rfl⟩ := mapMOpt_cons_some _ _ _ _ h
    by_cases hd : dom.contains a
    · rw [if_pos hd] at hfa
      cases hfa
      simp [ih _ hmt]
    · rw [if_neg hd] at hfa
      exact absurd hfa (by simp)

lemma outputArgs_copies_append (nodes : List (Node V)) (outs : List (Arg V))
    (h : ∀ n ∈ nodes, n.op ≠ .output) :
    outputArgs (nodes ++ [mkOutput outs]) = outs := by
  have hfil : nodes.filter (fun n => n.op == .output) = [] := by
    rw [List.filter_eq_nil_iff]
    intro n hn
    simpa using h n hn
  simp [outputArgs, List.filter_append, hfil, mkOutput]

end BuildLemmas

/-! ### List and well-formedness bookkeeping -/

section WFLemmas
variable {V : Type}

lemma mapMOpt_append {α β : Type} (f : α → Option β) (a b : List α) :
    mapMOpt f (a ++ b) =
      (mapMOpt f a).bind (fun ra => (mapMOpt f b).map (fun rb => ra ++ rb)) := by
  induction a with
  | nil =>
    simp only [List.nil_append, mapMOpt, Option.some_bind]
    cases mapMOpt f b <;> rfl
  | cons x t ih =>
    show (match f x, mapMOpt f (t ++ b) with
        | some y, some ys => some (y :: ys) | _, _ => none) =
      (match f x, mapMOpt f t with
        | some y, some ys => some (y :: ys) | _, _ => none).bind
        (fun ra => (mapMOpt f b).map (fun rb => ra ++ rb))
    rw [ih]
    cases f x <;> cases mapMOpt f t <;> cases mapMOpt f b <;> rfl

lemma mapMOpt_length {α β : Type} (f : α → Option β) (l : List α)
    (r : List β) (h : mapMOpt f l = some r) : r.length = l.length := by
  induction l generalizing r with
  | nil =>
    rw [mapMOpt] at h
    simp only [Option.some.injEq] at h
    rw [← h]
    rfl
  | cons a t ih =>
    obtain ⟨b, bs, -, hmt, rfl⟩ := mapMOpt_cons_some _ _ _ _ h
    simp [ih _ hmt]

lemma mapMOpt_zip {α β : Type} (f : α → Option β) (l : List α) (r : List β)
    (h : mapMOpt f l = some r) : ∀ pr ∈ l.zip r, f pr.1 = some pr.2 := by
  induction l generalizing r with
  | nil =>
    intro pr hpr
    simp [List.zip] at hpr
  | cons a t ih =>
    obtain ⟨b, bs, hfa, hmt, rfl⟩ := mapMOpt_cons_some _ _ _ _ h
    intro pr hpr
    rcases List.mem_cons.mp hpr with rfl | hpr
    · exact hfa
    · exact ih _ hmt pr hpr

lemma mapMOpt_map {α β γ : Type} (f : β → Option γ) (g : α → β) (l : List α) :
    mapMOpt f (l.map g) = mapMOpt (fun a => f (g a)) l := by
  induction l with
  | nil => rfl
  | cons a t ih => simp only [List.map_cons, mapMOpt, ih]

lemma evalArgs_nodes (env : String → Option V) (names : List String) :
    evalArgs env (names.map Arg.node) = mapMOpt env names := by
  rw [evalArgs, mapMOpt_map]
  rfl

/-- Membership version of the output-name resolution lemma. -/
lemma mapM_outName_mem (dom : List String) (l : List (Arg V)) (names : List String)
    (h : mapMOpt (fun a =>
        match a with
        | .node x => if dom.contains x then some x else none
        | .lit _ => none) l = some names) :
    ∀ x ∈ names, x ∈ dom := by
  induction l generalizing names with
  | nil =>
    rw [mapMOpt] at h
    simp only [Option.some.injEq] at h
    rw [← h]
    simp
  | cons a t ih =>
    obtain ⟨b, bs, hfa, hmt, rfl⟩ := mapMOpt_cons_some _ _ _ _ h
    intro x hx
    rcases List.mem_cons.mp hx with rfl | hx
    · match a with
      | .lit v => exact Option.noConfusion hfa
      | .node y =>
        have hfa' : (if dom.contains y = true then some y
            else (none : Option String)) = some x := hfa
        by_cases hd : dom.contains y
        · rw [if_pos hd] at hfa'
          cases hfa'
          simpa using hd
        · rw [if_neg hd] at hfa'
          exact Option.noConfusion hfa'
    · exact ih _ hmt x hx

lemma mapM_guardId_mem (dom l names : List String)
    (h : mapMOpt (fun s => if dom.contains s then some s else none) l
      = some names) : ∀ x ∈ l, x ∈ dom := by
  induction l generalizing names with
  | nil => simp
  | cons a t ih =>
    obtain ⟨b, bs, hfa, hmt, rfl⟩ := mapMOpt_cons_some _ _ _ _ h
    intro x hx
    rcases List.mem_cons.mp hx with rfl | hx
    · by_cases hd : dom.contains x
      · simpa using hd
      · rw [if_neg hd] at hfa
        exact Option.noConfusion hfa
    · exact ih _ hmt x hx

lemma bindingNames_append (a b : List (Node V)) :
    bindingNames (a ++ b) = bindingNames a ++ bindingNames b := by
  simp [bindingNames, List.filter_append]

lemma filter_decomp {α : Type} (P : α → Bool) (l pre post : List α) (x : α)
    (hl : l = pre ++ x :: post) (hx : P x = true) :
    l.filter P = pre.filter P ++ x :: post.filter P := by
  rw [hl, List.filter_append, List.filter_cons, if_pos hx]

/-- Elimination form of `argsClosedAux`: every node's arguments are in the
initial domain or name an earlier binding node. -/
lemma argsClosedAux_elim (dom0 : List String) (l : List (Node V))
    (h : argsClosedAux dom0 l = true) (pre post : List (Node V)) (n : Node V)
    (hl : l = pre ++ n :: post) :
    ∀ a ∈ argNames n, a ∈ dom0 ++ bindingNames pre := by
  induction pre generalizing dom0 l with
  | nil =>
    subst hl
    simp only [List.nil_append] at h
    rw [argsClosedAux, Bool.and_eq_true] at h
    intro a ha
    have := h.1
    rw [List.all_eq_true] at this
    have := this a ha
    simpa [bindingNames] using this
  | cons m pre' ih =>
    subst hl
    simp only [List.cons_append] at h
    rw [argsClosedAux, Bool.and_eq_true] at h
    intro a ha
    have hrec := ih (if bindsName m then dom0 ++ [m.name] else dom0) _ h.2 rfl a ha
    rw [bindingNames_cons]
    by_cases hb : bindsName m
    · rw [if_pos hb] at hrec
      rw [if_pos hb]
      rcases List.mem_append.mp hrec with hmem | hmem
      · rcases List.mem_append.mp hmem with hmem | hmem
        · exact List.mem_append_left _ hmem
        · exact List.mem_append_right _
            (by rw [List.mem_singleton.mp hmem]; exact List.mem_cons_self _ _)
      · exact List.mem_append_right _ (List.mem_cons_of_mem _ hmem)
    · rw [if_neg hb] at hrec
      rw [if_neg hb]
      exact hrec

/-- Introduction form of `argsClosedAux`. -/
lemma argsClosedAux_intro (dom0 : List String) (l : List (Node V))
    (h : ∀ pre post (n : Node V), l = pre ++ n :: post →
      ∀ a ∈ argNames n, a ∈ dom0 ++ bindingNames pre) :
    argsClosedAux dom0 l = true := by
  induction l generalizing dom0 with
  | nil => rfl
  | cons n rest ih =>
    rw [argsClosedAux, Bool.and_eq_true]
    constructor
    · rw [List.all_eq_true]
      intro a ha
      have := h [] rest n rfl a ha
      simpa [bindingNames] using this
    · refine ih _ (fun pre post m hl a ha => ?_)
      have := h (n :: pre) post m (by rw [hl]; rfl) a ha
      rw [bindingNames_cons] at this
      by_cases hb : bindsName n
      · rw [if_pos hb] at this
        rw [if_pos hb]
        rcases List.mem_append.mp this with hmem | hmem
        · exact List.mem_append_left _ (List.mem_append_left _ hmem)
        · rcases List.mem_cons.mp hmem with rfl | hmem
          · exact List.mem_append_left _ (List.mem_append_right _ (by simp))
          · exact List.mem_append_right _ hmem
      · rw [if_neg hb] at this
        rw [if_neg hb]
        exact this

lemma wfB_argsClosed {g : Graph V} (h : wfB g = true) :
    argsClosedAux [] g = true := by
  simp only [wfB, Bool.and_eq_true] at h
  exact h.1.1.1.1.2

lemma wfB_bindingNodup {g : Graph V} (h : wfB g = true) :
    (bindingNames g).Nodup :=
  ((List.filter_sublist g).map Node.name).nodup (wfB_nodup h)

/-- The unique output node of a well-formed graph: it is last, nothing
else is an output, `lastOutput?` finds it and `outputArgs` is its
argument list. -/
lemma wfB_output_char {g : Graph V} (h : wfB g = true) :
    ∃ gi out, g = gi ++ [out] ∧ out.op = .output ∧
      (∀ n ∈ gi, n.op ≠ .output) ∧ lastOutput? g = some out ∧
      outputArgs g = out.args := by
  have h1 : oneOutputLastB g = true := by
    simp only [wfB, Bool.and_eq_true] at h
    exact h.1.1.1.2
  rw [oneOutputLastB] at h1
  cases hlast : g.getLast? with
  | none => rw [hlast] at h1; simp at h1
  | some out =>
    rw [hlast] at h1
    have h1' : (out.op == NOp.output &&
        ((g.filter (fun m => m.op == NOp.output)).length == 1)) = true := h1
    rw [Bool.and_eq_true] at h1'
    obtain ⟨gi, rfl⟩ := List.getLast?_eq_some_iff.mp hlast
    have hout : out.op = .output := by simpa using h1'.1
    have hcount : ((gi ++ [out]).filter (fun m => m.op == .output)).length = 1 := by
      simpa using h1'.2
    have hgi : ∀ n ∈ gi, n.op ≠ .output := by
      intro n hn hc
      rw [List.filter_append] at hcount
      have hn' : n ∈ gi.filter (fun m => m.op == .output) :=
        List.mem_filter.mpr ⟨hn, by simp [hc]⟩
      have hlen1 : 0 < (gi.filter (fun m => m.op == .output)).length :=
        List.length_pos_of_mem hn'
      have hlen2 : ([out].filter (fun m => m.op == .output)).length = 1 := by
        simp [hout]
      rw [List.length_append, hlen2] at hcount
      omega
    refine ⟨gi, out, rfl, hout, hgi, ?_, ?_⟩
    · rw [lastOutput?, List.foldl_append]
      simp [hout]
    · rw [outputArgs, List.filter_append]
      rw [List.filter_eq_nil_iff.mpr (fun n hn => by simpa using hgi n hn)]
      simp [hout]

lemma evalModule_eq_some (interp : String → List V → V) (attrs : String → Option V)
    (g : Graph V) (q : List V) (J : List V) :
    evalModule interp attrs g q = some J ↔
      ∃ env, runNodes interp attrs g (fun _ => none) q = some (env, []) ∧
        evalArgs env (outputArgs g) = some J := by
  rw [evalModule]
  cases hrun : runNodes interp attrs g (fun _ => none) q with
  | none => simp
  | some r =>
    obtain ⟨env, qFin⟩ := r
    cases qFin with
    | nil => simp
    | cons v rest => simp

lemma phNames_append (a b : List (Node V)) :
    phNames (a ++ b) = phNames a ++ phNames b := by
  simp [phNames, List.filter_append]

lemma phNames_cons (n : Node V) (rest : List (Node V)) :
    phNames (n :: rest) =
      if n.op = .placeholder then n.name :: phNames rest else phNames rest := by
  rw [phNames, List.filter_cons]
  by_cases hp : n.op = .placeholder <;> simp [hp, phNames]

lemma phNames_map_mkPlaceholder (names : List String) :
    phNames ((names.map mkPlaceholder : List (Node V))) = names := by
  induction names with
  | nil => rfl
  | cons s t ih => simp [phNames_cons, mkPlaceholder, ih]

/-- The queue matches the placeholders exactly when it is the target
environment evaluated over the placeholder names. -/
lemma phValuesMatch_iff (envT : String → Option V) (nodes : List (Node V))
    (q : List V) :
    phValuesMatch envT nodes q ↔ mapMOpt envT (phNames nodes) = some q := by
  induction nodes generalizing q with
  | nil =>
    rw [phValuesMatch]
    show q = [] ↔ mapMOpt envT (phNames ([] : List (Node V))) = some q
    constructor
    · rintro rfl; rfl
    · intro h
      have h' : some ([] : List V) = some q := h
      injection h' with h''
      exact h''.symm
  | cons n rest ih =>
    rw [phValuesMatch, phNames_cons]
    by_cases hp : n.op = .placeholder
    · rw [if_pos hp, if_pos hp]
      constructor
      · rintro ⟨v, q', rfl, hv, hm⟩
        show (match envT n.name, mapMOpt envT (phNames rest) with
          | some b, some bs => some (b :: bs) | _, _ => none) = some (v :: q')
        rw [hv, (ih q').mp hm]
      · intro h0
        have h : (match envT n.name, mapMOpt envT (phNames rest) with
            | some b, some bs => some (b :: bs)
            | _, _ => (none : Option (List V))) = some q := h0
        cases hv : envT n.name with
        | none => rw [hv] at h; simp at h
        | some v =>
          cases hm : mapMOpt envT (phNames rest) with
          | none => rw [hv, hm] at h; simp at h
          | some q' =>
            rw [hv, hm] at h
            simp only [Option.some.injEq] at h
            exact ⟨v, q', h.symm, rfl, (ih q').mpr hm⟩
    · rw [if_neg hp, if_neg hp]
      exact ih q

lemma mapMOpt_append_split {α β : Type} (f : α → Option β) (a b : List α)
    (r : List β) (h : mapMOpt f (a ++ b) = some r) :
    ∃ ra rb, mapMOpt f a = some ra ∧ mapMOpt f b = some rb ∧ r = ra ++ rb := by
  rw [mapMOpt_append] at h
  cases ha : mapMOpt f a with
  | none => rw [ha] at h; simp at h
  | some ra =>
    cases hb : mapMOpt f b with
    | none => rw [ha, hb] at h; simp at h
    | some rb =>
      rw [ha, hb] at h
      have h' : some (ra ++ rb) = some r := h
      injection h' with h''
      exact ⟨ra, rb, rfl, rfl, h''.symm⟩

lemma mapMOpt_some_append {α β : Type} (f : α → Option β) (a b : List α)
    (ra rb : List β) (ha : mapMOpt f a = some ra) (hb : mapMOpt f b = some rb) :
    mapMOpt f (a ++ b) = some (ra ++ rb) := by
  rw [mapMOpt_append, ha, hb]
  rfl

/-- `argsClosedAux` splits over an append, the domain of the second part
being extended by the binding names of the first. -/
lemma argsClosedAux_append (dom : List String) (l1 l2 : List (Node V)) :
    argsClosedAux dom (l1 ++ l2) =
      (argsClosedAux dom l1 && argsClosedAux (dom ++ bindingNames l1) l2) := by
  induction l1 generalizing dom with
  | nil =>
    show argsClosedAux dom l2 =
      (true && argsClosedAux (dom ++ bindingNames ([] : List (Node V))) l2)
    rw [show bindingNames ([] : List (Node V)) = [] from rfl, List.append_nil,
      Bool.true_and]
  | cons n t ih =>
    rw [List.cons_append, argsClosedAux, argsClosedAux, ih, bindingNames_cons]
    by_cases hb : bindsName n
    · rw [if_pos hb, if_pos hb, List.append_assoc, List.singleton_append,
        Bool.and_assoc]
    · rw [if_neg hb, if_neg hb, Bool.and_assoc]

lemma bindingNames_all_bind (l : List (Node V)) (h : ∀ n ∈ l, bindsName n = true) :
    bindingNames l = l.map Node.name := by
  rw [bindingNames, List.filter_eq_self.mpr h]

lemma mem_bindingNames_iff (l : List (Node V)) (x : String) :
    x ∈ bindingNames l ↔ ∃ n ∈ l, bindsName n = true ∧ n.name = x := by
  rw [bindingNames]
  simp only [List.mem_map, List.mem_filter]
  constructor
  · rintro ⟨n, ⟨hn, hb⟩, rfl⟩
    exact ⟨n, hn, hb, rfl⟩
  · rintro ⟨n, hn, hb, rfl⟩
    exact ⟨n, ⟨hn, hb⟩, rfl⟩

/-- A decomposition of a filtered list lifts to a decomposition of the
original list. -/
lemma filter_decomp_orig {α : Type} (P : α → Bool) :
    ∀ (l pre' post' : List α) (x : α), l.filter P = pre' ++ x :: post' →
      ∃ pre post, l = pre ++ x :: post ∧ pre' = pre.filter P ∧
        post' = post.filter P ∧ P x = true := by
  intro l
  induction l with
  | nil =>
    intro pre' post' x h
    rw [List.filter_nil] at h
    exact absurd h.symm (by simp)
  | cons a t ih =>
    intro pre' post' x h
    rw [List.filter_cons] at h
    by_cases hp : P a
    · rw [if_pos hp] at h
      cases pre' with
      | nil =>
        simp only [List.nil_append, List.cons.injEq] at h
        exact ⟨[], t, by simp [h.1], rfl, h.2.symm, h.1 ▸ hp⟩
      | cons y pre'' =>
        simp only [List.cons_append, List.cons.injEq] at h
        obtain ⟨pre, post, ht, hpre, hpost, hx⟩ := ih pre'' post' x h.2
        exact ⟨a :: pre, post, by simp [ht], by
          rw [List.filter_cons, if_pos hp, hpre, h.1], hpost, hx⟩
    · rw [if_neg hp] at h
      obtain ⟨pre, post, ht, hpre, hpost, hx⟩ := ih pre' post' x h
      exact ⟨a :: pre, post, by simp [ht], by
        rw [List.filter_cons, if_neg hp, hpre], hpost, hx⟩

lemma argNames_mkPlaceholder (s : String) :
    argNames (mkPlaceholder (V := V) s) = [] := rfl

lemma argsClosedAux_placeholders (dom : List String) (names : List String) :
    argsClosedAux dom ((names.map mkPlaceholder : List (Node V))) = true := by
  induction names generalizing dom with
  | nil => rfl
  | cons s t ih =>
    rw [List.map_cons, argsClosedAux, Bool.and_eq_true]
    exact ⟨by simp [argNames_mkPlaceholder], ih _⟩

lemma bindsName_mkPlaceholder (s : String) :
    bindsName (mkPlaceholder (V := V) s) = true := rfl

lemma bindingNames_map_mkPlaceholder (names : List String) :
    bindingNames ((names.map mkPlaceholder : List (Node V))) = names := by
  induction names with
  | nil => rfl
  | cons s t ih =>
    rw [List.map_cons, bindingNames_cons, if_pos (bindsName_mkPlaceholder s), ih]
    rfl

lemma mapMOpt_total {α β : Type} (f : α → Option β) (l : List α)
    (h : ∀ a ∈ l, ∃ b, f a = some b) : ∃ bs, mapMOpt f l = some bs := by
  induction l with
  | nil => exact ⟨[], rfl⟩
  | cons a t ih =>
    obtain ⟨b, hb⟩ := h a (List.mem_cons_self _ _)
    obtain ⟨bs, hbs⟩ := ih (fun x hx => h x (List.mem_cons_of_mem _ hx))
    exact ⟨b :: bs, by rw [mapMOpt, hb, hbs]⟩

/-- With unique names, two member nodes with the same name are equal. -/
lemma node_eq_of_name {g : Graph V} (hnd : (g.map Node.name).Nodup)
    {m n : Node V} (hm : m ∈ g) (hn : n ∈ g) (h : m.name = n.name) : m = n :=
  List.inj_on_of_nodup_map hnd hm hn h

end WFLemmas

/-! ### Facts about the final backward/saved sets of the coloring walk -/

section ColorFacts
variable {V : Type}

/-- Every name in the final backward set belongs to a non-output node. -/
lemma fold_fst_sub_strong (l : List (Node V)) (st : List String × List String)
    (x : String) (h : x ∈ (l.foldl colorStep st).1) :
    x ∈ st.1 ∨ ∃ m ∈ l, m.name = x ∧ m.op ≠ .output := by
  induction l generalizing st with
  | nil => exact Or.inl h
  | cons n t ih =>
    rcases ih _ h with h' | ⟨m, hm, hname, hop⟩
    · rw [colorStep_fst] at h'
      by_cases hc : coloredCond st n
      · simp only [hc, if_true, List.mem_append, List.mem_singleton] at h'
        rcases h' with h' | rfl
        · exact Or.inl h'
        · refine Or.inr ⟨n, List.mem_cons_self _ _, rfl, ?_⟩
          rcases (coloredCond_iff st n).mp hc with ht | ⟨hne, -⟩
          · rw [tangent_is_placeholder ht]
            intro hcon
            exact NOp.noConfusion hcon
          · exact hne
      · simp only [hc, if_false] at h'
        exact Or.inl h'
    · exact Or.inr ⟨m, List.mem_cons_of_mem _ hm, hname, hop⟩

/-- For a placeholder of a well-formed graph the coloring condition
reduces to being a tangent input (placeholders have no arguments). -/
lemma coloredCond_ph {g : Graph V} (hwf : wfB g = true) {n : Node V} (hn : n ∈ g)
    (hop : n.op = .placeholder) (st : List String × List String) :
    coloredCond st n = isTangentPH n := by
  cases ht : isTangentPH n with
  | true => exact (coloredCond_iff st n).mpr (Or.inl ht)
  | false =>
    rw [Bool.eq_false_iff]
    intro hc
    rcases (coloredCond_iff st n).mp hc with ht' | ⟨-, a, ha, -⟩
    · rw [ht] at ht'
      exact Bool.noConfusion ht'
    · rw [wfB_ph_argNames hwf hn hop] at ha
      exact absurd ha (List.not_mem_nil a)

/-- Tangent placeholders are always colored backward. -/
lemma tangent_mem_bw {g : Graph V} (hwf : wfB g = true) {n : Node V} (hn : n ∈ g)
    (ht : isTangentPH n = true) : n.name ∈ (colorFold g).1 := by
  obtain ⟨pre, post, hg⟩ := List.append_of_mem hn
  exact (bw_mem_iff_colored g n pre post hg (wfB_nodup hwf)).mpr
    ((coloredCond_iff _ n).mpr (Or.inl ht))

/-- Primal placeholders are never colored backward. -/
lemma primal_ph_not_mem_bw {g : Graph V} (hwf : wfB g = true) {n : Node V}
    (hn : n ∈ g) (hop : n.op = .placeholder) (ht : isTangentPH n = false) :
    n.name ∉ (colorFold g).1 := by
  obtain ⟨pre, post, hg⟩ := List.append_of_mem hn
  intro hmem
  have hcol := (bw_mem_iff_colored g n pre post hg (wfB_nodup hwf)).mp hmem
  rw [coloredCond_ph hwf hn hop, ht] at hcol
  exact Bool.noConfusion hcol

/-- A binding name of a prefix that is in the final backward set is
already in the prefix's backward set (coloring is decided at the node's
own step). -/
lemma bwFinal_mem_prefix {g : Graph V} (hwf : wfB g = true)
    (pre rest : List (Node V)) (hg : g = pre ++ rest) (x : String)
    (hx : x ∈ bindingNames pre) (hmem : x ∈ (colorFold g).1) :
    x ∈ (colorFold pre).1 := by
  obtain ⟨m, hmpre, hb, rfl⟩ := (mem_bindingNames_iff pre x).mp hx
  obtain ⟨pre2, post2, hpre⟩ := List.append_of_mem hmpre
  have hgdecomp : g = pre2 ++ m :: (post2 ++ rest) := by rw [hg, hpre]; simp
  have hcol := (bw_mem_iff_colored g m pre2 (post2 ++ rest) hgdecomp
    (wfB_nodup hwf)).mp hmem
  have hstep : m.name ∈ (colorStep (colorFold pre2) m).1 := by
    rw [colorStep_fst, if_pos hcol]
    simp
  have hfold : m.name ∈ (post2.foldl colorStep (colorStep (colorFold pre2) m)).1 :=
    fold_fst_mono _ _ _ hstep
  rw [hpre, colorFold, List.foldl_append, List.foldl_cons]
  exact hfold

lemma bw_prefix_mono (pre rest : List (Node V)) (x : String)
    (hx : x ∈ (colorFold pre).1) : x ∈ (colorFold (pre ++ rest)).1 := by
  rw [colorFold, List.foldl_append]
  exact fold_fst_mono _ _ _ hx

/-- Arguments of an uncolored non-output node are themselves uncolored. -/
lemma uncolored_args_uncolored {g : Graph V} (hwf : wfB g = true)
    (pre post : List (Node V)) (n : Node V) (hg : g = pre ++ n :: post)
    (hout : n.op ≠ .output) (hn : n.name ∉ (colorFold g).1) :
    ∀ a ∈ argNames n, a ∉ (colorFold g).1 := by
  intro a ha hmem
  have hadom := argsClosedAux_elim [] g (wfB_argsClosed hwf) pre post n hg a ha
  simp only [List.nil_append] at hadom
  have hapre : a ∈ (colorFold pre).1 :=
    bwFinal_mem_prefix hwf pre (n :: post) hg a hadom hmem
  have hcol : coloredCond (colorFold pre) n = true :=
    (coloredCond_iff _ n).mpr (Or.inr ⟨hout, a, ha, Or.inl hapre⟩)
  exact hn ((bw_mem_iff_colored g n pre post hg (wfB_nodup hwf)).mpr hcol)

/-- Arguments of a colored non-tangent node end up in the final backward
or saved set. -/
lemma colored_args_bw_or_saved {g : Graph V} (hwf : wfB g = true)
    (pre post : List (Node V)) (n : Node V) (hg : g = pre ++ n :: post)
    (ht : isTangentPH n = false) (hn : n.name ∈ (colorFold g).1) :
    ∀ a ∈ argNames n, a ∈ (colorFold g).1 ∨ a ∈ (colorFold g).2 := by
  intro a ha
  have hcol := (bw_mem_iff_colored g n pre post hg (wfB_nodup hwf)).mp hn
  by_cases hbw : a ∈ (colorFold pre).1 ++ [n.name]
  · rcases List.mem_append.mp hbw with h | h
    · exact Or.inl (by rw [hg]; exact bw_prefix_mono _ _ _ h)
    · rw [List.mem_singleton.mp h]
      exact Or.inl hn
  · have hcond : ∃ b ∈ argNames n, b ∈ (colorFold pre).1 ∨ b ∈ (colorFold pre).2 := by
      rcases (coloredCond_iff _ n).mp hcol with ht' | ⟨-, b, hb, hbm⟩
      · rw [ht] at ht'
        exact absurd ht' (by simp)
      · exact ⟨b, hb, hbm⟩
    have hne : n.op ≠ .output := by
      rcases (coloredCond_iff _ n).mp hcol with ht' | ⟨hne, -⟩
      · rw [ht] at ht'
        exact absurd ht' (by simp)
      · exact hne
    have hsavedstep : a ∈ (colorStep (colorFold pre) n).2 := by
      rw [colorStep_snd_mem]
      exact Or.inr ⟨ht, hne, hcond, ha, hbw⟩
    right
    rw [hg, colorFold, List.foldl_append, List.foldl_cons]
    exact fold_snd_mono _ _ _ hsavedstep

/-- The final saved set is disjoint from the final backward set. -/
lemma saved_not_bw {g : Graph V} (hwf : wfB g = true) (x : String)
    (hx : x ∈ (colorFold g).2) : x ∉ (colorFold g).1 := by
  intro hbw
  rw [colorFold] at hx
  rcases (fold_snd_mem g ([], []) x).mp hx with h | ⟨pre, m, post, hg, hA⟩
  · exact absurd h (List.not_mem_nil x)
  · obtain ⟨-, -, -, hxarg, hxnot⟩ := hA
    have hadom := argsClosedAux_elim [] g (wfB_argsClosed hwf) pre post m hg x hxarg
    simp only [List.nil_append] at hadom
    have : x ∈ (colorFold pre).1 :=
      bwFinal_mem_prefix hwf pre (m :: post) hg x hadom hbw
    exact hxnot (List.mem_append_left _ this)

/-- Every saved name is a binding name of the graph. -/
lemma saved_sub_binding {g : Graph V} (hwf : wfB g = true) (x : String)
    (hx : x ∈ (colorFold g).2) : x ∈ bindingNames g := by
  rw [colorFold] at hx
  rcases (fold_snd_mem g ([], []) x).mp hx with h | ⟨pre, m, post, hg, hA⟩
  · exact absurd h (List.not_mem_nil x)
  · have hadom := argsClosedAux_elim [] g (wfB_argsClosed hwf) pre post m hg
      x hA.2.2.2.1
    simp only [List.nil_append] at hadom
    rw [hg, bindingNames_append]
    exact List.mem_append_left _ hadom

/-- Every backward name is a binding name of the graph. -/
lemma bw_sub_binding {g : Graph V} (x : String)
    (hx : x ∈ (colorFold g).1) : x ∈ bindingNames g := by
  rw [colorFold] at hx
  rcases fold_fst_sub_strong g ([], []) x hx with h | ⟨m, hm, rfl, hop⟩
  · exact absurd h (List.not_mem_nil x)
  · exact (mem_bindingNames_iff g m.name).mpr ⟨m, hm, bindsName_of_op hop, rfl⟩

end ColorFacts

/-! ### Soundness of `default_partition`: the two halves compute the joint
values -/

section PartSoundLemmas
variable {V : Type}

lemma op_ne_output_of_bindsName {n : Node V} (h : bindsName n = true) :
    n.op ≠ .output := by
  rw [bindsName, bne_iff_ne] at h
  exact h

lemma argNames_mkOutput (names : List String) :
    argNames (mkOutput (V := V) (names.map Arg.node)) = names := by
  rw [argNames, mkOutput]
  show ((names.map Arg.node ++ []).filterMap _ : List String) = names
  rw [List.append_nil, List.filterMap_map]
  exact List.filterMap_some ..

lemma bindsName_mkOutput (outs : List (Arg V)) :
    bindsName (mkOutput outs) = false := rfl

lemma phNames_mkOutput_singleton (outs : List (Arg V)) :
    phNames [mkOutput outs] = [] := rfl

lemma bindingNames_mkOutput_singleton (outs : List (Arg V)) :
    bindingNames [mkOutput outs] = [] := rfl

lemma nodeEquations_output (interp : String → List V → V)
    (attrs : String → Option V) (envT : String → Option V) (n : Node V)
    (hop : n.op = .output) : nodeEquations interp attrs envT n := by
  simp [nodeEquations, hop]

lemma nodeEquations_placeholder (interp : String → List V → V)
    (attrs : String → Option V) (envT : String → Option V) (n : Node V)
    (hop : n.op = .placeholder) : nodeEquations interp attrs envT n := by
  simp [nodeEquations, hop]

/-- The all-`none` initial environment satisfies the reconstruction
invariant for the empty domain. -/
lemma emptyEnv_inv (envT : String → Option V) : ∀ s : String,
    (s ∈ ([] : List String) →
      (fun _ => (none : Option V)) s = envT s ∧
        (fun _ => (none : Option V)) s ≠ none) ∧
    (s ∉ ([] : List String) → (fun _ => (none : Option V)) s = none) :=
  fun s => ⟨fun h => absurd h (List.not_mem_nil s), fun _ => rfl⟩

/-- Successful copying implies the copied sublist is well-scoped over the
initial remap domain. -/
lemma copyNodesAux_closed (cond : Node V → Bool) :
    ∀ (l : List (Node V)) (st res : List (Node V) × List String),
      copyNodesAux cond l st = some res →
      (∀ n ∈ l, cond n = true → bindsName n = true) →
      argsClosedAux st.2 (l.filter cond) = true := by
  intro l
  induction l with
  | nil => intro st res h hb; rfl
  | cons n t ih =>
    intro st res h hb
    rw [List.filter_cons]
    by_cases hc : cond n
    · rw [copyNodesAux, if_pos hc] at h
      by_cases ha : (argNames n).all st.2.contains
      · rw [if_pos ha] at h
        rw [if_pos hc, argsClosedAux, Bool.and_eq_true]
        refine ⟨ha, ?_⟩
        rw [if_pos (hb n (List.mem_cons_self _ _) hc)]
        exact ih _ _ h (fun m hm hcm => hb m (List.mem_cons_of_mem _ hm) hcm)
      · rw [if_neg ha] at h
        exact absurd h (by simp)
    · rw [copyNodesAux, if_neg hc] at h
      rw [if_neg hc]
      exact ih _ _ h (fun m hm hcm => hb m (List.mem_cons_of_mem _ hm) hcm)

/-- Soundness of `default_partition`: on any joint evaluation, the
produced forward graph run on the primal inputs computes the forward
outputs followed by the saved values, and the produced backward graph run
on the saved values threaded together with the tangent inputs computes the
gradients — together exactly the joint outputs. -/
lemma defaultPartition_sound (interp : String → List V → V)
    (attrs : String → Option V) (m : JointModule V) (savedOrder : List String)
    (F B : Graph V) (p t J : List V)
    (hwf : wfB m.graph = true)
    (hsplit : phNames m.graph =
      primalInputNames m.graph ++ tangentInputNames m.graph)
    (hp : p.length = (primalInputNames m.graph).length)
    (hperm : savedOrder.Perm (colorFold m.graph).2)
    (hbwdrefs : ∀ a ∈ (outputArgs m.graph).drop m.numFwd,
      ∃ x, a = Arg.node x ∧ x ∈ (colorFold m.graph).1)
    (hpart : defaultPartition m savedOrder = some (F, B))
    (hJ : evalModule interp attrs m.graph (p ++ t) = some J) :
    ∃ fwRes bwRes,
      evalModule interp attrs F p = some fwRes ∧
      evalModule interp attrs B (fwRes.drop m.numFwd ++ t) = some bwRes ∧
      fwRes.take m.numFwd = J.take m.numFwd ∧
      bwRes = J.drop m.numFwd := by
  -- ### the joint run
  obtain ⟨gi, out, hgsplit, houtop, hgiout, hlastout, houtargs⟩ := wfB_output_char hwf
  obtain ⟨envT, hrunJ, hevalJ⟩ := (evalModule_eq_some interp attrs _ _ _).mp hJ
  have hndg : (([] : List String) ++ bindingNames m.graph).Nodup := by
    simpa using wfB_bindingNodup hwf
  obtain ⟨heqs, hph, hdefd⟩ := runNodes_char interp attrs m.graph
    (fun _ => none) [] (p ++ t) envT hrunJ hndg (wfB_argsClosed hwf)
  -- split the joint input queue into primal and tangent values
  have hphm : mapMOpt envT (phNames m.graph) = some (p ++ t) :=
    (phValuesMatch_iff envT m.graph (p ++ t)).mp hph
  rw [hsplit] at hphm
  obtain ⟨vp, vt, hvp, hvt, hpt⟩ := mapMOpt_append_split _ _ _ _ hphm
  have hlvp : vp.length = (primalInputNames m.graph).length :=
    mapMOpt_length _ _ _ hvp
  obtain ⟨rfl, rfl⟩ := List.append_inj hpt (by rw [hp, hlvp])
  -- ### unfold the partition
  rw [houtargs] at hbwdrefs
  simp only [defaultPartition, hlastout, Option.bind_eq_bind, Option.some_bind,
    Option.bind_eq_some, Option.pure_def, Option.some.injEq,
    Option.ite_none_left_eq_some] at hpart
  obtain ⟨copied, hcopy, hassert, bwdOutNames, hbwdnames, fwCopied, hfwcopy,
    fwdOutNames, hfwdnames, savedOutNames, hsavednames, hFB⟩ := hpart
  obtain ⟨hF, hB⟩ := Prod.mk.injEq .. ▸ hFB
  have hlen : m.numFwd + m.numBwd = out.args.length := by simpa using hassert
  -- ### split the joint outputs
  rw [houtargs] at hevalJ
  rw [← List.take_append_drop m.numFwd out.args] at hevalJ
  rw [evalArgs] at hevalJ
  obtain ⟨Jf, Jb, hJf, hJb, hJsplit⟩ := mapMOpt_append_split _ _ _ _ hevalJ
  have hJf_len : Jf.length = m.numFwd := by
    have h1 := mapMOpt_length _ _ _ hJf
    rw [List.length_take, Nat.min_eq_left (by omega)] at h1
    exact h1
  have htake_eq : out.args.take m.numFwd = fwdOutNames.map Arg.node :=
    mapM_outName_eq _ _ _ hfwdnames
  have hdrop_eq : out.args.drop m.numFwd = bwdOutNames.map Arg.node :=
    mapM_outName_eq _ _ _ hbwdnames
  have hJf' : mapMOpt envT fwdOutNames = some Jf := by
    rw [← evalArgs_nodes, ← htake_eq]
    exact hJf
  have hJb' : mapMOpt envT bwdOutNames = some Jb := by
    rw [← evalArgs_nodes, ← hdrop_eq]
    exact hJb
  have hsoeq : savedOutNames = savedOrder := mapM_guardId_eq _ _ _ hsavednames
  -- saved values under the joint environment
  obtain ⟨vsaved, hvsaved⟩ : ∃ vs, mapMOpt envT savedOrder = some vs := by
    refine mapMOpt_total _ _ (fun s hs => ?_)
    have hsm : s ∈ (colorFold m.graph).2 := (hperm.mem_iff).mp hs
    have hsb := saved_sub_binding hwf s hsm
    cases hv : envT s with
    | none => exact absurd hv (hdefd s hsb)
    | some v => exact ⟨v, rfl⟩
  -- ### the forward condition
  have hcF_iff : ∀ n : Node V,
      ((!(colorFold m.graph).1.contains n.name && n.op != NOp.output) = true) ↔
        (n.name ∉ (colorFold m.graph).1 ∧ n.op ≠ .output) := by
    intro n
    simp [bne_iff_ne]
  -- the forward-copied node list
  have hfw1 : fwCopied.1 = m.graph.filter
      (fun n => !(colorFold m.graph).1.contains n.name && n.op != NOp.output) := by
    have h1 := (copyNodesAux_eq _ _ _ _ hfwcopy).1
    simpa using h1
  have hfw2 : fwCopied.2 = (m.graph.filter
      (fun n => !(colorFold m.graph).1.contains n.name &&
        n.op != NOp.output)).map Node.name := by
    have h2 := (copyNodesAux_eq _ _ _ _ hfwcopy).2
    simpa using h2
  have hFN_bind : ∀ n ∈ m.graph.filter
      (fun n => !(colorFold m.graph).1.contains n.name && n.op != NOp.output),
      bindsName n = true := by
    intro n hn
    exact bindsName_of_op ((hcF_iff n).mp (List.mem_filter.mp hn).2).2
  have hFN_noout : ∀ n ∈ m.graph.filter
      (fun n => !(colorFold m.graph).1.contains n.name && n.op != NOp.output),
      n.op ≠ .output := fun n hn => ((hcF_iff n).mp (List.mem_filter.mp hn).2).2
  have hbnFN : bindingNames (m.graph.filter
      (fun n => !(colorFold m.graph).1.contains n.name && n.op != NOp.output)) =
      (m.graph.filter
        (fun n => !(colorFold m.graph).1.contains n.name &&
          n.op != NOp.output)).map Node.name :=
    bindingNames_all_bind _ hFN_bind
  -- well-scopedness of the copied forward nodes
  have hFN_closed : argsClosedAux [] (m.graph.filter
      (fun n => !(colorFold m.graph).1.contains n.name && n.op != NOp.output)) =
      true := by
    refine argsClosedAux_intro _ _ (fun pre post n hdec a ha => ?_)
    obtain ⟨preG, postG, hgdec, hpre, hpost, hcfn⟩ :=
      filter_decomp_orig _ _ _ _ _ hdec
    obtain ⟨hnbw, hnout⟩ := (hcF_iff n).mp hcfn
    have hadom := argsClosedAux_elim [] m.graph (wfB_argsClosed hwf)
      preG postG n hgdec a ha
    simp only [List.nil_append] at hadom
    obtain ⟨ma, hma, hbma, rfl⟩ := (mem_bindingNames_iff preG a).mp hadom
    have hanobw : ma.name ∉ (colorFold m.graph).1 :=
      uncolored_args_uncolored hwf preG postG n hgdec hnout hnbw ma.name ha
    have hcFma := (hcF_iff ma).mpr ⟨hanobw, op_ne_output_of_bindsName hbma⟩
    show ma.name ∈ ([] : List String) ++ bindingNames pre
    rw [hpre]
    exact List.mem_append_right _ ((mem_bindingNames_iff _ _).mpr
      ⟨ma, List.mem_filter.mpr ⟨hma, hcFma⟩, hbma, rfl⟩)
  -- the forward placeholders are exactly the primal inputs
  have hphFN : phNames (m.graph.filter
      (fun n => !(colorFold m.graph).1.contains n.name && n.op != NOp.output)) =
      primalInputNames m.graph := by
    rw [phNames, List.filter_filter, primalInputNames]
    refine congrArg (List.map Node.name) (List.filter_congr (fun n hn => ?_))
    by_cases hph' : n.op = .placeholder
    · by_cases htg : containsStr n.target "tangents"
      · have ht : isTangentPH n = true := by simp [isTangentPH, hph', htg]
        have hbw := tangent_mem_bw hwf hn ht
        simp [isPrimalPH, hph', htg, hbw]
      · have ht : isTangentPH n = false := by simp [isTangentPH, htg]
        have hbw := primal_ph_not_mem_bw hwf hn hph' ht
        simp [isPrimalPH, hph', htg, hbw]
    · have hfalse : (n.op == NOp.placeholder) = false :=
        beq_eq_false_iff_ne.mpr hph'
      simp [isPrimalPH, hfalse]
  -- all names the forward output references are bound by the forward body
  have hFoutmem : ∀ s ∈ fwdOutNames ++ savedOutNames,
      s ∈ bindingNames (m.graph.filter
        (fun n => !(colorFold m.graph).1.contains n.name &&
          n.op != NOp.output)) := by
    intro s hs
    rw [hbnFN, ← hfw2]
    rcases List.mem_append.mp hs with hs | hs
    · exact mapM_outName_mem _ _ _ hfwdnames s hs
    · exact mapM_guardId_mem _ _ _ hsavednames s (hsoeq ▸ hs)
  -- ### run the forward graph
  have hFclosed : argsClosedAux []
      (m.graph.filter (fun n => !(colorFold m.graph).1.contains n.name &&
        n.op != NOp.output) ++
        [mkOutput ((fwdOutNames ++ savedOutNames).map Arg.node)]) = true := by
    rw [argsClosedAux_append, Bool.and_eq_true]
    refine ⟨hFN_closed, ?_⟩
    rw [argsClosedAux, Bool.and_eq_true]
    refine ⟨?_, rfl⟩
    rw [List.all_eq_true]
    intro a ha
    rw [argNames_mkOutput] at ha
    simpa using hFoutmem a ha
  have hFnodup : (([] : List String) ++ bindingNames
      (m.graph.filter (fun n => !(colorFold m.graph).1.contains n.name &&
        n.op != NOp.output) ++
        [mkOutput ((fwdOutNames ++ savedOutNames).map Arg.node)])).Nodup := by
    rw [List.nil_append, bindingNames_append, bindingNames_mkOutput_singleton,
      List.append_nil, hbnFN]
    exact ((List.filter_sublist m.graph).map Node.name).nodup (wfB_nodup hwf)
  have hFeqs : ∀ n ∈ m.graph.filter
      (fun n => !(colorFold m.graph).1.contains n.name && n.op != NOp.output) ++
      [mkOutput ((fwdOutNames ++ savedOutNames).map Arg.node)],
      nodeEquations interp attrs envT n := by
    intro n hn
    rcases List.mem_append.mp hn with hmem | hmem
    · exact heqs n (List.mem_of_mem_filter hmem)
    · rw [List.mem_singleton.mp hmem]
      exact nodeEquations_output interp attrs envT _ rfl
  have hFph : phValuesMatch envT
      (m.graph.filter (fun n => !(colorFold m.graph).1.contains n.name &&
        n.op != NOp.output) ++
        [mkOutput ((fwdOutNames ++ savedOutNames).map Arg.node)]) p := by
    rw [phValuesMatch_iff, phNames_append, phNames_mkOutput_singleton,
      List.append_nil, hphFN]
    exact hvp
  obtain ⟨envF', hrunF, hagreeF⟩ := runNodes_build interp attrs envT
    (m.graph.filter (fun n => !(colorFold m.graph).1.contains n.name &&
      n.op != NOp.output) ++
      [mkOutput ((fwdOutNames ++ savedOutNames).map Arg.node)])
    (fun _ => none) [] p (emptyEnv_inv envT) hFnodup hFclosed hFeqs hFph
  have hFout : outputArgs
      (m.graph.filter (fun n => !(colorFold m.graph).1.contains n.name &&
        n.op != NOp.output) ++
        [mkOutput ((fwdOutNames ++ savedOutNames).map Arg.node)]) =
      (fwdOutNames ++ savedOutNames).map Arg.node :=
    outputArgs_copies_append _ _ hFN_noout
  have hevalF : evalArgs envF' (outputArgs
      (m.graph.filter (fun n => !(colorFold m.graph).1.contains n.name &&
        n.op != NOp.output) ++
        [mkOutput ((fwdOutNames ++ savedOutNames).map Arg.node)])) =
      some (Jf ++ vsaved) := by
    rw [hFout, evalArgs_nodes]
    have hcongr : mapMOpt envF' (fwdOutNames ++ savedOutNames) =
        mapMOpt envT (fwdOutNames ++ savedOutNames) := by
      refine mapMOpt_congr (fun s hs => ?_)
      refine ((hagreeF s).1 ?_).1
      rw [List.nil_append, bindingNames_append, bindingNames_mkOutput_singleton,
        List.append_nil]
      exact hFoutmem s hs
    rw [hcongr, hsoeq]
    exact mapMOpt_some_append _ _ _ _ _ hJf' hvsaved
  have hFeval : evalModule interp attrs F p = some (Jf ++ vsaved) := by
    rw [← hF, hfw1]
    exact (evalModule_eq_some interp attrs _ _ _).mpr ⟨envF', hrunF, hevalF⟩
  -- ### the backward condition
  have hcB_bw : ∀ n ∈ m.graph,
      ((colorFold m.graph).1.contains n.name ||
        (out.args.drop m.numFwd).any (fun a => argMatchesName a n.name)) = true →
      n.name ∈ (colorFold m.graph).1 := by
    intro n _ hcb
    rcases Bool.or_eq_true_iff.mp hcb with h | h
    · simpa using h
    · obtain ⟨a, ha, hmatch⟩ := List.any_eq_true.mp h
      obtain ⟨x, rfl, hx⟩ := hbwdrefs a ha
      have hxe : x = n.name := by simpa [argMatchesName] using hmatch
      exact hxe ▸ hx
  have hcB_bind : ∀ n ∈ m.graph,
      ((colorFold m.graph).1.contains n.name ||
        (out.args.drop m.numFwd).any (fun a => argMatchesName a n.name)) = true →
      bindsName n = true := by
    intro n hn hcb
    have hmem := hcB_bw n hn hcb
    rw [colorFold] at hmem
    rcases fold_fst_sub_strong _ _ _ hmem with h | ⟨m', hm', hname, hop⟩
    · exact absurd h (List.not_mem_nil _)
    · have heqn := node_eq_of_name (wfB_nodup hwf) hm' hn hname
      exact bindsName_of_op (heqn ▸ hop)
  have hcop1 : copied.1 = m.graph.filter
      (fun n => (colorFold m.graph).1.contains n.name ||
        (out.args.drop m.numFwd).any (fun a => argMatchesName a n.name)) := by
    have h1 := (copyNodesAux_eq _ _ _ _ hcopy).1
    simpa using h1
  have hcop2 : copied.2 = savedOrder ++ (m.graph.filter
      (fun n => (colorFold m.graph).1.contains n.name ||
        (out.args.drop m.numFwd).any (fun a => argMatchesName a n.name))).map
        Node.name := by
    have h2 := (copyNodesAux_eq _ _ _ _ hcopy).2
    simpa using h2
  have hBN_bind : ∀ n ∈ m.graph.filter
      (fun n => (colorFold m.graph).1.contains n.name ||
        (out.args.drop m.numFwd).any (fun a => argMatchesName a n.name)),
      bindsName n = true := by
    intro n hn
    obtain ⟨hng, hcb⟩ := List.mem_filter.mp hn
    exact hcB_bind n hng hcb
  have hbnBN : bindingNames (m.graph.filter
      (fun n => (colorFold m.graph).1.contains n.name ||
        (out.args.drop m.numFwd).any (fun a => argMatchesName a n.name))) =
      (m.graph.filter
        (fun n => (colorFold m.graph).1.contains n.name ||
          (out.args.drop m.numFwd).any (fun a => argMatchesName a n.name))).map
        Node.name :=
    bindingNames_all_bind _ hBN_bind
  -- the backward placeholders after the saved ones are exactly the tangents
  have hphBN : phNames (m.graph.filter
      (fun n => (colorFold m.graph).1.contains n.name ||
        (out.args.drop m.numFwd).any (fun a => argMatchesName a n.name))) =
      tangentInputNames m.graph := by
    rw [phNames, List.filter_filter, tangentInputNames]
    refine congrArg (List.map Node.name) (List.filter_congr (fun n hn => ?_))
    by_cases hph' : n.op = .placeholder
    · by_cases htg : containsStr n.target "tangents"
      · have ht : isTangentPH n = true := by simp [isTangentPH, hph', htg]
        have hbw := tangent_mem_bw hwf hn ht
        simp [isTangentPH, hph', htg, hbw]
      · have ht : isTangentPH n = false := by simp [isTangentPH, htg]
        have hbw := primal_ph_not_mem_bw hwf hn hph' ht
        have hany : (out.args.drop m.numFwd).any
            (fun a => argMatchesName a n.name) = false := by
          rw [List.any_eq_false]
          intro a ha
          obtain ⟨x, rfl, hx⟩ := hbwdrefs a ha
          simp only [argMatchesName, beq_iff_eq]
          intro heq
          exact hbw (heq ▸ hx)
        simp [isTangentPH, hph', htg, hbw, hany]
    · have hfalse : (n.op == NOp.placeholder) = false :=
        beq_eq_false_iff_ne.mpr hph'
      simp [isTangentPH, hfalse]
  -- the backward graph is well formed for the reconstruction
  have hBphs_closed : argsClosedAux []
      ((savedOrder.map mkPlaceholder : List (Node V))) = true :=
    argsClosedAux_placeholders _ _
  have hBN_closed : argsClosedAux savedOrder (m.graph.filter
      (fun n => (colorFold m.graph).1.contains n.name ||
        (out.args.drop m.numFwd).any (fun a => argMatchesName a n.name))) =
      true :=
    copyNodesAux_closed _ _ _ _ hcopy hcB_bind
  have hBoutmem : ∀ s ∈ bwdOutNames, s ∈ savedOrder ++
      bindingNames (m.graph.filter
        (fun n => (colorFold m.graph).1.contains n.name ||
          (out.args.drop m.numFwd).any (fun a => argMatchesName a n.name))) := by
    intro s hs
    have := mapM_outName_mem _ _ _ hbwdnames s hs
    rw [hcop2] at this
    rw [hbnBN]
    exact this
  have hBclosed : argsClosedAux []
      ((savedOrder.map mkPlaceholder ++ m.graph.filter
        (fun n => (colorFold m.graph).1.contains n.name ||
          (out.args.drop m.numFwd).any (fun a => argMatchesName a n.name))) ++
        [mkOutput (bwdOutNames.map Arg.node)]) = true := by
    rw [argsClosedAux_append, Bool.and_eq_true]
    constructor
    · rw [argsClosedAux_append, Bool.and_eq_true]
      refine ⟨hBphs_closed, ?_⟩
      rw [bindingNames_map_mkPlaceholder]
      exact hBN_closed
    · rw [argsClosedAux, Bool.and_eq_true]
      refine ⟨?_, rfl⟩
      rw [List.all_eq_true]
      intro a ha
      rw [argNames_mkOutput] at ha
      have := hBoutmem a ha
      rw [bindingNames_append, bindingNames_map_mkPlaceholder]
      simpa using this
  have hsavedNodup : savedOrder.Nodup :=
    (hperm.nodup_iff).mpr (colorFold_snd_nodup m.graph)
  have hBnodup : (([] : List String) ++ bindingNames
      ((savedOrder.map mkPlaceholder ++ m.graph.filter
        (fun n => (colorFold m.graph).1.contains n.name ||
          (out.args.drop m.numFwd).any (fun a => argMatchesName a n.name))) ++
        [mkOutput (bwdOutNames.map Arg.node)])).Nodup := by
    rw [List.nil_append, bindingNames_append, bindingNames_mkOutput_singleton,
      List.append_nil, bindingNames_append, bindingNames_map_mkPlaceholder, hbnBN]
    refine List.Nodup.append hsavedNodup
      (((List.filter_sublist m.graph).map Node.name).nodup (wfB_nodup hwf)) ?_
    intro a ha hb
    have hnotbw : a ∉ (colorFold m.graph).1 :=
      saved_not_bw hwf a ((hperm.mem_iff).mp ha)
    obtain ⟨n, hn, rfl⟩ := List.mem_map.mp hb
    obtain ⟨hng, hcb⟩ := List.mem_filter.mp hn
    exact hnotbw (hcB_bw n hng hcb)
  have hBeqs : ∀ n ∈ (savedOrder.map mkPlaceholder ++ m.graph.filter
      (fun n => (colorFold m.graph).1.contains n.name ||
        (out.args.drop m.numFwd).any (fun a => argMatchesName a n.name))) ++
      [mkOutput (bwdOutNames.map Arg.node)],
      nodeEquations interp attrs envT n := by
    intro n hn
    rcases List.mem_append.mp hn with hmem | hmem
    · rcases List.mem_append.mp hmem with hmem | hmem
      · obtain ⟨s, -, rfl⟩ := List.mem_map.mp hmem
        exact nodeEquations_placeholder interp attrs envT _ rfl
      · exact heqs n (List.mem_of_mem_filter hmem)
    · rw [List.mem_singleton.mp hmem]
      exact nodeEquations_output interp attrs envT _ rfl
  have hBph : phValuesMatch envT
      ((savedOrder.map mkPlaceholder ++ m.graph.filter
        (fun n => (colorFold m.graph).1.contains n.name ||
          (out.args.drop m.numFwd).any (fun a => argMatchesName a n.name))) ++
        [mkOutput (bwdOutNames.map Arg.node)]) (vsaved ++ t) := by
    rw [phValuesMatch_iff, phNames_append, phNames_mkOutput_singleton,
      List.append_nil, phNames_append, phNames_map_mkPlaceholder, hphBN]
    exact mapMOpt_some_append _ _ _ _ _ hvsaved hvt
  obtain ⟨envB', hrunB, hagreeB⟩ := runNodes_build interp attrs envT
    ((savedOrder.map mkPlaceholder ++ m.graph.filter
      (fun n => (colorFold m.graph).1.contains n.name ||
        (out.args.drop m.numFwd).any (fun a => argMatchesName a n.name))) ++
      [mkOutput (bwdOutNames.map Arg.node)])
    (fun _ => none) [] (vsaved ++ t) (emptyEnv_inv envT) hBnodup hBclosed
    hBeqs hBph
  have hBnoout : ∀ n ∈ savedOrder.map mkPlaceholder ++ m.graph.filter
      (fun n => (colorFold m.graph).1.contains n.name ||
        (out.args.drop m.numFwd).any (fun a => argMatchesName a n.name)),
      n.op ≠ .output := by
    intro n hn
    rcases List.mem_append.mp hn with hmem | hmem
    · obtain ⟨s, -, rfl⟩ := List.mem_map.mp hmem
      intro hc
      exact NOp.noConfusion hc
    · exact op_ne_output_of_bindsName (hBN_bind n hmem)
  have hBout : outputArgs
      ((savedOrder.map mkPlaceholder ++ m.graph.filter
        (fun n => (colorFold m.graph).1.contains n.name ||
          (out.args.drop m.numFwd).any (fun a => argMatchesName a n.name))) ++
        [mkOutput (bwdOutNames.map Arg.node)]) = bwdOutNames.map Arg.node :=
    outputArgs_copies_append _ _ hBnoout
  have hevalB : evalArgs envB' (outputArgs
      ((savedOrder.map mkPlaceholder ++ m.graph.filter
        (fun n => (colorFold m.graph).1.contains n.name ||
          (out.args.drop m.numFwd).any (fun a => argMatchesName a n.name))) ++
        [mkOutput (bwdOutNames.map Arg.node)])) = some Jb := by
    rw [hBout, evalArgs_nodes]
    have hcongr : mapMOpt envB' bwdOutNames = mapMOpt envT bwdOutNames := by
      refine mapMOpt_congr (fun s hs => ?_)
      refine ((hagreeB s).1 ?_).1
      have hmem := hBoutmem s hs
      rw [List.nil_append, bindingNames_append, bindingNames_mkOutput_singleton,
        List.append_nil, bindingNames_append, bindingNames_map_mkPlaceholder]
      exact hmem
    rw [hcongr]
    exact hJb'
  have hBeval : evalModule interp attrs B (vsaved ++ t) = some Jb := by
    rw [← hB, hcop1]
    exact (evalModule_eq_some interp attrs _ _ _).mpr ⟨envB', hrunB, hevalB⟩
  -- ### assemble
  refine ⟨Jf ++ vsaved, Jb, hFeval, ?_, ?_, ?_⟩
  · rw [List.drop_left' hJf_len]
    exact hBeval
  · rw [List.take_left' hJf_len, hJsplit, List.take_left' hJf_len]
  · rw [hJsplit, List.drop_left' hJf_len]

end PartSoundLemmas

/-! ### Claim C4 -/

section C4
variable {V : Type}

/-- **C4, counterexample.**  The claim says the forward outputs are the
first `numFwdOutputs` joint outputs followed by the saved values *in the
order the saved set was discovered during the coloring walk*.  The saved
values are kept in a Python `set` whose iteration order is unspecified; on
the concrete joint graph `exJoint2` the discovery order is `[f1, f2]`, yet
with the legitimate set-iteration order `[f2, f1]` the produced forward
output list ends `..., f2, f1`. -/
theorem default_partition_saved_order_counterexample :
    List.isPerm ["f2", "f1"] (colorFold exJoint2).2 = true ∧
    (colorFold exJoint2).2 = ["f1", "f2"] ∧
    (defaultPartition ⟨exJoint2, 1, 1⟩ ["f2", "f1"]).map (fun p => outputArgs p.1) =
      some [Arg.node "f3", Arg.node "f2", Arg.node "f1"] ∧
    ([Arg.node "f3", Arg.node "f2", Arg.node "f1"] : List (Arg Int)) ≠
      (outputArgs exJoint2).take 1 ++ ((colorFold exJoint2).2).map Arg.node :=
  ⟨by decide, by decide, by decide, by decide⟩

/-- **C4, amended.**  In `default_partition`, the forward graph's output
list is the first `numFwdOutputs` joint outputs followed by the saved
values, each saved value exactly once, in the (unspecified) iteration
order of the Python set `saved_nodes` — a permutation of the discovery
order, not necessarily the discovery order itself. -/
theorem default_partition_fwd_output_list (m : JointModule V)
    (savedOrder : List String) (F B : Graph V) (out : Node V)
    (hperm : savedOrder.Perm (colorFold m.graph).2)
    (hout : lastOutput? m.graph = some out)
    (hres : defaultPartition m savedOrder = some (F, B)) :
    outputArgs F = out.args.take m.numFwd ++ savedOrder.map Arg.node ∧
      savedOrder.Nodup := by
  simp only [defaultPartition, hout, Option.bind_eq_bind, Option.some_bind,
    Option.bind_eq_some, Option.pure_def, Option.some.injEq,
    Option.ite_none_left_eq_some] at hres
  obtain ⟨copied, hcopy, hassert, bwdOutNames, hbwdnames, fwCopied, hfwcopy,
    fwdOutNames, hfwdnames, savedOutNames, hsavednames, hFB⟩ := hres
  obtain ⟨hF, hB⟩ := Prod.mk.injEq .. ▸ hFB
  have hnodup : savedOrder.Nodup :=
    (hperm.nodup_iff).mpr (colorFold_snd_nodup m.graph)
  refine ⟨?_, hnodup⟩
  have hcond := (copyNodesAux_eq _ _ _ _ hfwcopy).1
  have hnoout : ∀ n ∈ fwCopied.1, n.op ≠ .output := by
    intro n hn
    rw [hcond] at hn
    simp only [List.nil_append] at hn
    have := (List.mem_filter.mp hn).2
    simp only [Bool.and_eq_true, bne_iff_ne, ne_eq] at this
    exact this.2
  rw [← hF, outputArgs_copies_append _ _ hnoout]
  rw [← mapM_guardId_eq _ _ _ hsavednames]
  rw [mapM_outName_eq _ _ _ hfwdnames]
  simp

/-- Witness for the amended C4 on the concrete graph `exJoint2`. -/
theorem default_partition_fwd_output_list_witness :
    (["f2", "f1"] : List String).Perm (colorFold exJoint2).2 ∧
    lastOutput? exJoint2 = some exOut2 ∧
    ∃ F B, defaultPartition ⟨exJoint2, 1, 1⟩ ["f2", "f1"] = some (F, B) ∧
      (outputArgs F = exOut2.args.take 1 ++ (["f2", "f1"] : List String).map Arg.node ∧
        (["f2", "f1"] : List String).Nodup) := by
  refine ⟨by decide, by decide, ?_⟩
  obtain ⟨F, B, hFB⟩ :
      ∃ F B, defaultPartition ⟨exJoint2, 1, 1⟩ ["f2", "f1"] = some (F, B) := by
    cases hd : defaultPartition ⟨exJoint2, 1, 1⟩ ["f2", "f1"] with
    | none => exact absurd hd (by decide)
    | some p =>
      obtain ⟨F, B⟩ := p
      exact ⟨F, B, rfl⟩
  exact ⟨F, B, hFB,
    default_partition_fwd_output_list ⟨exJoint2, 1, 1⟩ ["f2", "f1"] F B exOut2
      (by decide) (by decide) hFB⟩

end C4

/-! ### Lemmas about the extraction refinement -/

section RefineLemmas
variable {V : Type}

lemma removeFirst_eq_filter (l : List String) (s : String) (hnd : l.Nodup) :
    removeFirst l s = l.filter (fun a => !(a == s)) := by
  induction l with
  | nil => simp [removeFirst]
  | cons a t ih =>
    rw [List.nodup_cons] at hnd
    by_cases he : a = s
    · subst he
      rw [removeFirst, if_pos (by simp)]
      rw [List.filter_cons_of_neg (by simp)]
      exact (List.filter_eq_self.mpr (fun b hb => by
        simp only [Bool.not_eq_true']
        exact beq_eq_false_iff_ne.mpr (fun hbs => hnd.1 (hbs ▸ hb)))).symm
    · rw [removeFirst, if_neg (by simpa using he)]
      rw [List.filter_cons_of_pos (by simpa using he)]
      rw [ih hnd.2]

lemma foldRemove_eq_filter (rem : Node V → Bool) (l : List (Node V)) :
    ∀ (saved : List String), saved.Nodup →
      l.foldl (fun acc n => if rem n then removeFirst acc n.name else acc) saved =
        saved.filter (fun s => !(l.any (fun n => rem n && s == n.name))) := by
  induction l with
  | nil => intro saved _; simp
  | cons n t ih =>
    intro saved hnd
    rw [List.foldl_cons]
    have hstep : (if rem n then removeFirst saved n.name else saved) =
        saved.filter (fun s => !(rem n && s == n.name)) := by
      by_cases hr : rem n
      · rw [if_pos hr, removeFirst_eq_filter _ _ hnd]
        exact List.filter_congr (fun s _ => by simp [hr])
      · rw [if_neg hr]
        exact (List.filter_eq_self.mpr (fun s _ => by
          simp [show rem n = false by simpa using hr])).symm
    rw [hstep, ih _ (List.Nodup.filter _ hnd), List.filter_filter]
    exact List.filter_congr (fun s _ => by
      simp only [List.any_cons, Bool.or_eq_true, Bool.and_eq_true, Bool.not_or,
        Bool.not_and, Bool.and_eq_true]
      cases hrn : rem n <;> cases hsn : s == n.name <;>
        cases htl : t.any (fun n => rem n && s == n.name) <;> simp)

/-- The refinement loop is exactly one filter pass over the saved list. -/
lemma refineSaved_eq (bg : Graph V) (saved : List String) (hnd : saved.Nodup) :
    refineSaved bg saved =
      saved.filter
        (fun s => !(bg.any (fun n =>
          (n.op == .placeholder && !hasUsers bg n.name) && s == n.name))) := by
  exact foldRemove_eq_filter _ bg saved hnd

lemma extractGraph_shape (g : Graph V) (inN : List String) (outs : List (Arg V))
    (eg : Graph V) (h : extractGraph g inN outs = some eg) :
    ∃ outNames, resolveOuts (extractWalk inN g).1 outs = some outNames ∧
      eg = ((inN.map mkPlaceholder ++ (extractWalk inN g).2).filter
          (fun n => n.op == NOp.placeholder ||
            (reachFold (inN.map mkPlaceholder ++ (extractWalk inN g).2)
              outNames).contains n.name)) ++
        [mkOutput (outNames.map Arg.node)] := by
  rw [extractGraph] at h
  cases hro : resolveOuts (extractWalk inN g).1 outs with
  | none => rw [hro] at h; exact absurd h (by simp)
  | some outNames =>
    rw [hro] at h
    simp only [Option.some.injEq] at h
    exact ⟨outNames, rfl, h.symm⟩

lemma extractGraph_placeholder_mem (g : Graph V) (inN : List String)
    (outs : List (Arg V)) (eg : Graph V) (h : extractGraph g inN outs = some eg)
    (s : String) (hs : s ∈ inN) : mkPlaceholder (V := V) s ∈ eg := by
  obtain ⟨outNames, -, heg⟩ := extractGraph_shape g inN outs eg h
  rw [heg]
  refine List.mem_append_left _ (List.mem_filter.mpr ⟨?_, by simp [mkPlaceholder]⟩)
  exact List.mem_append_left _ (List.mem_map_of_mem mkPlaceholder hs)

/-- For a saved name whose placeholder is present, the removal condition is
exactly "the placeholder has no users". -/
lemma refineSaved_eq_hasUsers (bg : Graph V) (saved : List String)
    (hnd : saved.Nodup) (hsub : ∀ s ∈ saved, mkPlaceholder (V := V) s ∈ bg) :
    refineSaved bg saved = saved.filter (fun s => hasUsers bg s) := by
  rw [refineSaved_eq bg saved hnd]
  refine List.filter_congr (fun s hsv => ?_)
  cases hu : hasUsers bg s with
  | true =>
    simp only [Bool.not_eq_true', List.any_eq_false]
    intro n hn
    by_cases he : s = n.name
    · subst he
      simp [hu]
    · simp [show (s == n.name) = false from beq_eq_false_iff_ne.mpr he]
  | false =>
    have hw : bg.any (fun n =>
        (n.op == NOp.placeholder && !hasUsers bg n.name) && s == n.name) = true :=
      List.any_eq_true.mpr ⟨mkPlaceholder s, hsub s hsv, by simp [mkPlaceholder, hu]⟩
    rw [hw]
    rfl

end RefineLemmas

/-! ### Soundness of `_extract_graph_with_inputs_outputs` -/

section ExtractSound
variable {V : Type}

lemma mapMOpt_defined {α β : Type} (f : α → Option β) (l : List α) (r : List β)
    (h : mapMOpt f l = some r) : ∀ a ∈ l, ∃ b, f a = some b := by
  induction l generalizing r with
  | nil => simp
  | cons a t ih =>
    obtain ⟨b, bs, hfa, hmt, rfl⟩ := mapMOpt_cons_some _ _ _ _ h
    intro x hx
    rcases List.mem_cons.mp hx with rfl | hx
    · exact ⟨b, hfa⟩
    · exact ih _ hmt x hx

lemma phNames_of_no_ph (l : List (Node V)) (h : ∀ n ∈ l, n.op ≠ .placeholder) :
    phNames l = [] := by
  rw [phNames, List.filter_eq_nil_iff.mpr (fun n hn => by simpa using h n hn)]
  rfl

/-- The seed set survives the reach walk. -/
lemma reachFold_acc_sub (nodes : List (Node V)) (acc : List String) :
    ∀ x ∈ acc, x ∈ reachFold nodes acc := by
  induction nodes with
  | nil => exact fun x hx => hx
  | cons n t ih =>
    intro x hx
    show x ∈ (if (reachFold t acc).contains n.name
      then reachFold t acc ++ argNames n else reachFold t acc)
    by_cases hc : (reachFold t acc).contains n.name
    · rw [if_pos hc]
      exact List.mem_append_left _ (ih x hx)
    · rw [if_neg hc]
      exact ih x hx

/-- Everything the reach walk adds is an argument of some node. -/
lemma reachFold_src (nodes : List (Node V)) (acc : List String) (x : String)
    (h : x ∈ reachFold nodes acc) : x ∈ acc ∨ ∃ m ∈ nodes, x ∈ argNames m := by
  induction nodes with
  | nil => exact Or.inl h
  | cons n t ih =>
    have h' : x ∈ (if (reachFold t acc).contains n.name
        then reachFold t acc ++ argNames n else reachFold t acc) := h
    by_cases hc : (reachFold t acc).contains n.name
    · rw [if_pos hc] at h'
      rcases List.mem_append.mp h' with h'' | h''
      · rcases ih h'' with h3 | ⟨m, hm, h3⟩
        · exact Or.inl h3
        · exact Or.inr ⟨m, List.mem_cons_of_mem _ hm, h3⟩
      · exact Or.inr ⟨n, List.mem_cons_self _ _, h''⟩
    · rw [if_neg hc] at h'
      rcases ih h' with h3 | ⟨m, hm, h3⟩
      · exact Or.inl h3
      · exact Or.inr ⟨m, List.mem_cons_of_mem _ hm, h3⟩

/-- Backward closure of the reach set: if a node is reachable and no node
before it references its name, its arguments are reachable too. -/
lemma reachFold_closed (l1 l2 : List (Node V)) (n : Node V) (seeds : List String)
    (hnoref : ∀ m ∈ l1, n.name ∉ argNames m)
    (hmem : n.name ∈ reachFold (l1 ++ n :: l2) seeds) :
    ∀ a ∈ argNames n, a ∈ reachFold (l1 ++ n :: l2) seeds := by
  intro a ha
  have hsplit : reachFold (l1 ++ n :: l2) seeds =
      reachFold l1 (if (reachFold l2 seeds).contains n.name
        then reachFold l2 seeds ++ argNames n else reachFold l2 seeds) := by
    show List.foldr _ seeds (l1 ++ n :: l2) = _
    rw [List.foldr_append]
    rfl
  by_cases hc : (reachFold l2 seeds).contains n.name
  · rw [hsplit, if_pos hc]
    exact reachFold_acc_sub _ _ a (List.mem_append_right _ ha)
  · rw [hsplit, if_neg hc] at hmem
    rcases reachFold_src _ _ _ hmem with h | ⟨m, hm, h⟩
    · exact absurd h (by simpa using hc)
    · exact absurd h (hnoref m hm)

/-- Invariant of the `_extract_graph_with_inputs_outputs` environment walk:
the emitted nodes are `call_function`/`get_attr` nodes of the original
graph with fresh names outside the input set, they are well-scoped over
the input names, and every valid name is an input or an emitted node. -/
lemma extractWalk_inv (g : Graph V) (inN : List String)
    (hga : ∀ n ∈ g, n.op = .getAttr → argNames n = []) :
    ∀ (l : List (Node V)) (st : List String × List (Node V)),
      (∀ n ∈ l, n ∈ g) →
      ((l.map Node.name).Nodup) →
      (∀ n ∈ st.2, n ∈ g ∧ n.name ∉ inN ∧ n.op ≠ .placeholder ∧ n.op ≠ .output) →
      ((st.2.map Node.name).Nodup) →
      (∀ n ∈ l, n.name ∉ st.2.map Node.name) →
      argsClosedAux inN st.2 = true →
      (∀ x ∈ st.1, x ∈ inN ∨ x ∈ st.2.map Node.name) →
      ((∀ n ∈ (l.foldl (extractStep inN) st).2,
          n ∈ g ∧ n.name ∉ inN ∧ n.op ≠ .placeholder ∧ n.op ≠ .output) ∧
        (((l.foldl (extractStep inN) st).2.map Node.name).Nodup) ∧
        argsClosedAux inN (l.foldl (extractStep inN) st).2 = true ∧
        (∀ x ∈ (l.foldl (extractStep inN) st).1,
          x ∈ inN ∨ x ∈ (l.foldl (extractStep inN) st).2.map Node.name)) := by
  intro l
  induction l with
  | nil =>
    intro st _ _ h1 h2 _ h3 h4
    exact ⟨h1, h2, h3, h4⟩
  | cons n t ih =>
    intro st hmem hndl hst1 hst2 hfresh hst3 hst4
    rw [List.foldl_cons]
    have hmem' : ∀ x ∈ t, x ∈ g := fun x hx => hmem x (List.mem_cons_of_mem _ hx)
    have hndl' : (t.map Node.name).Nodup := by
      rw [List.map_cons, List.nodup_cons] at hndl
      exact hndl.2
    have hheadfresh : n.name ∉ t.map Node.name := by
      rw [List.map_cons, List.nodup_cons] at hndl
      exact hndl.1
    have hskip : ∀ hst : extractStep inN st n = st, _ := fun hst => hst ▸
      ih st hmem' hndl' hst1 hst2
        (fun m hm => hfresh m (List.mem_cons_of_mem _ hm)) hst3 hst4
    by_cases hin : inN.contains n.name
    · rw [show extractStep inN st n = (st.1 ++ [n.name], st.2) from by
        rw [extractStep, if_pos hin]]
      refine ih _ hmem' hndl' hst1 hst2
        (fun m hm => hfresh m (List.mem_cons_of_mem _ hm)) hst3 ?_
      intro x hx
      rcases List.mem_append.mp hx with h | h
      · exact hst4 x h
      · refine Or.inl ?_
        rw [List.mem_singleton.mp h]
        simpa using hin
    · have hnin : n.name ∉ inN := by simpa using hin
      have emit : extractStep inN st n = (st.1 ++ [n.name], st.2 ++ [n]) →
          (n.op = .callFunction ∨ n.op = .getAttr) →
          (argNames n).all st.1.contains = true →
          ((∀ m ∈ (t.foldl (extractStep inN) (st.1 ++ [n.name], st.2 ++ [n])).2,
              m ∈ g ∧ m.name ∉ inN ∧ m.op ≠ .placeholder ∧ m.op ≠ .output) ∧
            (((t.foldl (extractStep inN)
              (st.1 ++ [n.name], st.2 ++ [n])).2.map Node.name).Nodup) ∧
            argsClosedAux inN
              (t.foldl (extractStep inN) (st.1 ++ [n.name], st.2 ++ [n])).2 =
                true ∧
            (∀ x ∈ (t.foldl (extractStep inN) (st.1 ++ [n.name], st.2 ++ [n])).1,
              x ∈ inN ∨ x ∈ (t.foldl (extractStep inN)
                (st.1 ++ [n.name], st.2 ++ [n])).2.map Node.name)) := by
        intro _ hop hargs
        refine ih (st.1 ++ [n.name], st.2 ++ [n]) hmem' hndl' ?_ ?_ ?_ ?_ ?_
        · intro m hm
          rcases List.mem_append.mp hm with h | h
          · exact hst1 m h
          · rw [List.mem_singleton.mp h]
            refine ⟨hmem n (List.mem_cons_self _ _), hnin, ?_, ?_⟩
            · rcases hop with h' | h' <;> rw [h'] <;> intro hc <;>
                exact NOp.noConfusion hc
            · rcases hop with h' | h' <;> rw [h'] <;> intro hc <;>
                exact NOp.noConfusion hc
        · rw [List.map_append]
          refine List.Nodup.append hst2 (by simp) ?_
          intro a ha hb
          rw [List.map_singleton, List.mem_singleton] at hb
          exact absurd (hb ▸ ha) (hfresh n (List.mem_cons_self _ _))
        · intro m hm
          rw [List.map_append, List.map_singleton]
          intro hmm
          rcases List.mem_append.mp hmm with h | h
          · exact hfresh m (List.mem_cons_of_mem _ hm) h
          · refine hheadfresh ?_
            rw [← List.mem_singleton.mp h]
            exact List.mem_map_of_mem Node.name hm
        · rw [argsClosedAux_append, Bool.and_eq_true]
          refine ⟨hst3, ?_⟩
          rw [argsClosedAux, Bool.and_eq_true]
          refine ⟨?_, rfl⟩
          rw [List.all_eq_true]
          intro a ha
          have haval : a ∈ st.1 := by
            rw [List.all_eq_true] at hargs
            have := hargs a ha
            simpa using this
          have hdom : a ∈ inN ++ bindingNames st.2 := by
            rcases hst4 a haval with h | h
            · exact List.mem_append_left _ h
            · refine List.mem_append_right _ ?_
              rw [bindingNames_all_bind st.2
                (fun m hm => bindsName_of_op (hst1 m hm).2.2.2)]
              exact h
          simpa using hdom
        · intro x hx
          rcases List.mem_append.mp hx with h | h
          · rcases hst4 x h with h' | h'
            · exact Or.inl h'
            · refine Or.inr ?_
              rw [List.map_append]
              exact List.mem_append_left _ h'
          · refine Or.inr ?_
            rw [List.map_append, List.map_singleton, List.mem_singleton.mp h]
            exact List.mem_append_right _ (List.mem_singleton.mpr rfl)
      cases hop : n.op with
      | placeholder =>
        rw [show extractStep inN st n = st from by
          rw [extractStep, if_neg hin, hop]]
        exact ih st hmem' hndl' hst1 hst2
          (fun m hm => hfresh m (List.mem_cons_of_mem _ hm)) hst3 hst4
      | output =>
        rw [show extractStep inN st n = st from by
          rw [extractStep, if_neg hin, hop]]
        exact ih st hmem' hndl' hst1 hst2
          (fun m hm => hfresh m (List.mem_cons_of_mem _ hm)) hst3 hst4
      | callFunction =>
        by_cases hargs : (argNames n).all st.1.contains
        · have hstep : extractStep inN st n = (st.1 ++ [n.name], st.2 ++ [n]) := by
            rw [extractStep, if_neg hin, hop, if_pos hargs]
          rw [hstep]
          exact emit hstep (Or.inl hop) hargs
        · rw [show extractStep inN st n = st from by
            rw [extractStep, if_neg hin, hop, if_neg hargs]]
          exact ih st hmem' hndl' hst1 hst2
            (fun m hm => hfresh m (List.mem_cons_of_mem _ hm)) hst3 hst4
      | getAttr =>
        have hargs : (argNames n).all st.1.contains = true := by
          rw [hga n (hmem n (List.mem_cons_self _ _)) hop]
          rfl
        have hstep : extractStep inN st n = (st.1 ++ [n.name], st.2 ++ [n]) := by
          rw [extractStep, if_neg hin, hop]
        rw [hstep]
        exact emit hstep (Or.inr hop) hargs

/-- Soundness of `_extract_graph_with_inputs_outputs`: running the
extracted graph on the target-environment values of its input names
computes the target-environment values of its requested outputs. -/
lemma extractGraph_sound (interp : String → List V → V)
    (attrs : String → Option V) (g : Graph V) (envT : String → Option V)
    (hwf : wfB g = true)
    (hga : ∀ n ∈ g, n.op = .getAttr → argNames n = [])
    (heqs : ∀ n ∈ g, nodeEquations interp attrs envT n)
    (hdefd : ∀ s ∈ bindingNames g, envT s ≠ none)
    (inN : List String) (hinNnd : inN.Nodup)
    (outs : List (Arg V)) (eg : Graph V)
    (hex : extractGraph g inN outs = some eg)
    (qIn : List V) (hq : mapMOpt envT inN = some qIn) :
    ∃ outNames res,
      resolveOuts (extractWalk inN g).1 outs = some outNames ∧
      mapMOpt envT outNames = some res ∧
      evalModule interp attrs eg qIn = some res := by
  obtain ⟨outNames, hro, heg⟩ := extractGraph_shape g inN outs eg hex
  have hinv := extractWalk_inv g inN hga g ([], [])
    (fun n hn => hn) (wfB_nodup hwf)
    (fun n hn => absurd hn (List.not_mem_nil n))
    List.nodup_nil
    (fun n _ hn => absurd hn (List.not_mem_nil n.name))
    rfl
    (fun x hx => absurd hx (List.not_mem_nil x))
  have hem_mem : ∀ n ∈ (extractWalk inN g).2,
      n ∈ g ∧ n.name ∉ inN ∧ n.op ≠ .placeholder ∧ n.op ≠ .output := hinv.1
  have hem_nodup : (((extractWalk inN g).2).map Node.name).Nodup := hinv.2.1
  have hem_closed : argsClosedAux inN (extractWalk inN g).2 = true := hinv.2.2.1
  have hvalid : ∀ x ∈ (extractWalk inN g).1,
      x ∈ inN ∨ x ∈ ((extractWalk inN g).2).map Node.name := hinv.2.2.2
  have houtmem : ∀ x ∈ outNames, x ∈ (extractWalk inN g).1 :=
    mapM_outName_mem _ _ _ hro
  have hdefval : ∀ x ∈ (extractWalk inN g).1, ∃ v, envT x = some v := by
    intro x hx
    rcases hvalid x hx with h | h
    · exact mapMOpt_defined _ _ _ hq x h
    · obtain ⟨n, hn, rfl⟩ := List.mem_map.mp h
      obtain ⟨hng, -, -, hnout⟩ := hem_mem n hn
      have hb : n.name ∈ bindingNames g :=
        (mem_bindingNames_iff g n.name).mpr ⟨n, hng, bindsName_of_op hnout, rfl⟩
      cases hv : envT n.name with
      | none => exact absurd hv (hdefd _ hb)
      | some v => exact ⟨v, rfl⟩
  obtain ⟨res, hres⟩ : ∃ res, mapMOpt envT outNames = some res :=
    mapMOpt_total _ _ (fun x hx => hdefval x (houtmem x hx))
  refine ⟨outNames, res, hro, hres, ?_⟩
  -- the kept-placeholder split of the filtered body
  have hfilter_split :
      ((inN.map mkPlaceholder ++ (extractWalk inN g).2).filter
        (fun n => n.op == NOp.placeholder ||
          (reachFold (inN.map mkPlaceholder ++ (extractWalk inN g).2)
            outNames).contains n.name)) =
      inN.map mkPlaceholder ++ (((extractWalk inN g).2).filter
        (fun n => n.op == NOp.placeholder ||
          (reachFold (inN.map mkPlaceholder ++ (extractWalk inN g).2)
            outNames).contains n.name)) := by
    have hphkeep : (inN.map mkPlaceholder : List (Node V)).filter
        (fun n => n.op == NOp.placeholder ||
          (reachFold (inN.map mkPlaceholder ++ (extractWalk inN g).2)
            outNames).contains n.name) = inN.map mkPlaceholder := by
      refine List.filter_eq_self.mpr (fun n hn => ?_)
      obtain ⟨s, -, rfl⟩ := List.mem_map.mp hn
      simp [mkPlaceholder]
    rw [List.filter_append, hphkeep]
  -- well-scopedness of the kept emitted nodes over the input names
  have hkept_closed : argsClosedAux (([] : List String) ++ inN)
      (((extractWalk inN g).2).filter
        (fun n => n.op == NOp.placeholder ||
          (reachFold (inN.map mkPlaceholder ++ (extractWalk inN g).2)
            outNames).contains n.name)) = true := by
    refine argsClosedAux_intro _ _ (fun kpre kpost x hdec a ha => ?_)
    obtain ⟨wpre, wpost, hwdec, hkpre, hkpost, hkx⟩ :=
      filter_decomp_orig _ _ _ _ _ hdec
    have hxmem : x ∈ (extractWalk inN g).2 := by
      rw [hwdec]
      exact List.mem_append_right _ (List.mem_cons_self _ _)
    obtain ⟨hxg, hxnin, hxnph, hxnout⟩ := hem_mem x hxmem
    have hargdom := argsClosedAux_elim inN _ hem_closed wpre wpost x hwdec a ha
    have hx_reach : x.name ∈ reachFold
        (inN.map mkPlaceholder ++ (extractWalk inN g).2) outNames := by
      rcases Bool.or_eq_true_iff.mp hkx with h | h
      · exact absurd (by simpa using h) hxnph
      · simpa using h
    have hxfreshpre : x.name ∉ wpre.map Node.name := by
      rw [hwdec, List.map_append, List.map_cons, List.nodup_append] at hem_nodup
      intro hc
      exact hem_nodup.2.2 hc (List.mem_cons_self _ _)
    have hnoref : ∀ m' ∈ inN.map mkPlaceholder ++ wpre, x.name ∉ argNames m' := by
      intro m' hm'
      rcases List.mem_append.mp hm' with h | h
      · obtain ⟨s, -, rfl⟩ := List.mem_map.mp h
        rw [argNames_mkPlaceholder]
        exact List.not_mem_nil _
      · obtain ⟨m1, m2, hmdec⟩ := List.append_of_mem h
        have hmdec' : (extractWalk inN g).2 = m1 ++ m' :: (m2 ++ x :: wpost) := by
          rw [hwdec, hmdec]
          simp
        have hargm := argsClosedAux_elim inN _ hem_closed m1 _ m' hmdec'
        intro hxin
        rcases List.mem_append.mp (hargm x.name hxin) with h' | h'
        · exact hxnin h'
        · refine hxfreshpre ?_
          obtain ⟨mb, hmb, hbmb, hname⟩ := (mem_bindingNames_iff m1 x.name).mp h'
          rw [← hname]
          refine List.mem_map_of_mem Node.name ?_
          rw [hmdec]
          exact List.mem_append_left _ hmb
    have hpredec : inN.map mkPlaceholder ++ (extractWalk inN g).2 =
        (inN.map mkPlaceholder ++ wpre) ++ x :: wpost := by
      rw [hwdec]
      simp
    have hargs_reach : ∀ b ∈ argNames x, b ∈ reachFold
        (inN.map mkPlaceholder ++ (extractWalk inN g).2) outNames := by
      have := reachFold_closed (inN.map mkPlaceholder ++ wpre) wpost x outNames
        hnoref (by rw [← hpredec]; exact hx_reach)
      intro b hb
      rw [hpredec]
      exact this b hb
    rcases List.mem_append.mp hargdom with h | h
    · exact List.mem_append_left _ (by simpa using h)
    · obtain ⟨ma, hma, hbma, rfl⟩ := (mem_bindingNames_iff wpre a).mp h
      have hreach_a : ma.name ∈ reachFold
          (inN.map mkPlaceholder ++ (extractWalk inN g).2) outNames :=
        hargs_reach ma.name ha
      have hkeepma : (ma.op == NOp.placeholder ||
          (reachFold (inN.map mkPlaceholder ++ (extractWalk inN g).2)
            outNames).contains ma.name) = true := by
        simp [hreach_a]
      refine List.mem_append_right _ ?_
      refine (mem_bindingNames_iff kpre ma.name).mpr ⟨ma, ?_, hbma, rfl⟩
      rw [hkpre]
      exact List.mem_filter.mpr ⟨hma, hkeepma⟩
  -- every requested output is bound by the kept body
  have houtput_dom : ∀ a ∈ outNames, a ∈ bindingNames
      ((inN.map mkPlaceholder ++ (extractWalk inN g).2).filter
        (fun n => n.op == NOp.placeholder ||
          (reachFold (inN.map mkPlaceholder ++ (extractWalk inN g).2)
            outNames).contains n.name)) := by
    intro a ha
    rw [hfilter_split, bindingNames_append, bindingNames_map_mkPlaceholder]
    rcases hvalid a (houtmem a ha) with h | h
    · exact List.mem_append_left _ h
    · obtain ⟨n, hn, rfl⟩ := List.mem_map.mp h
      have hr : n.name ∈ reachFold
          (inN.map mkPlaceholder ++ (extractWalk inN g).2) outNames :=
        reachFold_acc_sub _ _ _ ha
      refine List.mem_append_right _ ?_
      refine (mem_bindingNames_iff _ _).mpr
        ⟨n, List.mem_filter.mpr ⟨hn, by simp [hr]⟩,
          bindsName_of_op (hem_mem n hn).2.2.2, rfl⟩
  -- assemble the reconstruction preconditions
  have heg_closed : argsClosedAux []
      (((inN.map mkPlaceholder ++ (extractWalk inN g).2).filter
        (fun n => n.op == NOp.placeholder ||
          (reachFold (inN.map mkPlaceholder ++ (extractWalk inN g).2)
            outNames).contains n.name)) ++
        [mkOutput (outNames.map Arg.node)]) = true := by
    rw [argsClosedAux_append, Bool.and_eq_true]
    constructor
    · rw [hfilter_split, argsClosedAux_append, Bool.and_eq_true]
      refine ⟨argsClosedAux_placeholders _ _, ?_⟩
      rw [bindingNames_map_mkPlaceholder]
      exact hkept_closed
    · rw [argsClosedAux, Bool.and_eq_true]
      refine ⟨?_, rfl⟩
      rw [List.all_eq_true]
      intro a ha
      rw [argNames_mkOutput] at ha
      simpa using houtput_dom a ha
  have hkb : bindingNames (((extractWalk inN g).2).filter
      (fun n => n.op == NOp.placeholder ||
        (reachFold (inN.map mkPlaceholder ++ (extractWalk inN g).2)
          outNames).contains n.name)) =
      (((extractWalk inN g).2).filter
        (fun n => n.op == NOp.placeholder ||
          (reachFold (inN.map mkPlaceholder ++ (extractWalk inN g).2)
            outNames).contains n.name)).map Node.name :=
    bindingNames_all_bind _ (fun n hn =>
      bindsName_of_op (hem_mem n (List.mem_of_mem_filter hn)).2.2.2)
  have heg_nodup : (([] : List String) ++ bindingNames
      (((inN.map mkPlaceholder ++ (extractWalk inN g).2).filter
        (fun n => n.op == NOp.placeholder ||
          (reachFold (inN.map mkPlaceholder ++ (extractWalk inN g).2)
            outNames).contains n.name)) ++
        [mkOutput (outNames.map Arg.node)])).Nodup := by
    rw [List.nil_append, bindingNames_append, bindingNames_mkOutput_singleton,
      List.append_nil, hfilter_split, bindingNames_append,
      bindingNames_map_mkPlaceholder, hkb]
    refine List.Nodup.append hinNnd
      (((List.filter_sublist _).map Node.name).nodup hem_nodup) ?_
    intro a ha hb
    obtain ⟨n, hn, rfl⟩ := List.mem_map.mp hb
    exact (hem_mem n (List.mem_of_mem_filter hn)).2.1 ha
  have heg_eqs : ∀ n ∈ ((inN.map mkPlaceholder ++ (extractWalk inN g).2).filter
      (fun n => n.op == NOp.placeholder ||
        (reachFold (inN.map mkPlaceholder ++ (extractWalk inN g).2)
          outNames).contains n.name)) ++
      [mkOutput (outNames.map Arg.node)],
      nodeEquations interp attrs envT n := by
    intro n hn
    rcases List.mem_append.mp hn with h | h
    · rw [hfilter_split] at h
      rcases List.mem_append.mp h with h | h
      · obtain ⟨s, -, rfl⟩ := List.mem_map.mp h
        exact nodeEquations_placeholder interp attrs envT _ rfl
      · exact heqs n (hem_mem n (List.mem_of_mem_filter h)).1
    · rw [List.mem_singleton.mp h]
      exact nodeEquations_output interp attrs envT _ rfl
  have heg_ph : phValuesMatch envT
      (((inN.map mkPlaceholder ++ (extractWalk inN g).2).filter
        (fun n => n.op == NOp.placeholder ||
          (reachFold (inN.map mkPlaceholder ++ (extractWalk inN g).2)
            outNames).contains n.name)) ++
        [mkOutput (outNames.map Arg.node)]) qIn := by
    rw [phValuesMatch_iff, phNames_append, phNames_mkOutput_singleton,
      List.append_nil, hfilter_split, phNames_append, phNames_map_mkPlaceholder,
      phNames_of_no_ph _ (fun n hn =>
        (hem_mem n (List.mem_of_mem_filter hn)).2.2.1), List.append_nil]
    exact hq
  obtain ⟨envE', hrunE, hagreeE⟩ := runNodes_build interp attrs envT
    (((inN.map mkPlaceholder ++ (extractWalk inN g).2).filter
      (fun n => n.op == NOp.placeholder ||
        (reachFold (inN.map mkPlaceholder ++ (extractWalk inN g).2)
          outNames).contains n.name)) ++
      [mkOutput (outNames.map Arg.node)])
    (fun _ => none) [] qIn (emptyEnv_inv envT) heg_nodup heg_closed heg_eqs heg_ph
  have heg_noout : ∀ n ∈ (inN.map mkPlaceholder ++ (extractWalk inN g).2).filter
      (fun m : Node V => m.op == NOp.placeholder ||
        (reachFold (inN.map mkPlaceholder ++ (extractWalk inN g).2)
          outNames).contains m.name), n.op ≠ .output := by
    intro n hn
    rw [hfilter_split] at hn
    rcases List.mem_append.mp hn with h | h
    · obtain ⟨s, -, rfl⟩ := List.mem_map.mp h
      intro hc
      exact NOp.noConfusion hc
    · exact (hem_mem n (List.mem_of_mem_filter h)).2.2.2
  have hevalE : evalArgs envE' (outputArgs
      (((inN.map mkPlaceholder ++ (extractWalk inN g).2).filter
        (fun n => n.op == NOp.placeholder ||
          (reachFold (inN.map mkPlaceholder ++ (extractWalk inN g).2)
            outNames).contains n.name)) ++
        [mkOutput (outNames.map Arg.node)])) = some res := by
    rw [outputArgs_copies_append _ _ heg_noout, evalArgs_nodes]
    have hcongr : mapMOpt envE' outNames = mapMOpt envT outNames := by
      refine mapMOpt_congr (fun s hs => ?_)
      refine ((hagreeE s).1 ?_).1
      rw [List.nil_append, bindingNames_append, bindingNames_mkOutput_singleton,
        List.append_nil]
      exact houtput_dom s hs
    rw [hcongr]
    exact hres
  rw [heg]
  exact (evalModule_eq_some interp attrs _ _ _).mpr ⟨envE', hrunE, hevalE⟩

/-- Soundness of `partition_with_recompute_fwd_in_bwd`: whenever it
returns, the produced forward graph run on the primal inputs computes the
forward outputs followed by the saved values, and the produced backward
graph run on the saved values threaded together with the tangent inputs
computes the gradients — together exactly the joint outputs. -/
lemma partitionRecompute_sound (interp : String → List V → V)
    (attrs : String → Option V) (m : JointModule V) (nxAvailable : Bool)
    (inS : NVert → Bool) (savedList : List String)
    (F B : Graph V) (p t J : List V)
    (hwf : wfB m.graph = true)
    (hga : ∀ n ∈ m.graph, n.op = .getAttr → argNames n = [])
    (hsplit : phNames m.graph =
      primalInputNames m.graph ++ tangentInputNames m.graph)
    (hp : p.length = (primalInputNames m.graph).length)
    (hnumF : m.numFwd ≤ (outputArgs m.graph).length)
    (hsnodup : savedList.Nodup)
    (hstang : ∀ s ∈ savedList, s ∉ tangentInputNames m.graph)
    (hpart : partitionRecompute m nxAvailable inS savedList = some (F, B))
    (hJ : evalModule interp attrs m.graph (p ++ t) = some J) :
    ∃ fwRes bwRes,
      evalModule interp attrs F p = some fwRes ∧
      evalModule interp attrs B (fwRes.drop m.numFwd ++ t) = some bwRes ∧
      fwRes.take m.numFwd = J.take m.numFwd ∧
      bwRes = J.drop m.numFwd := by
  -- peel off the networkx guard and the min-cut assertion
  have hpart2 : extractFwdBwdModules m savedList = some (F, B) := by
    cases nxAvailable with
    | false => exact absurd hpart (by rw [partitionRecompute]; simp)
    | true =>
      rw [partitionRecompute] at hpart
      have hpart' : (match cutNodeNames (cutEdges (netEdges m.graph) inS) with
          | none => none
          | some _ => extractFwdBwdModules m savedList) = some (F, B) := hpart
      cases hcut : cutNodeNames (cutEdges (netEdges m.graph) inS) with
      | none => rw [hcut] at hpart'; exact absurd hpart' (by simp)
      | some names => rw [hcut] at hpart'; exact hpart'
  simp only [extractFwdBwdModules, Option.bind_eq_bind, Option.bind_eq_some,
    Option.pure_def, Option.some.injEq] at hpart2
  obtain ⟨fwd1, hfwd1, bwd1, hbwd1, fwd2, hfwd2, bwd2, hbwd2, hFB⟩ := hpart2
  obtain ⟨hF, hB⟩ := Prod.mk.injEq .. ▸ hFB
  -- the joint run
  obtain ⟨envT, hrunJ, hevalJ⟩ := (evalModule_eq_some interp attrs _ _ _).mp hJ
  have hndg : (([] : List String) ++ bindingNames m.graph).Nodup := by
    simpa using wfB_bindingNodup hwf
  obtain ⟨heqs, hph, hdefd⟩ := runNodes_char interp attrs m.graph
    (fun _ => none) [] (p ++ t) envT hrunJ hndg (wfB_argsClosed hwf)
  have hphm : mapMOpt envT (phNames m.graph) = some (p ++ t) :=
    (phValuesMatch_iff envT m.graph (p ++ t)).mp hph
  rw [hsplit] at hphm
  obtain ⟨vp, vt, hvp, hvt, hpt⟩ := mapMOpt_append_split _ _ _ _ hphm
  have hlvp : vp.length = (primalInputNames m.graph).length :=
    mapMOpt_length _ _ _ hvp
  obtain ⟨rfl, rfl⟩ := List.append_inj hpt (by rw [hp, hlvp])
  -- split the joint outputs
  rw [← List.take_append_drop m.numFwd (outputArgs m.graph), evalArgs] at hevalJ
  obtain ⟨Jf, Jb, hJf, hJb, hJsplit⟩ := mapMOpt_append_split _ _ _ _ hevalJ
  have hJf_len : Jf.length = m.numFwd := by
    have h1 := mapMOpt_length _ _ _ hJf
    rw [List.length_take, Nat.min_eq_left hnumF] at h1
    exact h1
  -- the refined saved list
  have hs2sub : ∀ s ∈ refineSaved bwd1 savedList, s ∈ savedList := by
    rw [refineSaved_eq _ _ hsnodup]
    exact fun s hs => List.mem_of_mem_filter hs
  have hs2nodup : (refineSaved bwd1 savedList).Nodup := by
    rw [refineSaved_eq _ _ hsnodup]
    exact List.Nodup.filter _ hsnodup
  -- run the rebuilt forward graph
  have hprimnodup : (primalInputNames m.graph).Nodup := by
    show (((m.graph.filter (fun n => isPrimalPH n)).map Node.name)).Nodup
    exact ((List.filter_sublist m.graph).map Node.name).nodup (wfB_nodup hwf)
  obtain ⟨outNamesF, resF, hroF, hresF, hevalF⟩ := extractGraph_sound interp attrs
    m.graph envT hwf hga heqs hdefd (primalInputNames m.graph) hprimnodup
    _ _ hfwd2 p hvp
  obtain ⟨oF1, oF2, hoF1, hoF2, rfl⟩ := mapMOpt_append_split _ _ _ _ hroF
  have htakeF : (outputArgs m.graph).take m.numFwd = oF1.map Arg.node :=
    mapM_outName_eq _ _ _ hoF1
  have hoF2eq : oF2 = refineSaved bwd1 savedList :=
    mapM_guardId_eq _ _ _ (by rw [mapMOpt_map] at hoF2; exact hoF2)
  obtain ⟨r1, r2, hr1, hr2, rfl⟩ := mapMOpt_append_split _ _ _ _ hresF
  have hJfo : mapMOpt envT oF1 = some Jf := by
    rw [← evalArgs_nodes, ← htakeF]
    exact hJf
  have hr1eq : r1 = Jf := by
    rw [hr1] at hJfo
    exact Option.some.inj hJfo
  -- run the rebuilt backward graph
  have htangnodup : (tangentInputNames m.graph).Nodup := by
    show (((m.graph.filter (fun n => isTangentPH n)).map Node.name)).Nodup
    exact ((List.filter_sublist m.graph).map Node.name).nodup (wfB_nodup hwf)
  have hinN2nd : (refineSaved bwd1 savedList ++ tangentInputNames m.graph).Nodup :=
    List.Nodup.append hs2nodup htangnodup
      (fun a ha => hstang a (hs2sub a ha))
  have hr2' : mapMOpt envT (refineSaved bwd1 savedList) = some r2 := hoF2eq ▸ hr2
  have hq2 : mapMOpt envT
      (refineSaved bwd1 savedList ++ tangentInputNames m.graph) =
      some (r2 ++ t) :=
    mapMOpt_some_append _ _ _ _ _ hr2' hvt
  obtain ⟨outNamesB, resB, hroB, hresB, hevalB⟩ := extractGraph_sound interp attrs
    m.graph envT hwf hga heqs hdefd _ hinN2nd _ _ hbwd2 (r2 ++ t) hq2
  have hdropB : (outputArgs m.graph).drop m.numFwd = outNamesB.map Arg.node :=
    mapM_outName_eq _ _ _ hroB
  have hJbo : mapMOpt envT outNamesB = some Jb := by
    rw [← evalArgs_nodes, ← hdropB]
    exact hJb
  have hresBeq : resB = Jb := by
    rw [hresB] at hJbo
    exact Option.some.inj hJbo
  -- assemble
  have hr1len : r1.length = m.numFwd := by
    rw [hr1eq]
    exact hJf_len
  refine ⟨r1 ++ r2, resB, ?_, ?_, ?_, ?_⟩
  · rw [← hF]
    exact hevalF
  · rw [← hB, List.drop_left' hr1len]
    exact hevalB
  · rw [List.take_left' hr1len, hJsplit, List.take_left' hJf_len, hr1eq]
  · rw [hJsplit, List.drop_left' hJf_len, hresBeq]

end ExtractSound

/-! ### Claim C6 -/

section C6
variable {V : Type}

/-- **C6.**  In `_extract_fwd_bwd_modules`, after the initial forward and
backward subgraphs are built, exactly the saved values whose backward
placeholder has no consumer are dropped (one filter over the saved list,
computed against the initial backward graph), and both subgraphs are
rebuilt exactly once with that reduced list — the refinement is a single
pass, not an iteration to a fixed point. -/
theorem extract_fwd_bwd_refinement (m : JointModule V) (saved : List String)
    (F B : Graph V) (hnd : saved.Nodup)
    (hres : extractFwdBwdModules m saved = some (F, B)) :
    ∃ bwd1,
      extractGraph m.graph (saved ++ tangentInputNames m.graph)
          ((outputArgs m.graph).drop m.numFwd) = some bwd1 ∧
      refineSaved bwd1 saved = saved.filter (fun s => hasUsers bwd1 s) ∧
      extractGraph m.graph (primalInputNames m.graph)
          ((outputArgs m.graph).take m.numFwd ++
            (saved.filter (fun s => hasUsers bwd1 s)).map Arg.node) = some F ∧
      extractGraph m.graph
          (saved.filter (fun s => hasUsers bwd1 s) ++ tangentInputNames m.graph)
          ((outputArgs m.graph).drop m.numFwd) = some B := by
  simp only [extractFwdBwdModules, Option.bind_eq_bind, Option.bind_eq_some,
    Option.pure_def, Option.some.injEq] at hres
  obtain ⟨fwd1, hfwd1, bwd1, hbwd1, fwd2, hfwd2, bwd2, hbwd2, hFB⟩ := hres
  obtain ⟨hF, hB⟩ := Prod.mk.injEq .. ▸ hFB
  have hph : ∀ s ∈ saved, mkPlaceholder (V := V) s ∈ bwd1 := fun s hs =>
    extractGraph_placeholder_mem _ _ _ _ hbwd1 s (List.mem_append_left _ hs)
  have hrefine := refineSaved_eq_hasUsers bwd1 saved hnd hph
  refine ⟨bwd1, hbwd1, hrefine, ?_, ?_⟩
  · rw [← hrefine, ← hF]
    exact hfwd2
  · rw [← hrefine, ← hB]
    exact hbwd2

/-- Witness for C6 on the concrete joint graph, with saved list `[c, s]`:
the backward placeholder of `s` has no users, so the rebuilt graphs use
the reduced list `[c]`. -/
theorem extract_fwd_bwd_refinement_witness :
    (["c", "s"] : List String).Nodup ∧
    ∃ F B, extractFwdBwdModules ⟨exJoint, 1, 1⟩ ["c", "s"] = some (F, B) ∧
    ∃ bwd1,
      extractGraph exJoint (["c", "s"] ++ tangentInputNames exJoint)
          ((outputArgs exJoint).drop 1) = some bwd1 ∧
      refineSaved bwd1 ["c", "s"] = ["c", "s"].filter (fun s => hasUsers bwd1 s) ∧
      extractGraph exJoint (primalInputNames exJoint)
          ((outputArgs exJoint).take 1 ++
            (["c", "s"].filter (fun s => hasUsers bwd1 s)).map Arg.node) = some F ∧
      extractGraph exJoint
          (["c", "s"].filter (fun s => hasUsers bwd1 s) ++ tangentInputNames exJoint)
          ((outputArgs exJoint).drop 1) = some B := by
  refine ⟨by decide, ?_⟩
  obtain ⟨F, B, hFB⟩ :
      ∃ F B, extractFwdBwdModules ⟨exJoint, 1, 1⟩ ["c", "s"] = some (F, B) := by
    cases hd : extractFwdBwdModules ⟨exJoint, 1, 1⟩ ["c", "s"] with
    | none => exact absurd hd (by decide)
    | some p =>
      obtain ⟨F, B⟩ := p
      exact ⟨F, B, rfl⟩
  exact ⟨F, B, hFB,
    extract_fwd_bwd_refinement ⟨exJoint, 1, 1⟩ ["c", "s"] F B (by decide) hFB⟩

end C6

/-! ### Lemmas about the flow network -/

section NetworkLemmas
variable {V : Type}

lemma mem_ite_singleton {α : Type} {c : Prop} [Decidable c] {x e : α}
    (h : e ∈ (if c then [x] else [])) : e = x := by
  split at h
  · simpa using h
  · simp at h

/-- Every edge a node contributes has one of four shapes. -/
lemma nodeNetEdges_shape (g : Graph V) (cl : List String) (m : Node V)
    (e : NVert × NVert × WithTop Nat) (he : e ∈ nodeNetEdges g cl m) :
    (cl.contains m.name = true ∧ e = (.nin m.name, .sink, ⊤)) ∨
    (cl.contains m.name = false ∧
      (e = (.source, .nin m.name, ⊤) ∨
       e = (.nin m.name, .nout m.name, nodeWeight m) ∨
       ∃ u, e = (.nout m.name, .nin u, ⊤))) := by
  by_cases hcl : cl.contains m.name
  · rw [nodeNetEdges, if_pos hcl] at he
    simp only [List.mem_singleton] at he
    exact Or.inl ⟨hcl, he⟩
  · rw [nodeNetEdges, if_neg hcl] at he
    refine Or.inr ⟨by simpa using hcl, ?_⟩
    simp only [List.mem_append, List.mem_singleton, List.mem_map] at he
    rcases he with ((h1 | h2) | h3) | ⟨u, -, rfl⟩
    · exact Or.inl (mem_ite_singleton h1)
    · exact Or.inl (mem_ite_singleton h2)
    · exact Or.inr (Or.inl h3)
    · exact Or.inr (Or.inr ⟨u.name, rfl⟩)

/-- When a predicate rejects every edge owned by nodes other than `n`,
filtering the whole network is filtering `n`'s own edges (names unique). -/
lemma netEdges_filter_single (g : Graph V) (n : Node V)
    (hnd : (g.map Node.name).Nodup) (hn : n ∈ g)
    (p : NVert × NVert × WithTop Nat → Bool)
    (hother : ∀ m ∈ g, m.name ≠ n.name →
      ∀ e ∈ nodeNetEdges g (tangentClosure g) m, p e = false) :
    (netEdges g).filter p = (nodeNetEdges g (tangentClosure g) n).filter p := by
  obtain ⟨pre, post, hg⟩ := List.append_of_mem hn
  have hnames : (∀ m ∈ pre, m.name ≠ n.name) ∧ ∀ m ∈ post, m.name ≠ n.name := by
    rw [hg, List.map_append, List.map_cons, List.nodup_append] at hnd
    obtain ⟨-, h2, h3⟩ := hnd
    rw [List.nodup_cons] at h2
    refine ⟨fun m hm heq => ?_, fun m hm heq => ?_⟩
    · exact h3 (List.mem_map_of_mem Node.name hm)
        (by rw [heq]; exact List.mem_cons_self _ _)
    · exact h2.1 (by rw [← heq]; exact List.mem_map_of_mem Node.name hm)
  have key : ∀ (F : Node V → List (NVert × NVert × WithTop Nat)),
      (∀ m ∈ g, m.name ≠ n.name → ∀ e ∈ F m, p e = false) →
      (g.flatMap F).filter p = (F n).filter p := by
    intro F hF
    rw [hg, List.flatMap_append, List.flatMap_cons, List.filter_append,
      List.filter_append]
    have hpre : (pre.flatMap F).filter p = [] := by
      rw [List.filter_eq_nil_iff]
      intro e he hpe
      obtain ⟨m, hm, hme⟩ := List.mem_flatMap.mp he
      rw [hF m (by rw [hg]; exact List.mem_append_left _ hm)
        (hnames.1 m hm) e hme] at hpe
      exact Bool.noConfusion hpe
    have hpost : (post.flatMap F).filter p = [] := by
      rw [List.filter_eq_nil_iff]
      intro e he hpe
      obtain ⟨m, hm, hme⟩ := List.mem_flatMap.mp he
      rw [hF m (by
          rw [hg]
          exact List.mem_append_right _ (List.mem_cons_of_mem _ hm))
        (hnames.2 m hm) e hme] at hpe
      exact Bool.noConfusion hpe
    rw [hpre, hpost]
    simp
  exact key _ hother

/-- The resolved in→out capacity of node `n`: absent for tangent-closure
nodes, `nodeWeight n` otherwise — regardless of recomputability. -/
lemma capOf_inout (g : Graph V) (n : Node V)
    (hnd : (g.map Node.name).Nodup) (hn : n ∈ g) :
    capOf (netEdges g) (.nin n.name) (.nout n.name) =
      if n.name ∈ tangentClosure g then none else some (nodeWeight n) := by
  rw [capOf, netEdges_filter_single g n hnd hn _ ?hother]
  case hother =>
    intro m _ hne e he
    rcases nodeNetEdges_shape g _ m e he with ⟨-, rfl⟩ | ⟨-, (rfl | rfl | ⟨u, rfl⟩)⟩ <;>
      simp [hne]
  by_cases hcl : n.name ∈ tangentClosure g
  · rw [if_pos hcl, nodeNetEdges, if_pos (by simpa using hcl)]
    simp
  · rw [if_neg hcl, nodeNetEdges, if_neg (by simpa using hcl)]
    have hwire : ((usersOf g n).map
          (fun u => ((NVert.nout n.name, NVert.nin u.name, (⊤ : WithTop Nat)) :
            NVert × NVert × WithTop Nat))).filter
          (fun e => e.1 == NVert.nin n.name && e.2.1 == NVert.nout n.name) = [] := by
      rw [List.filter_eq_nil_iff]
      intro e he hpe
      obtain ⟨u, -, rfl⟩ := List.mem_map.mp he
      simp at hpe
    rw [List.filter_append, List.filter_append, List.filter_append, hwire]
    by_cases hp : isPrimalsNamedPH n <;> by_cases hr : isRecomputableNode n <;>
      simp [hp, hr]

/-- The resolved `source → in` anchor edge of node `n` exists (with
capacity `⊤`) iff `n` is outside the tangent closure and is a primal-named
placeholder or has a non-recomputable target. -/
lemma capOf_source (g : Graph V) (n : Node V)
    (hnd : (g.map Node.name).Nodup) (hn : n ∈ g) :
    capOf (netEdges g) .source (.nin n.name) =
      if n.name ∉ tangentClosure g ∧
          (isPrimalsNamedPH n = true ∨ isRecomputableNode n = false)
        then some ⊤ else none := by
  rw [capOf, netEdges_filter_single g n hnd hn _ ?hother]
  case hother =>
    intro m _ hne e he
    rcases nodeNetEdges_shape g _ m e he with ⟨-, rfl⟩ | ⟨-, (rfl | rfl | ⟨u, rfl⟩)⟩ <;>
      simp [hne]
  by_cases hcl : n.name ∈ tangentClosure g
  · rw [nodeNetEdges, if_pos (by simpa using hcl)]
    rw [if_neg (by simp [hcl])]
    simp
  · rw [nodeNetEdges, if_neg (by simpa using hcl)]
    have hwire : ((usersOf g n).map
          (fun u => ((NVert.nout n.name, NVert.nin u.name, (⊤ : WithTop Nat)) :
            NVert × NVert × WithTop Nat))).filter
          (fun e => e.1 == NVert.source && e.2.1 == NVert.nin n.name) = [] := by
      rw [List.filter_eq_nil_iff]
      intro e he hpe
      obtain ⟨u, -, rfl⟩ := List.mem_map.mp he
      simp at hpe
    rw [List.filter_append, List.filter_append, List.filter_append, hwire]
    by_cases hp : isPrimalsNamedPH n <;> by_cases hr : isRecomputableNode n <;>
      simp [hp, hr, hcl]

end NetworkLemmas

/-! ### Claim C2 -/

section C2
variable {V : Type}

/-- **C2, counterexample.**  On the concrete graph `exNet`, node `m` has
the non-recomputable target `mm` and `tensor_meta` shape `[2, 3]`: its
in→out edge capacity is `12` (twice the element count), not infinite as
the claim requires for non-recomputable operators.  Further, view
operators are *not* classified recomputable (`view_ops` is defined but
never added to `recomputable_ops`), and even the view node's in→out
capacity is `12`, not its memory footprint `6`. -/
theorem recompute_capacity_counterexample :
    recomputableOps.contains "mm" = false ∧
    capOf (netEdges exNet) (.nin "m") (.nout "m") =
      some ((12 : Nat) : WithTop Nat) ∧
    some ((12 : Nat) : WithTop Nat) ≠ some (⊤ : WithTop Nat) ∧
    viewOps.contains "view" = true ∧
    recomputableOps.contains "view" = false ∧
    capOf (netEdges exNet) (.nin "v") (.nout "v") ≠
      some ((prodNat [2, 3] : Nat) : WithTop Nat) :=
  ⟨by decide, by decide, by decide, by decide, by decide, by decide⟩

/-- **C2, amended.**  In the flow network, a tangent-closure node gets no
in→out edge at all; every other node's in→out edge has capacity
`nodeWeight`: infinite when `tensor_meta` is absent, the element count for
a primal-named placeholder, and twice the element count otherwise —
independently of the recomputability classification.  Non-recomputability
(a classification covering pointwise, reduction, normalization and cast
operators but *excluding* the view operators) is instead encoded by an
infinite `source → in` anchor edge. -/
theorem recompute_network_capacities (g : Graph V) (n : Node V)
    (hnd : (g.map Node.name).Nodup) (hn : n ∈ g) :
    (n.name ∈ tangentClosure g →
      capOf (netEdges g) (.nin n.name) (.nout n.name) = none) ∧
    (n.name ∉ tangentClosure g →
      capOf (netEdges g) (.nin n.name) (.nout n.name) = some (nodeWeight n)) ∧
    (capOf (netEdges g) .source (.nin n.name) = some ⊤ ↔
      (n.name ∉ tangentClosure g ∧
        (isPrimalsNamedPH n = true ∨ isRecomputableNode n = false))) ∧
    (∀ s ∈ viewOps, recomputableOps.contains s = false) := by
  refine ⟨fun hcl => ?_, fun hcl => ?_, ?_, by decide⟩
  · rw [capOf_inout g n hnd hn, if_pos hcl]
  · rw [capOf_inout g n hnd hn, if_neg hcl]
  · rw [capOf_source g n hnd hn]
    by_cases hc : n.name ∉ tangentClosure g ∧
        (isPrimalsNamedPH n = true ∨ isRecomputableNode n = false)
    · simp [hc]
    · simp [hc]

/-- Witness for the amended C2 at node `m` of `exNet`. -/
theorem recompute_network_capacities_witness :
    (exNet.map Node.name).Nodup ∧
    ((exM.name ∈ tangentClosure exNet →
      capOf (netEdges exNet) (.nin exM.name) (.nout exM.name) = none) ∧
    (exM.name ∉ tangentClosure exNet →
      capOf (netEdges exNet) (.nin exM.name) (.nout exM.name) =
        some (nodeWeight exM)) ∧
    (capOf (netEdges exNet) .source (.nin exM.name) = some ⊤ ↔
      (exM.name ∉ tangentClosure exNet ∧
        (isPrimalsNamedPH exM = true ∨ isRecomputableNode exM = false))) ∧
    (∀ s ∈ viewOps, recomputableOps.contains s = false)) :=
  ⟨by decide, recompute_network_capacities exNet exM (by decide) (by decide)⟩

end C2

/-! ### Claim C5 -/

section C5
variable {V : Type}

/-- **C5.**  For any source/sink partition of the flow network whose
crossing edges all have finite capacity (what `nx.minimum_cut` returns —
it raises on an infinite-capacity path), every cut edge is the internal
in→out edge of a single non-closure graph node; in particular no cut edge
is incident to the synthetic source or sink, and the name-pairing assert
of line 296 never fires (`cutNodeNames` succeeds). -/
theorem min_cut_only_inout_edges (g : Graph V) (inS : NVert → Bool)
    (hfin : ∀ e ∈ cutEdges (netEdges g) inS, e.2.2 ≠ (⊤ : WithTop Nat)) :
    (∀ e ∈ cutEdges (netEdges g) inS,
      e.1 ≠ NVert.source ∧ e.1 ≠ NVert.sink ∧
      e.2.1 ≠ NVert.source ∧ e.2.1 ≠ NVert.sink ∧
      ∃ m ∈ g, m.name ∉ tangentClosure g ∧
        e = (NVert.nin m.name, NVert.nout m.name, nodeWeight m)) ∧
    ∃ names, cutNodeNames (cutEdges (netEdges g) inS) = some names := by
  have hshape : ∀ e ∈ cutEdges (netEdges g) inS,
      ∃ m ∈ g, m.name ∉ tangentClosure g ∧
        e = (NVert.nin m.name, NVert.nout m.name, nodeWeight m) := by
    intro e he
    have hmem : e ∈ netEdges g := List.mem_filter.mp he |>.1
    obtain ⟨m, hm, hme⟩ := List.mem_flatMap.mp hmem
    rcases nodeNetEdges_shape g _ m e hme with ⟨-, rfl⟩ | ⟨hcl, (rfl | rfl | ⟨u, rfl⟩)⟩
    · exact absurd rfl (hfin _ he)
    · exact absurd rfl (hfin _ he)
    · exact ⟨m, hm, by simpa using hcl, rfl⟩
    · exact absurd rfl (hfin _ he)
  refine ⟨fun e he => ?_, ?_⟩
  · obtain ⟨m, hm, hcl, rfl⟩ := hshape e he
    exact ⟨by simp, by simp, by simp, by simp, m, hm, hcl, rfl⟩
  · refine mapMOpt_total _ _ (fun e he => ?_)
    obtain ⟨m, -, -, rfl⟩ := hshape e he
    exact ⟨m.name, by simp⟩

/-- Witness for C5: the network of the concrete joint graph with the
finite cut whose source side is `{source, a_in}`. -/
theorem min_cut_only_inout_edges_witness :
    (∀ e ∈ cutEdges (netEdges exJoint)
        (fun v => v == NVert.source || v == NVert.nin "a"),
      e.2.2 ≠ (⊤ : WithTop Nat)) ∧
    ((∀ e ∈ cutEdges (netEdges exJoint)
        (fun v => v == NVert.source || v == NVert.nin "a"),
      e.1 ≠ NVert.source ∧ e.1 ≠ NVert.sink ∧
      e.2.1 ≠ NVert.source ∧ e.2.1 ≠ NVert.sink ∧
      ∃ m ∈ exJoint, m.name ∉ tangentClosure exJoint ∧
        e = (NVert.nin m.name, NVert.nout m.name, nodeWeight m)) ∧
    ∃ names, cutNodeNames (cutEdges (netEdges exJoint)
        (fun v => v == NVert.source || v == NVert.nin "a")) = some names) :=
  ⟨by decide,
    min_cut_only_inout_edges exJoint
      (fun v => v == NVert.source || v == NVert.nin "a") (by decide)⟩

end C5

/-! ### Claim C7 -/

section C7
variable {V : Type}

lemma routeGrads_spec (needs : List Bool) (outs : List V)
    (hlen : countTrue needs ≤ outs.length) :
    ∃ l, routeGrads needs outs = some l ∧
      l.length = needs.length ∧
      (∀ i : Nat, needs[i]? = some false → l[i]? = some none) ∧
      l.filterMap id = outs.take (countTrue needs) := by
  induction needs generalizing outs with
  | nil => exact ⟨[], rfl, rfl, by intro i h; simp at h, by simp [countTrue]⟩
  | cons b rest ih =>
    cases b with
    | false =>
      obtain ⟨l, hl, hlen', hidx, hfm⟩ := ih outs (by simpa [countTrue] using hlen)
      refine ⟨none :: l, ?_, by simp [hlen'], ?_, ?_⟩
      · rw [routeGrads, hl]; rfl
      · intro i hi
        match i with
        | 0 => simp
        | i + 1 =>
          rw [List.getElem?_cons_succ] at hi ⊢
          exact hidx i hi
      · simpa [countTrue] using hfm
    | true =>
      cases outs with
      | nil => simp [countTrue] at hlen
      | cons v outs' =>
        obtain ⟨l, hl, hlen', hidx, hfm⟩ := ih outs' (by
          simp only [countTrue] at hlen
          simpa using Nat.le_of_succ_le_succ hlen)
        refine ⟨some v :: l, ?_, by simp [hlen'], ?_, ?_⟩
        · rw [routeGrads, hl]; rfl
        · intro i hi
          match i with
          | 0 => simp at hi
          | i + 1 =>
            rw [List.getElem?_cons_succ] at hi ⊢
            exact hidx i hi
        · simp [countTrue, hfm]

lemma filterRequiresGrad_length (ps : List (V × Bool)) :
    (filterRequiresGrad ps).length = countTrue (ps.map Prod.snd) := by
  induction ps with
  | nil => rfl
  | cons p t ih =>
    have hmap : (p :: t).map Prod.snd = p.2 :: t.map Prod.snd := rfl
    rw [hmap]
    cases hp : p.2 with
    | false =>
      rw [show filterRequiresGrad (p :: t) = filterRequiresGrad t from by
        simp [filterRequiresGrad, List.filter_cons, hp]]
      rw [ih]
      rfl
    | true =>
      rw [show filterRequiresGrad (p :: t) = p.1 :: filterRequiresGrad t from by
        simp [filterRequiresGrad, List.filter_cons, hp]]
      rw [List.length_cons, ih]
      rfl

/-- **C7.**  For `n` flattened inputs with grad-requiring subset `S` (the
`requires_grad` flags, mirrored by autograd in `ctx.needs_input_grad`),
the joint function differentiates exactly the `|S|` grad-requiring leaves
in original order, and — provided the compiled backward returned at least
`|S|` results — the backward call returns exactly `n` slots: `None` at
every non-`S` position, and the compiled-backward results, in original
flattened input order, at the `S` positions. -/
theorem backward_gradient_routing (ps : List (V × Bool)) (outs : List V)
    (hlen : countTrue (ps.map Prod.snd) ≤ outs.length) :
    (filterRequiresGrad ps).length = countTrue (ps.map Prod.snd) ∧
    ∃ l, routeGrads (ps.map Prod.snd) outs = some l ∧
      l.length = ps.length ∧
      (∀ i : Nat, (ps.map Prod.snd)[i]? = some false → l[i]? = some none) ∧
      l.filterMap id = outs.take (countTrue (ps.map Prod.snd)) := by
  refine ⟨filterRequiresGrad_length ps, ?_⟩
  simpa [List.length_map] using routeGrads_spec (ps.map Prod.snd) outs hlen

/-- Witness for C7: three inputs, the first and third requiring grad, two
compiled-backward results. -/
theorem backward_gradient_routing_witness :
    countTrue ([((5 : Int), true), (7, false), (9, true)].map Prod.snd) ≤
      [(10 : Int), 20].length ∧
    ((filterRequiresGrad [((5 : Int), true), (7, false), (9, true)]).length =
      countTrue ([((5 : Int), true), (7, false), (9, true)].map Prod.snd) ∧
    ∃ l, routeGrads ([((5 : Int), true), (7, false), (9, true)].map Prod.snd)
        [(10 : Int), 20] = some l ∧
      l.length = [((5 : Int), true), (7, false), (9, true)].length ∧
      (∀ i : Nat, ([((5 : Int), true), (7, false), (9, true)].map Prod.snd)[i]? =
          some false → l[i]? = some none) ∧
      l.filterMap id = [(10 : Int), 20].take
        (countTrue ([((5 : Int), true), (7, false), (9, true)].map Prod.snd))) :=
  ⟨by decide,
    backward_gradient_routing [((5 : Int), true), (7, false), (9, true)]
      [(10 : Int), 20] (by decide)⟩

end C7

/-! ### Claim C8 -/

section C8

/-- **C8, counterexample.**  A cache-miss call whose forward compiler
raises nevertheless leaves an entry in the cache: `returned_function`
inserts the lazily-compiled unit (line 479) before its first execution
(line 486), so the claim "nothing is inserted into the cache for that
key" fails. -/
theorem compiler_failure_cache_counterexample :
    cacheAt (returnedFunctionCall [] 0 false true).1 0 = some ⟨false, false⟩ ∧
    (returnedFunctionCall [] 0 false true).2.1 = false ∧
    cacheAt (returnedFunctionCall [] 0 false true).1 0 ≠ none :=
  ⟨by decide, by decide, by decide⟩

/-- **C8, amended.**  A compiler failure during a cache-miss attempt is
fatal for that call, but the wrapped unit has already been inserted into
the cache: after a forward-compiler failure the cached unit is still
uncompiled and a retried call with the same key re-attempts (and here
completes) both compilations through the cached unit; after a
backward-compiler failure the cached unit keeps its compiled forward, and
a retried call reuses it without attempting any compilation, leaving the
backward permanently uncompiled. -/
theorem compiler_failure_cache_state (k : Nat) :
    (cacheAt (returnedFunctionCall [] k false true).1 k = some ⟨false, false⟩ ∧
      (returnedFunctionCall [] k false true).2.1 = false ∧
      (returnedFunctionCall [] k false true).2.2 = [CompileEv.fwCompile] ∧
      (returnedFunctionCall (returnedFunctionCall [] k false true).1 k true true).2.2 =
        [CompileEv.fwCompile, CompileEv.bwCompile] ∧
      (returnedFunctionCall (returnedFunctionCall [] k false true).1 k true true).2.1 =
        true ∧
      cacheAt (returnedFunctionCall (returnedFunctionCall [] k false true).1
        k true true).1 k = some ⟨true, true⟩) ∧
    (cacheAt (returnedFunctionCall [] k true false).1 k = some ⟨true, false⟩ ∧
      (returnedFunctionCall [] k true false).2.1 = false ∧
      (returnedFunctionCall (returnedFunctionCall [] k true false).1 k true true).2.2 =
        [] ∧
      (returnedFunctionCall (returnedFunctionCall [] k true false).1 k true true).2.1 =
        true ∧
      cacheAt (returnedFunctionCall (returnedFunctionCall [] k true false).1
        k true true).1 k = some ⟨true, false⟩) := by
  refine ⟨⟨?_, ?_, ?_, ?_, ?_, ?_⟩, ⟨?_, ?_, ?_, ?_, ?_⟩⟩ <;>
    simp [returnedFunctionCall, unitForward, cacheAt, cacheInsert, cacheUpdate,
      List.find?]

end C8

/-! ### Claim C9 -/

section C9

/-- **C9, counterexample.**  With networkx unavailable and the recompute
partitioner selected, the `RuntimeError` is raised when the partitioner is
first *invoked* — which happens inside the first cache-miss execution,
*after* the joint graph has been traced, not at partitioner-selection time
before any tracing. -/
theorem networkx_missing_counterexample :
    (forwardFirstCall false).1 =
      Except.error "Need networkx installed to perform smart recomputation heuristics" ∧
    TraceEv.traceJoint ∈ (forwardFirstCall false).2 :=
  ⟨rfl, by decide⟩

/-- **C9, amended.**  When networkx is unavailable, the recompute-aware
partitioner fails fast with a `RuntimeError` as its first action — before
building any network or partition, with no silent fallback to the default
partitioner — but the error surfaces only when the partitioner is first
invoked, i.e. on the first cache-miss execution, after tracing and before
any compilation. -/
theorem networkx_missing_fail_fast {V : Type} (m : JointModule V)
    (inS : NVert → Bool) (savedList : List String) :
    partitionRecompute m false inS savedList = none ∧
    (forwardFirstCall false).1 =
      Except.error "Need networkx installed to perform smart recomputation heuristics" ∧
    (forwardFirstCall false).2 = [TraceEv.traceJoint, TraceEv.partitionInvoked] ∧
    TraceEv.fwCompiled ∉ (forwardFirstCall false).2 ∧
    TraceEv.bwCompiled ∉ (forwardFirstCall false).2 :=
  ⟨by simp [partitionRecompute], rfl, rfl, by decide, by decide⟩

end C9

/-! ### Claim C10 -/

section C10

/-- **C10, counterexample.**  After `clear_compile_cache()` the global
reference is `None`; invoking an *already-wrapped* callable then
dereferences `None` (`compile_cache.at`) and raises `AttributeError` —
it does not construct a fresh cache. -/
theorem clear_cache_counterexample :
    numOfRecompilations (clearCompileCache (some [1, 2])) = 0 ∧
    clearCompileCache (some [1, 2]) = none ∧
    wrappedCallTouchCache (clearCompileCache (some [1, 2])) =
      Except.error "AttributeError: NoneType object has no attribute at" :=
  ⟨rfl, rfl, rfl⟩

/-- **C10, amended.**  After `clear_compile_cache()`,
`num_of_recompilations()` returns 0 and the global cache reference is
reset to absent; a fresh cache object is constructed by the next call to
`compiled_function` (wrapping a new function), while invoking an
already-wrapped callable dereferences the absent cache and raises. -/
theorem clear_cache_behavior (g : Option GCache) :
    numOfRecompilations (clearCompileCache g) = 0 ∧
    clearCompileCache g = none ∧
    compiledFunctionInit (clearCompileCache g) = some [] ∧
    wrappedCallTouchCache (clearCompileCache g) =
      Except.error "AttributeError: NoneType object has no attribute at" := by
  cases g <;>
    exact ⟨rfl, rfl, rfl, rfl⟩

end C10

/-! ### Claim C1 -/

section C1

/-- **C1.**  For every joint graph and for both partitioners
(`default_partition` and `partition_with_recompute_fwd_in_bwd`), executing
the produced forward graph on the primal inputs and then the produced
backward graph on the saved values threaded together with the tangent
inputs yields exactly the same forward outputs and gradients as evaluating
the undivided joint graph on the same inputs. -/
theorem partition_exec_equals_joint {V : Type} (interp : String → List V → V)
    (attrs : String → Option V) (m : JointModule V) (p t J : List V)
    (hwf : wfB m.graph = true)
    (hsplit : phNames m.graph =
      primalInputNames m.graph ++ tangentInputNames m.graph)
    (hp : p.length = (primalInputNames m.graph).length)
    (hJ : evalModule interp attrs m.graph (p ++ t) = some J) :
    (∀ (savedOrder : List String) (F B : Graph V),
      savedOrder.Perm (colorFold m.graph).2 →
      (∀ a ∈ (outputArgs m.graph).drop m.numFwd,
        ∃ x, a = Arg.node x ∧ x ∈ (colorFold m.graph).1) →
      defaultPartition m savedOrder = some (F, B) →
      ∃ fwRes bwRes,
        evalModule interp attrs F p = some fwRes ∧
        evalModule interp attrs B (fwRes.drop m.numFwd ++ t) = some bwRes ∧
        fwRes.take m.numFwd = J.take m.numFwd ∧
        bwRes = J.drop m.numFwd) ∧
    (∀ (nxAvailable : Bool) (inS : NVert → Bool) (savedList : List String)
      (F B : Graph V),
      (∀ n ∈ m.graph, n.op = .getAttr → argNames n = []) →
      m.numFwd ≤ (outputArgs m.graph).length →
      savedList.Nodup →
      (∀ s ∈ savedList, s ∉ tangentInputNames m.graph) →
      partitionRecompute m nxAvailable inS savedList = some (F, B) →
      ∃ fwRes bwRes,
        evalModule interp attrs F p = some fwRes ∧
        evalModule interp attrs B (fwRes.drop m.numFwd ++ t) = some bwRes ∧
        fwRes.take m.numFwd = J.take m.numFwd ∧
        bwRes = J.drop m.numFwd) :=
  ⟨fun savedOrder F B hperm hbwdrefs hpart =>
    defaultPartition_sound interp attrs m savedOrder F B p t J hwf hsplit hp
      hperm hbwdrefs hpart hJ,
   fun nxAvailable inS savedList F B hga hnumF hsnodup hstang hpart =>
    partitionRecompute_sound interp attrs m nxAvailable inS savedList F B p t J
      hwf hga hsplit hp hnumF hsnodup hstang hpart hJ⟩

/-- Witness for C1 on the concrete joint graph `exJoint` (primal value 2,
tangent value 5, joint outputs `[4, 20]`): the default partitioner with
saved-set order `[c]` and the recompute partitioner with the finite cut
`{s, c}` both reproduce the joint outputs. -/
theorem partition_exec_equals_joint_witness :
    ∃ F1 B1 F2 B2,
      defaultPartition ⟨exJoint, 1, 1⟩ ["c"] = some (F1, B1) ∧
      partitionRecompute ⟨exJoint, 1, 1⟩ true
        (fun v => v == NVert.source || v == NVert.nin "a" ||
          v == NVert.nout "a" || v == NVert.nin "s" || v == NVert.nin "c")
        ["s", "c"] = some (F2, B2) ∧
      (∃ fwRes bwRes,
        evalModule exInterp exAttrs F1 [2] = some fwRes ∧
        evalModule exInterp exAttrs B1 (fwRes.drop 1 ++ [5]) = some bwRes ∧
        fwRes.take 1 = ([4, 20] : List Int).take 1 ∧
        bwRes = ([4, 20] : List Int).drop 1) ∧
      (∃ fwRes bwRes,
        evalModule exInterp exAttrs F2 [2] = some fwRes ∧
        evalModule exInterp exAttrs B2 (fwRes.drop 1 ++ [5]) = some bwRes ∧
        fwRes.take 1 = ([4, 20] : List Int).take 1 ∧
        bwRes = ([4, 20] : List Int).drop 1) := by
  obtain ⟨P1, hP1⟩ : ∃ P, defaultPartition ⟨exJoint, 1, 1⟩ ["c"] = some P := by
    cases hd : defaultPartition ⟨exJoint, 1, 1⟩ ["c"] with
    | none => exact absurd hd (by decide)
    | some P => exact ⟨P, rfl⟩
  obtain ⟨F1, B1⟩ := P1
  obtain ⟨P2, hP2⟩ : ∃ P, partitionRecompute ⟨exJoint, 1, 1⟩ true
      (fun v => v == NVert.source || v == NVert.nin "a" ||
        v == NVert.nout "a" || v == NVert.nin "s" || v == NVert.nin "c")
      ["s", "c"] = some P := by
    cases hd : partitionRecompute ⟨exJoint, 1, 1⟩ true
        (fun v => v == NVert.source || v == NVert.nin "a" ||
          v == NVert.nout "a" || v == NVert.nin "s" || v == NVert.nin "c")
        ["s", "c"] with
    | none => exact absurd hd (by decide)
    | some P => exact ⟨P, rfl⟩
  obtain ⟨F2, B2⟩ := P2
  have hmain := partition_exec_equals_joint exInterp exAttrs ⟨exJoint, 1, 1⟩
    [2] [5] [4, 20] (by decide) (by decide) (by decide) (by decide)
  refine ⟨F1, B1, F2, B2, hP1, hP2, ?_, ?_⟩
  · refine hmain.1 ["c"] F1 B1 (by decide) ?_ hP1
    intro a ha
    have hlist : (outputArgs exJoint).drop 1 = [Arg.node "g"] := by decide
    rw [hlist, List.mem_singleton] at ha
    exact ⟨"g", ha, by decide⟩
  · exact hmain.2 true _ ["s", "c"] F2 B2 (by decide) (by decide) (by decide)
      (by decide) hP2

end C1

end Aot
